import Mathlib

/-!
Verification of `ju1ar/dhsbpp`, package `tree`.

A shallow embedding of `src/tree/tree.go`.

* Pointers (`*Node`, `*PartitionNode`) are natural-number addresses into a heap that is a total
  function from addresses to records; `nil` is `none : Option Nat`.
* A Go `map` that the code ranges over is the list of its entries in iteration order
  (keys pairwise distinct); quantifying over that list quantifies over every iteration order.
* Recursion and the `ptr = ptr.Parent` loops are driven by a fuel argument.  Running out of fuel
  and dereferencing `nil` are the two faults; both are kept apart from Go's ordinary `error`
  values.
* `int64` is `Int` wrapped into the signed 64-bit range after every addition and subtraction.
* Slices are immutable lists.
-/

namespace Dhsbpp

/-- Abnormal ends of a run: a nil dereference (a Go panic), or the fuel ran out. -/
inductive Fault where
  | nilDeref
  | outOfFuel
  deriving DecidableEq, Repr

/-- The `error` values created by `errors.New` in `tree.go`. -/
inductive GoError where
  | treeNotValid
  | needRoot
  | needPartitionRoot
  | alreadyInitial
  deriving DecidableEq, Repr

/-! ## Plain tree -/

/-- The record `Node` of `tree.go`. -/
structure Node where
  Name : String
  Parent : Option Nat
  Children : List Nat
  deriving DecidableEq, Repr

/-- Heap of plain nodes. -/
abbrev Heap := Nat → Node

/-- The zero value of `Node`. -/
def Node.zero : Node := ⟨"", none, []⟩

/-- Local state of `buildTree`: the heap with its allocation pointer, `nameToNode` and `root`. -/
structure BuildState where
  heap : Heap
  next : Nat
  nameToNode : String → Option Nat
  root : Option Nat

/-- State at entry of `buildTree`. -/
def BuildState.init : BuildState := ⟨fun _ => Node.zero, 0, fun _ => none, none⟩

/-- The statement `_, ok := nameToNode[name]; if !ok { nameToNode[name] = &Node{Name: name} }`. -/
def ensureNode (s : BuildState) (name : String) : BuildState :=
  match s.nameToNode name with
  | some _ => s
  | none =>
    { s with
      heap := Function.update s.heap s.next ⟨name, none, []⟩
      next := s.next + 1
      nameToNode := Function.update s.nameToNode name (some s.next) }

/-- One iteration of the `range tenantsToParent` loop of `buildTree`. -/
def buildStep (s : BuildState) (e : String × String) : Except Fault BuildState :=
  let s1 := ensureNode s e.2
  let s2 := ensureNode s1 e.1
  if e.1 = e.2 then
    .ok { s2 with root := s2.nameToNode e.1 }
  else
    match s2.nameToNode e.1, s2.nameToNode e.2 with
    | some c, some p =>
      let h1 : Heap := Function.update s2.heap c { s2.heap c with Parent := some p }
      let h2 : Heap := Function.update h1 p { h1 p with Children := (h1 p).Children ++ [c] }
      .ok { s2 with heap := h2 }
    | _, _ => .error .nilDeref

/-- The function `buildTree`; the result carries the heap together with the returned `root`. -/
def buildTree (tenantsToParent : List (String × String)) : Except Fault BuildState :=
  tenantsToParent.foldlM buildStep BuildState.init

/-- The method `allNodesFunc`. -/
def allNodesFunc (h : Heap) : Nat → Nat → List Nat → Except Fault (List Nat)
  | 0, _, _ => .error .outOfFuel
  | fuel + 1, node, allNodes =>
    (h node).Children.foldlM (fun acc child => allNodesFunc h fuel child acc) (allNodes ++ [node])

/-- The method `(*Node).isRoot`. -/
@[reducible] def Node.isRoot (node : Node) : Prop := node.Parent = none

/-- The method `AllNodes`: the slice and the `error` it returns; on a nil receiver `isRoot`
dereferences nil. -/
def AllNodes (fuel : Nat) (h : Heap) (node : Option Nat) :
    Except Fault (List Nat × Option GoError) :=
  match node with
  | none => .error .nilDeref
  | some n =>
    if ¬ (h n).isRoot then .ok ([], some .needRoot)
    else (allNodesFunc h fuel n []).map fun l => (l, none)

/-- A Go `map[*Node]bool` as the list of its entries. -/
abbrev VMap := List (Nat × Bool)

/-- Reading `visited[k]`; an absent key reads as `false`. -/
def VMap.get (m : VMap) (k : Nat) : Bool :=
  match m.find? (fun e => e.1 == k) with
  | some e => e.2
  | none => false

/-- The assignment `visited[k] = v`. -/
def VMap.set : VMap → Nat → Bool → VMap
  | [], k, v => [(k, v)]
  | e :: m, k, v => if e.1 = k then (k, v) :: m else e :: VMap.set m k v

/-- The `for _, child := range node.Children` loop of `isAcyclicDFS` with its early return. -/
def dfsChildren (rec : Nat → VMap → Except Fault (Bool × VMap)) :
    List Nat → VMap → Except Fault (Bool × VMap)
  | [], visited => .ok (true, visited)
  | child :: rest, visited =>
    match rec child visited with
    | .error f => .error f
    | .ok (false, visited1) => .ok (false, visited1)
    | .ok (true, visited1) => dfsChildren rec rest visited1

/-- The function `isAcyclicDFS`; the map is returned with the marks made. -/
def isAcyclicDFS (h : Heap) : Nat → Nat → VMap → Except Fault (Bool × VMap)
  | 0, _, _ => .error .outOfFuel
  | fuel + 1, node, visited =>
    if visited.get node = true then .ok (false, visited)
    else dfsChildren (isAcyclicDFS h fuel) (h node).Children (visited.set node true)

/-- The function `ValidateTree`. -/
def ValidateTree (fuel : Nat) (h : Heap) (root : Option Nat) : Except Fault Bool :=
  match AllNodes fuel h root with
  | .error f => .error f
  | .ok (_, some _) => .ok false
  | .ok (allNodes, none) =>
    match root with
    | none => .error .nilDeref
    | some r =>
      let visited : VMap := allNodes.foldl (fun m node => m.set node false) []
      match isAcyclicDFS h fuel r visited with
      | .error f => .error f
      | .ok (acyclic, visited1) =>
        let allVisited := visited1.all fun e => e.2
        .ok (acyclic && allVisited)

/-- What `NewTree` hands back: the heap it built, and the pair `(*Node, error)`. -/
structure TreeResult where
  heap : Heap
  root : Option Nat
  err : Option GoError

/-- The function `NewTree`. -/
def NewTree (fuel : Nat) (childToParent : List (String × String)) : Except Fault TreeResult :=
  match buildTree childToParent with
  | .error f => .error f
  | .ok s =>
    match ValidateTree fuel s.heap s.root with
    | .error f => .error f
    | .ok false => .ok ⟨s.heap, none, some .treeNotValid⟩
    | .ok true => .ok ⟨s.heap, s.root, none⟩

/-- Names of the nodes at the given addresses. -/
def namesOf (h : Heap) (l : List Nat) : List String := l.map fun p => (h p).Name

/-! ## Partition tree -/

/-- Go's `int64` wrap-around: the representative of `x` modulo `2^64` in `[-2^63, 2^63)`. -/
def wrap64 (x : Int) : Int :=
  (x + 9223372036854775808) % 18446744073709551616 - 9223372036854775808

/-- The `int64` operation `a + b`. -/
def add64 (a b : Int) : Int := wrap64 (a + b)

/-- The `int64` operation `a - b`. -/
def sub64 (a b : Int) : Int := wrap64 (a - b)

/-- The record `PartitionNode` of `tree.go`. -/
structure PartitionNode where
  Name : String
  Parent : Option Nat
  Children : List Nat
  NodeSize : Int
  SubTreeSize : Int
  deriving DecidableEq, Repr

/-- Heap of partition nodes. -/
abbrev PHeap := Nat → PartitionNode

/-- The zero value `PartitionNode{}`. -/
def PartitionNode.zero : PartitionNode := ⟨"", none, [], 0, 0⟩

/-- The partition heap together with its allocation pointer. -/
structure CopyState where
  heap : PHeap
  next : Nat

/-- The empty partition heap. -/
def CopyState.init : CopyState := ⟨fun _ => PartitionNode.zero, 0⟩

/-- The function `copyTree`: allocates the copy of `root`, then copies the children in order,
appending each copy to the new node's `Children`. -/
def copyTree (src : Heap) : Nat → Nat → Option Nat → CopyState → Except Fault (Nat × CopyState)
  | 0, _, _, _ => .error .outOfFuel
  | fuel + 1, root, parent, st =>
    let pNode := st.next
    let st0 : CopyState :=
      ⟨Function.update st.heap pNode ⟨(src root).Name, parent, [], 0, 0⟩, st.next + 1⟩
    (src root).Children.foldlM
      (fun (acc : Nat × CopyState) child =>
        match copyTree src fuel child (some pNode) acc.2 with
        | .error f => .error f
        | .ok (c, st1) =>
          .ok (pNode, ⟨Function.update st1.heap pNode
            { st1.heap pNode with Children := (st1.heap pNode).Children ++ [c] }, st1.next⟩))
      (pNode, st0)

/-- The function `NewPartitionTree`. -/
def NewPartitionTree (fuel : Nat) (src : Heap) (root : Option Nat) :
    Except Fault (Nat × CopyState) :=
  match root with
  | none => .error .nilDeref
  | some r => copyTree src fuel r none CopyState.init

/-- The method `mapNameToPartitionNodeFunc`. -/
def mapNameToPartitionNodeFunc (h : PHeap) :
    Nat → Nat → (String → Option Nat) → Except Fault (String → Option Nat)
  | 0, _, _ => .error .outOfFuel
  | fuel + 1, pNode, nameToPartNode =>
    (h pNode).Children.foldlM (fun m child => mapNameToPartitionNodeFunc h fuel child m)
      (Function.update nameToPartNode (h pNode).Name (some pNode))

/-- The method `(*PartitionNode).isRoot`. -/
@[reducible] def PartitionNode.isRoot (pNode : PartitionNode) : Prop := pNode.Parent = none

/-- The method `MapNameToPartitionNode`. -/
def MapNameToPartitionNode (fuel : Nat) (h : PHeap) (pNode : Nat) :
    Except Fault ((String → Option Nat) × Option GoError) :=
  if ¬ (h pNode).isRoot then .ok (fun _ => none, some .needPartitionRoot)
  else (mapNameToPartitionNodeFunc h fuel pNode fun _ => none).map fun m => (m, none)

/-- A loop `for ptr := start; ptr != nil; ptr = ptr.Parent { body }`. -/
def forAncestors (body : PHeap → Nat → PHeap) : Nat → PHeap → Option Nat → Except Fault PHeap
  | _, h, none => .ok h
  | 0, _, some _ => .error .outOfFuel
  | fuel + 1, h, some ptr =>
    let h1 := body h ptr
    forAncestors body fuel h1 (h1 ptr).Parent

/-- The method `AddToNodeSize`. -/
def AddToNodeSize (fuel : Nat) (h : PHeap) (pNode : Nat) (tasks : Int) : Except Fault PHeap :=
  let h1 : PHeap := Function.update h pNode
    { h pNode with NodeSize := add64 (h pNode).NodeSize tasks }
  forAncestors
    (fun g ptr => Function.update g ptr { g ptr with SubTreeSize := add64 (g ptr).SubTreeSize tasks })
    fuel h1 (some pNode)

/-- The method `RemoveChild`; the second loop deletes the first occurrence of `child`.  A
`Children` slice is a list value here: the effect of one call on the heap is the code's, while
the rewrite in place of a backing array that a slice still held by the caller shares is not
represented. -/
def RemoveChild (fuel : Nat) (h : PHeap) (pNode child : Nat) : Except Fault PHeap :=
  match forAncestors
    (fun g ptr => Function.update g ptr
      { g ptr with SubTreeSize := sub64 (g ptr).SubTreeSize (g child).SubTreeSize })
    fuel h (some pNode) with
  | .error f => .error f
  | .ok h1 => .ok (Function.update h1 pNode
      { h1 pNode with Children := (h1 pNode).Children.erase child })

/-- The method `AppendChild`. -/
def AppendChild (fuel : Nat) (h : PHeap) (pNode child : Nat) : Except Fault PHeap :=
  match forAncestors
    (fun g ptr => Function.update g ptr
      { g ptr with SubTreeSize := add64 (g ptr).SubTreeSize (g child).SubTreeSize })
    fuel h (some pNode) with
  | .error f => .error f
  | .ok h1 => .ok (Function.update h1 pNode
      { h1 pNode with Children := (h1 pNode).Children ++ [child] })

/-- The inner loop `for name, tasks := range tasksPerDay[i]` of `SetInitialSize`. -/
def addDay (fuel : Nat) (nameToPartNode : String → Option Nat) :
    List (String × Int) → PHeap → Except Fault PHeap
  | [], h => .ok h
  | (name, tasks) :: rest, h =>
    match nameToPartNode name with
    | none => .error .nilDeref
    | some n =>
      match AddToNodeSize fuel h n tasks with
      | .error f => .error f
      | .ok h1 => addDay fuel nameToPartNode rest h1

/-- The outer loop of `SetInitialSize` over the days it visits. -/
def addDays (fuel : Nat) (nameToPartNode : String → Option Nat) :
    List (List (String × Int)) → PHeap → Except Fault PHeap
  | [], h => .ok h
  | day :: rest, h =>
    match addDay fuel nameToPartNode day h with
    | .error f => .error f
    | .ok h1 => addDays fuel nameToPartNode rest h1

/-- The method `SetInitialSize`; the loop bound `i < initDays && i < len(tasksPerDay)` visits the
first `min initDays (len tasksPerDay)` days, none when `initDays` is negative. -/
def SetInitialSize (fuel : Nat) (h : PHeap) (pNode : Nat)
    (tasksPerDay : List (List (String × Int))) (initDays : Int) :
    Except Fault (PHeap × Option GoError) :=
  if ¬ (h pNode).isRoot then .ok (h, some .needPartitionRoot)
  else if (h pNode).SubTreeSize > 0 then .ok (h, some .alreadyInitial)
  else
    match MapNameToPartitionNode fuel h pNode with
    | .error f => .error f
    | .ok (_, some e) => .ok (h, some e)
    | .ok (nameToPartNode, none) =>
      match addDays fuel nameToPartNode (tasksPerDay.take initDays.toNat) h with
      | .error f => .error f
      | .ok h1 => .ok (h1, none)

/-- The comparison handed to `sort.Slice` by `SeparateRoot`, as a non-strict order:
`a` may stand before `b` when `less(b, a)` is false. -/
def sizeGe (h : PHeap) (a b : Nat) : Prop := (h b).SubTreeSize ≤ (h a).SubTreeSize

instance (h : PHeap) : DecidableRel (sizeGe h) := fun a b =>
  inferInstanceAs (Decidable ((h b).SubTreeSize ≤ (h a).SubTreeSize))

/-- The method `SeparateRoot`: the heap afterwards, `separate` and `forUnite`.  The library
routine `sort.Slice` is taken to be the insertion sort it runs on slices of at most 12 elements;
on longer slices it is not stable, so the order among nodes of equal `SubTreeSize` may differ
from the one computed here.  The general theorems about `separate` use only that it is a
permutation sorted by non-increasing `SubTreeSize`. -/
def SeparateRoot (h : PHeap) (pNode : Nat) : PHeap × List Nat × List Nat :=
  let forUnite := (h pNode).Children
  let h1 : PHeap := Function.update h pNode
    { h pNode with Children := [], SubTreeSize := (h pNode).NodeSize }
  let separate := forUnite ++ [pNode]
  (h1, separate.insertionSort (sizeGe h1), forUnite)

/-- The method `UniteRoot`. -/
def UniteRoot (h : PHeap) (pNode : Nat) (children : List Nat) : PHeap :=
  let h1 : PHeap := Function.update h pNode { h pNode with Children := children }
  (h1 pNode).Children.foldl
    (fun g ch => Function.update g pNode
      { g pNode with SubTreeSize := add64 (g pNode).SubTreeSize (g ch).SubTreeSize })
    h1

/-- The search loop of `SeparateMaxChild` over `(maxChild, maxSize)`. -/
def maxChildLoop (h : PHeap) : List Nat → Option Nat × Int → Option Nat × Int
  | [], acc => acc
  | child :: rest, acc =>
    if (h child).SubTreeSize ≥ acc.2 then maxChildLoop h rest (some child, (h child).SubTreeSize)
    else maxChildLoop h rest acc

/-- The method `SeparateMaxChild`: the heap afterwards, `separate` and `forUnite`
(the `nil` slices are empty lists). -/
def SeparateMaxChild (fuel : Nat) (h : PHeap) (pNode : Nat) :
    Except Fault (PHeap × List Nat × List Nat) :=
  match (maxChildLoop h (h pNode).Children (none, 0)).1 with
  | none => .ok (h, [], [])
  | some maxChild =>
    match RemoveChild fuel h pNode maxChild with
    | .error f => .error f
    | .ok h1 =>
      if (h1 maxChild).SubTreeSize > (h1 pNode).SubTreeSize then
        .ok (h1, [maxChild, pNode], [maxChild])
      else .ok (h1, [pNode, maxChild], [maxChild])

/-- The method `UniteMaxChild`. -/
def UniteMaxChild (fuel : Nat) (h : PHeap) (pNode : Nat) :
    List Nat → Except Fault PHeap
  | [] => .ok h
  | child :: rest =>
    match AppendChild fuel h pNode child with
    | .error f => .error f
    | .ok h1 => UniteMaxChild fuel h1 pNode rest

/-! ## Specification vocabulary: parent chains and pre-order listings -/

/-- The `k`-th ancestor of `x` along the parent map `par`, if the chain is that long. -/
def parIter (par : Nat → Option Nat) : Nat → Nat → Option Nat
  | 0, x => some x
  | k + 1, x => (par x).bind (parIter par k)

/-- The first `f` nodes of the parent chain that starts at the given pointer. -/
def ancF (par : Nat → Option Nat) : Nat → Option Nat → List Nat
  | _, none => []
  | 0, some _ => []
  | f + 1, some p => p :: ancF par f (par p)

/-- Pre-order listing below `n` along the children map `ch`, cut off below depth `f`. -/
def preT (ch : Nat → List Nat) : Nat → Nat → List Nat
  | 0, _ => []
  | f + 1, n => n :: (ch n).flatMap (preT ch f)

/-- Parent links and children lists describe the same edges among the first `N` addresses,
and no children list repeats an address. -/
structure Links (par : Nat → Option Nat) (ch : Nat → List Nat) (N : Nat) : Prop where
  child : ∀ p < N, ∀ c ∈ ch p, c < N ∧ par c = some p
  parent : ∀ c < N, ∀ p ∈ par c, p < N ∧ c ∈ ch p
  nodup : ∀ p < N, (ch p).Nodup

/-- Every node below `n` lies at depth less than `f`. -/
def Shallow (par : Nat → Option Nat) (N f : Nat) (n : Nat) : Prop :=
  ∀ x < N, ∀ k, parIter par k x = some n → k < f

/-- Parent map of a plain heap. -/
def Heap.par (h : Heap) : Nat → Option Nat := fun p => (h p).Parent

/-- Children map of a plain heap. -/
def Heap.ch (h : Heap) : Nat → List Nat := fun p => (h p).Children

/-- The marks `visited[a] = true` for every `a` of a list, in order. -/
def markAll (m : VMap) (l : List Nat) : VMap := l.foldl (fun m a => m.set a true) m

/-- All names that occur in an edge mapping, as child or as parent. -/
def edgeNames (es : List (String × String)) : List String := es.flatMap fun e => [e.1, e.2]

/-- Facts about the heap and `nameToNode` of `buildTree` once the entries `es` are linked. -/
structure CoreInv (s : BuildState) (es : List (String × String)) : Prop where
  links : Links s.heap.par s.heap.ch s.next
  name_ptr : ∀ name p, s.nameToNode name = some p ↔ p < s.next ∧ (s.heap p).Name = name
  alloc : ∀ e ∈ es, (s.nameToNode e.1).isSome ∧ (s.nameToNode e.2).isSome
  parent : ∀ c < s.next, ∀ p, (s.heap c).Parent = some p ↔
    p < s.next ∧ ((s.heap c).Name, (s.heap p).Name) ∈ es ∧ (s.heap c).Name ≠ (s.heap p).Name

/-- Loop invariant of `buildTree` after the entries `es`. -/
structure BuildInv (s : BuildState) (es : List (String × String)) extends CoreInv s es : Prop where
  dom : ∀ name p, s.nameToNode name = some p → name ∈ edgeNames es
  root_some : ∀ r, s.root = some r → ∃ e ∈ es, e.1 = e.2 ∧ s.nameToNode e.1 = some r
  root_none : s.root = none → ∀ e ∈ es, e.1 ≠ e.2
  next_le : s.next ≤ 2 * es.length

/-- The edge mappings the loader is meant to supply: a map (pairwise distinct keys) with the
self-edge `root -> root` as its only self-edge, in which every name is joined to `root` by a path
of child-to-parent entries. -/
def ValidMapping (es : List (String × String)) (root : String) : Prop :=
  (es.map Prod.fst).Nodup ∧ (root, root) ∈ es ∧ (∀ e ∈ es, e.1 = e.2 → e.1 = root) ∧
    ∀ name ∈ edgeNames es, Relation.ReflTransGen (fun a b => (a, b) ∈ es) name root

/-- The values an `int64` can hold. -/
def isInt64 (x : Int) : Prop := -9223372036854775808 ≤ x ∧ x < 9223372036854775808

instance (x : Int) : Decidable (isInt64 x) := by unfold isInt64; infer_instance

/-- Parent map of a partition heap. -/
def PHeap.par (h : PHeap) : Nat → Option Nat := fun p => (h p).Parent

/-- Children map of a partition heap. -/
def PHeap.ch (h : PHeap) : Nat → List Nat := fun p => (h p).Children

/-- A partition tree on the addresses below `N`: `Parent` links agree with the `Children`
lists, no `Children` list repeats a node, and every `Parent` chain ends (is finite and
acyclic). -/
def PWF (h : PHeap) (N : Nat) : Prop :=
  (∀ p < N, ∀ c ∈ (h p).Children, c < N ∧ (h c).Parent = some p) ∧
  (∀ c < N, ∀ p ∈ (h c).Parent, p < N ∧ c ∈ (h p).Children) ∧
  (∀ p < N, (h p).Children.Nodup) ∧
  (∀ x < N, parIter h.par N x = none)

instance (h : PHeap) (N : Nat) : Decidable (PWF h N) := by unfold PWF; infer_instance

/-- The subtree-sum invariant at node `n`, with the sum taken in `int64`. -/
def SumInv (h : PHeap) (n : Nat) : Prop :=
  (h n).SubTreeSize = wrap64 ((h n).NodeSize + ((h n).Children.map fun c => (h c).SubTreeSize).sum)

instance (h : PHeap) (n : Nat) : Decidable (SumInv h n) := by unfold SumInv; infer_instance

/-- The loop body `ptr.SubTreeSize = F(ptr.SubTreeSize)`. -/
def setSize (F : Int → Int) (g : PHeap) (ptr : Nat) : PHeap :=
  Function.update g ptr { g ptr with SubTreeSize := F (g ptr).SubTreeSize }

/-- Two partition heaps with the same names and the same links. -/
def SameLinks (h h' : PHeap) : Prop :=
  ∀ q, (h' q).Name = (h q).Name ∧ (h' q).Parent = (h q).Parent ∧
    (h' q).Children = (h q).Children

/-- Sum of the task counts of one day. -/
def dayTotal (day : List (String × Int)) : Int := (day.map Prod.snd).sum

/-- Sum of the task counts of a list of days. -/
def seriesTotal (days : List (List (String × Int))) : Int := (days.map dayTotal).sum

/-- The name index that `mapNameToPartitionNodeFunc` builds while it visits the nodes `l`. -/
def indexNames (h : PHeap) (l : List Nat) (m : String → Option Nat) : String → Option Nat :=
  l.foldl (fun m p => Function.update m (h p).Name (some p)) m

/-- A single-rooted partition tree on the addresses below `N`. -/
def Rooted (h : PHeap) (N root : Nat) : Prop :=
  root < N ∧ (h root).Parent = none ∧ ∀ x < N, x ≠ root → (h x).Parent ≠ none

instance (h : PHeap) (N root : Nat) : Decidable (Rooted h N root) := by
  unfold Rooted; infer_instance

/-- Sum of `NodeSize` over the nodes of a partition tree on the addresses below `N`. -/
def nodeSizeSum (h : PHeap) (N : Nat) : Int := ((List.range N).map fun q => (h q).NodeSize).sum

/-- What one run of a loop of `AddToNodeSize` calls establishes. -/
structure Added (N root : Nat) (g g' : PHeap) (t : Int) : Prop where
  same : SameLinks g g'
  inv : ∀ q < N, SumInv g q → SumInv g' q
  rootSize : (g' root).SubTreeSize ≡ (g root).SubTreeSize + t [ZMOD 18446744073709551616]
  rootRange : isInt64 (g root).SubTreeSize → isInt64 (g' root).SubTreeSize
  nodeSizes : nodeSizeSum g' N ≡ nodeSizeSum g N + t [ZMOD 18446744073709551616]

/-- A call of one of the public mutating operations of the partition tree. -/
inductive Op where
  | setInitialSize (root : Nat) (tasksPerDay : List (List (String × Int))) (initDays : Int)
  | addToNodeSize (n : Nat) (tasks : Int)
  | removeChild (p child : Nat)
  | appendChild (p child : Nat)
  | separateRoot (p : Nat)
  | uniteRoot (p : Nat) (children : List Nat)
  | separateMaxChild (p : Nat)
  | uniteMaxChild (p : Nat) (children : List Nat)

/-- The heap after one call; returned slices and `error` values are dropped. -/
def applyOp (fuel : Nat) (h : PHeap) : Op → Except Fault PHeap
  | .setInitialSize root tasksPerDay initDays =>
    (SetInitialSize fuel h root tasksPerDay initDays).map Prod.fst
  | .addToNodeSize n tasks => AddToNodeSize fuel h n tasks
  | .removeChild p child => RemoveChild fuel h p child
  | .appendChild p child => AppendChild fuel h p child
  | .separateRoot p => .ok (SeparateRoot h p).1
  | .uniteRoot p children => .ok (UniteRoot h p children)
  | .separateMaxChild p => (SeparateMaxChild fuel h p).map Prod.fst
  | .uniteMaxChild p children => UniteMaxChild fuel h p children

/-- The heap after a finite sequence of calls. -/
def runOps (fuel : Nat) : PHeap → List Op → Except Fault PHeap
  | h, [] => .ok h
  | h, op :: ops =>
    match applyOp fuel h op with
    | .error f => .error f
    | .ok h1 => runOps fuel h1 ops

/-- The calls that only change sizes along `Parent` chains: `AddToNodeSize` on a tree node, and
`SetInitialSize` on a tree node with every name of the visited days naming a tree node. -/
def SizeOp (h : PHeap) (N : Nat) : Op → Prop
  | .addToNodeSize n _ => n < N
  | .setInitialSize root tasksPerDay initDays =>
    root < N ∧ ∀ day ∈ tasksPerDay.take initDays.toNat, ∀ e ∈ day, ∃ x < N, (h x).Name = e.1
  | _ => False

/-- What `copyTree` has done when it returns `p` and moves the partition heap from `st` to
`st'`: the addresses below `st.next` are untouched, the new nodes fill `[st.next, st'.next)` with
`p = st.next` their topmost node, each new node is listed once in the `Children` of its `Parent`,
which is an earlier new node, and all sizes are zero. -/
structure Copied (st st' : CopyState) (p : Nat) (parent : Option Nat) : Prop where
  top : p = st.next
  next_lt : st.next < st'.next
  frame : ∀ a < st.next, st'.heap a = st.heap a
  topParent : (st'.heap p).Parent = parent
  childUp : ∀ a, st.next ≤ a → a < st'.next → ∀ c ∈ (st'.heap a).Children,
    a < c ∧ c < st'.next ∧ (st'.heap c).Parent = some a
  parentDown : ∀ a, st.next < a → a < st'.next →
    ∃ q, st.next ≤ q ∧ q < a ∧ (st'.heap a).Parent = some q ∧ a ∈ (st'.heap q).Children
  nodup : ∀ a, st.next ≤ a → a < st'.next → (st'.heap a).Children.Nodup
  zero : ∀ a, st.next ≤ a → a < st'.next →
    (st'.heap a).NodeSize = 0 ∧ (st'.heap a).SubTreeSize = 0

/-! ### Fixtures: the scenario of the specification -/

/-- The edges `A -> A, B -> A, C -> A, D -> B`. -/
def demoEdges : List (String × String) := [("A", "A"), ("B", "A"), ("C", "A"), ("D", "B")]

/-- Day-0 weights `{A:10, B:5, C:3, D:2}`. -/
def demoSeries : List (List (String × Int)) := [[("A", 10), ("B", 5), ("C", 3), ("D", 2)]]

/-- The plain heap that `NewTree` builds from `demoEdges`; its root is address `0`. -/
def demoPlain : Heap :=
  match NewTree 8 demoEdges with
  | .ok r => r.heap
  | .error _ => fun _ => Node.zero

/-- The state in which `NewPartitionTree` leaves the partition heap on `demoPlain`. -/
def demoCopy : CopyState :=
  match NewPartitionTree 8 demoPlain (some 0) with
  | .ok r => r.2
  | .error _ => CopyState.init

/-- The partition heap that `NewPartitionTree` copies from `demoPlain`: `A` at `0`, `B` at `1`,
`D` at `2`, `C` at `3`. -/
def demoPart : PHeap := demoCopy.heap

/-- The partition heap after `SetInitialSize(demoSeries, 1)`. -/
def demoInit : PHeap :=
  match SetInitialSize 8 demoPart 0 demoSeries 1 with
  | .ok r => r.1
  | .error _ => fun _ => PartitionNode.zero

/-- The partition heap copied from the edges `A -> A, B -> A`: `A` at `0`, `B` at `1`. -/
def pairPart : PHeap :=
  match NewTree 8 [("A", "A"), ("B", "A")] with
  | .error _ => fun _ => PartitionNode.zero
  | .ok r =>
    match NewPartitionTree 8 r.heap r.root with
    | .ok c => c.2.heap
    | .error _ => fun _ => PartitionNode.zero

/-- The heap `pairPart` after `SetInitialSize` with the day-0 weights `{B: -1}`. -/
def pairNeg : PHeap :=
  match SetInitialSize 8 pairPart 0 [[("B", -1)]] 1 with
  | .ok r => r.1
  | .error _ => fun _ => PartitionNode.zero

/-- The heap `demoPart` after `SetInitialSize` with the day-0 weights `{B: 3, C: 3}`: the two
children `B` (at `1`) and `C` (at `3`) of `A` tie at `SubTreeSize 3`. -/
def demoTie : PHeap :=
  match SetInitialSize 8 demoPart 0 [[("B", 3), ("C", 3)]] 1 with
  | .ok r => r.1
  | .error _ => fun _ => PartitionNode.zero

/-- The heap after `SeparateMaxChild(A)` on the initialised scenario tree: `B` is detached,
`A` keeps the child `C` and has `SubTreeSize 13`, and `B.Parent` still is `A`. -/
def demoPeeled : PHeap :=
  match SeparateMaxChild 8 demoInit 0 with
  | .ok r => r.1
  | .error _ => fun _ => PartitionNode.zero

/-- The heap after `SeparateRoot(A)` on the initialised scenario tree: `A` has no children and
`SubTreeSize 10`, and `B` (with its child `D`) and `C` still have `A` as `Parent`. -/
def demoSplit : PHeap := (SeparateRoot demoInit 0).1

/-- What stays true of a node `c` after a call that detached it, with `h` the heap before the
call and `h1` the heap after it: no `Parent` field has changed, and `AddToNodeSize(tasks)` on `c`
runs to completion and adds `tasks` to `SubTreeSize` of every node on the `Parent` chain of `c`;
whenever `c.Parent` designated `p` before the call it still does, and these nodes include `p`
and every ancestor of `p`. -/
def StillLinked (h h1 : PHeap) (fuel p c : Nat) (tasks : Int) : Prop :=
  (∀ q, (h1 q).Parent = (h q).Parent) ∧
    ∃ h2, AddToNodeSize fuel h1 c tasks = .ok h2 ∧
      (∀ a ∈ ancF h.par fuel (some c), (h2 a).SubTreeSize = add64 (h1 a).SubTreeSize tasks) ∧
      ((h c).Parent = some p → (h1 c).Parent = some p ∧
        ∀ a ∈ ancF h.par fuel (some p), (h2 a).SubTreeSize = add64 (h1 a).SubTreeSize tasks)

/-- The map `f` from plain nodes to partition nodes presents the partition nodes at the
addresses `[lo, hi)` of `h'` as the copies of the plain nodes `T`: the copy of a node has its
name, the children of the copy are the copies of its children in the same order, every address
of the range is the copy of a node of `T`, and distinct nodes have distinct copies. -/
structure Shaped (src : Heap) (h' : PHeap) (lo hi : Nat) (f : Nat → Nat) (T : List Nat) :
    Prop where
  mirror : ∀ x ∈ T, lo ≤ f x ∧ f x < hi ∧ (h' (f x)).Name = (src x).Name ∧
    (h' (f x)).Children = (src x).Children.map f
  onto : ∀ a, lo ≤ a → a < hi → ∃ x ∈ T, f x = a
  inj : ∀ x ∈ T, ∀ y ∈ T, f x = f y → x = y

/-! ## Theorems -/

section Chains

variable {par : Nat → Option Nat} {ch : Nat → List Nat} {N : Nat}

theorem parIter_succ_back (k : Nat) (x : Nat) :
    parIter par (k + 1) x = (parIter par k x).bind par := by
  induction k generalizing x with
  | zero => simp [parIter]
  | succ k ih =>
    rw [parIter]
    cases hx : par x with
    | none => simp [parIter, hx]
    | some p =>
      show parIter par (k + 1) p = (parIter par (k + 1) x).bind par
      rw [ih p]
      simp [parIter, hx]

theorem parIter_add (a b : Nat) (x : Nat) :
    parIter par (a + b) x = (parIter par a x).bind (parIter par b) := by
  induction a generalizing x with
  | zero => simp [parIter]
  | succ a ih =>
    rw [Nat.succ_add, parIter, parIter]
    cases hx : par x with
    | none => simp
    | some p => simp [ih p]

theorem mem_ancF {f : Nat} {x n : Nat} :
    n ∈ ancF par f (some x) ↔ ∃ k < f, parIter par k x = some n := by
  induction f generalizing x with
  | zero => simp [ancF]
  | succ f ih =>
    rw [ancF, List.mem_cons]
    constructor
    · rintro (rfl | h)
      · exact ⟨0, Nat.succ_pos _, rfl⟩
      · cases hx : par x with
        | none => rw [hx] at h; simp [ancF] at h
        | some p =>
          rw [hx] at h
          obtain ⟨k, hk, hkn⟩ := ih.1 h
          exact ⟨k + 1, Nat.succ_lt_succ hk, by simp [parIter, hx, hkn]⟩
    · rintro ⟨k, hk, hkn⟩
      cases k with
      | zero => left; simpa [parIter] using hkn.symm
      | succ k =>
        right
        cases hx : par x with
        | none => simp [parIter, hx] at hkn
        | some p =>
          rw [parIter, hx] at hkn
          exact ih.2 ⟨k, Nat.lt_of_succ_lt_succ hk, by simpa using hkn⟩

theorem count_ancF_succ (f : Nat) (x n : Nat) :
    (ancF par (f + 1) (some x)).count n
      = (if x = n then 1 else 0) + (ancF par f (some x)).countP (fun a => par a = some n) := by
  induction f generalizing x with
  | zero =>
    cases hx : par x <;> simp [ancF, List.count_cons, hx]
  | succ f ih =>
    rw [ancF, List.count_cons]
    cases hx : par x with
    | none =>
      simp [ancF, hx, List.countP_cons]
    | some p =>
      rw [ih p]
      rw [ancF, hx, List.countP_cons]
      by_cases hpn : p = n
      · subst hpn; simp [hx]; omega
      · have : ¬ (par x = some n) := by rw [hx]; simpa using hpn
        simp [hx, hpn]
        omega

theorem sum_count_eq_countP (L A : List Nat) (hL : L.Nodup) :
    (L.map fun c => A.count c).sum = A.countP (fun a => a ∈ L) := by
  induction A with
  | nil => simp
  | cons a A ih =>
    have h1 : (L.map fun c => (a :: A).count c)
        = L.map (fun c => A.count c + if a = c then 1 else 0) := by
      apply List.map_congr_left
      intro c _
      rw [List.count_cons]
      simp
    rw [h1, List.sum_map_add, ih, List.countP_cons]
    congr 1
    have h2 : (L.map fun c => if a = c then 1 else 0).sum = L.count a := by
      clear h1 ih hL
      induction L with
      | nil => simp
      | cons b L ihL =>
        rw [List.map_cons, List.sum_cons, ihL, List.count_cons]
        by_cases hab : a = b
        · subst hab; simp; omega
        · have hba : ¬ (b = a) := fun h => hab h.symm
          simp [hab, hba]
    rw [h2]
    by_cases ha : a ∈ L
    · simp [ha, List.count_eq_one_of_mem hL ha]
    · simp [ha, List.count_eq_zero_of_not_mem ha]

theorem ancF_lt (hL : Links par ch N) {f : Nat} {x a : Nat} (hx : x < N)
    (ha : a ∈ ancF par f (some x)) : a < N := by
  induction f generalizing x with
  | zero => simp [ancF] at ha
  | succ f ih =>
    rw [ancF, List.mem_cons] at ha
    rcases ha with rfl | ha
    · exact hx
    · cases hp : par x with
      | none => rw [hp] at ha; simp [ancF] at ha
      | some p =>
        rw [hp] at ha
        exact ih (hL.parent x hx p (by simp [hp])).1 ha

theorem preT_lt (hL : Links par ch N) {f : Nat} {n a : Nat} (hn : n < N)
    (ha : a ∈ preT ch f n) : a < N := by
  induction f generalizing n with
  | zero => simp [preT] at ha
  | succ f ih =>
    rw [preT, List.mem_cons, List.mem_flatMap] at ha
    rcases ha with rfl | ⟨c, hc, hac⟩
    · exact hn
    · exact ih (hL.child n hn c hc).1 hac

theorem count_preT (hL : Links par ch N) (f : Nat) {n x : Nat} (hn : n < N) (hx : x < N) :
    (preT ch f n).count x = (ancF par f (some x)).count n := by
  induction f generalizing n with
  | zero => simp [preT, ancF]
  | succ f ih =>
    rw [count_ancF_succ, preT, List.count_cons, List.flatMap, List.count_flatten, List.map_map]
    have h1 : List.map (List.count x ∘ preT ch f) (ch n)
        = (ch n).map fun c => (ancF par f (some x)).count c := by
      apply List.map_congr_left
      intro c hc
      exact ih (hL.child n hn c hc).1
    rw [h1, sum_count_eq_countP _ _ (hL.nodup n hn)]
    have h2 : (ancF par f (some x)).countP (fun a => decide (a ∈ ch n))
        = (ancF par f (some x)).countP (fun a => decide (par a = some n)) := by
      apply List.countP_congr
      intro a ha
      have haN := ancF_lt hL hx ha
      simp only [decide_eq_true_eq]
      constructor
      · intro h; exact (hL.child n hn a h).2
      · intro h; exact (hL.parent a haN n (by simp [h])).2
    rw [h2]
    by_cases hnx : n = x
    · subst hnx; simp; omega
    · have hxn : ¬ (x = n) := fun h => hnx h.symm
      simp [hnx, hxn]

theorem count_ancF_root_le {r : Nat} (hr : par r = none) (f : Nat) (y : Option Nat) :
    (ancF par f y).count r ≤ 1 := by
  induction f generalizing y with
  | zero => cases y <;> simp [ancF]
  | succ f ih =>
    cases y with
    | none => simp [ancF]
    | some p =>
      rw [ancF, List.count_cons]
      by_cases hp : p = r
      · subst hp; rw [hr]; cases f <;> simp [ancF]
      · have := ih (par p)
        simp [hp]
        exact this

theorem nodup_preT_root (hL : Links par ch N) {r : Nat} (hrN : r < N) (hr : par r = none)
    (f : Nat) : (preT ch f r).Nodup := by
  rw [List.nodup_iff_count_le_one]
  intro a
  by_cases ha : a ∈ preT ch f r
  · rw [count_preT hL f hrN (preT_lt hL hrN ha)]
    exact count_ancF_root_le hr f _
  · rw [List.count_eq_zero_of_not_mem ha]; omega

theorem mem_preT_iff (hL : Links par ch N) (f : Nat) {n x : Nat} (hn : n < N) (hx : x < N) :
    x ∈ preT ch f n ↔ ∃ k < f, parIter par k x = some n := by
  rw [← mem_ancF, ← List.count_pos_iff, ← List.count_pos_iff, count_preT hL f hn hx]

theorem parIter_ne_none_of_cycle {j : Nat} {x : Nat} (hj : 0 < j)
    (hc : parIter par j x = some x) (n : Nat) : parIter par n x ≠ none := by
  induction n using Nat.strong_induction_on with
  | _ n ih =>
    by_cases hnj : n < j
    · intro hn
      have : parIter par j x = none := by
        have e : j = n + (j - n) := by omega
        rw [e, parIter_add, hn]; rfl
      rw [hc] at this; cases this
    · have e : n = j + (n - j) := by omega
      rw [e, parIter_add, hc]
      exact ih (n - j) (by omega)

theorem nodup_ancF {f : Nat} {x : Nat} (h : parIter par f x = none) :
    (ancF par f (some x)).Nodup := by
  induction f generalizing x with
  | zero => simp [ancF]
  | succ f ih =>
    rw [ancF, List.nodup_cons]
    cases hp : par x with
    | none => simp [ancF]
    | some p =>
      have hfp : parIter par f p = none := by simpa [parIter, hp] using h
      refine ⟨?_, ih hfp⟩
      intro hmem
      obtain ⟨k, _, hk⟩ := mem_ancF.1 hmem
      have hcyc : parIter par (k + 1) x = some x := by simp [parIter, hp, hk]
      exact parIter_ne_none_of_cycle (Nat.succ_pos k) hcyc (f + 1) h

theorem length_ancF {k : Nat} {x y : Nat} (h : parIter par k x = some y) :
    (ancF par (k + 1) (some x)).length = k + 1 := by
  induction k generalizing x with
  | zero => cases hp : par x <;> simp [ancF, hp]
  | succ k ih =>
    rw [ancF, List.length_cons]
    cases hp : par x with
    | none => simp [parIter, hp] at h
    | some p =>
      have : parIter par k p = some y := by simpa [parIter, hp] using h
      rw [ih this]

theorem length_le_of_lt_bound (L : List Nat) (hnd : L.Nodup) (hlt : ∀ a ∈ L, a < N) :
    L.length ≤ N := by
  have hsub : L ⊆ List.range N := fun a ha => List.mem_range.2 (hlt a ha)
  have := (List.subperm_of_subset hnd hsub).length_le
  simpa using this

/-- A parent chain that reaches a parentless node does so in fewer than `N` steps. -/
theorem depth_lt (hL : Links par ch N) {r x : Nat} (hr : par r = none) (hx : x < N) {k : Nat}
    (hk : parIter par k x = some r) : k < N := by
  have hnone : parIter par (k + 1) x = none := by
    rw [parIter_succ_back, hk]; simpa using hr
  have hlen := length_ancF hk
  have hle := length_le_of_lt_bound (N := N) _ (nodup_ancF hnone)
    (fun a ha => ancF_lt hL hx ha)
  omega

theorem shallow_root (hL : Links par ch N) {r : Nat} (hr : par r = none) :
    Shallow par N N r := fun _ hx _ hk => depth_lt hL hr hx hk

theorem shallow_child (hL : Links par ch N) {f : Nat} {n c : Nat} (hn : n < N)
    (hc : c ∈ ch n) (hs : Shallow par N (f + 1) n) : Shallow par N f c := by
  intro x hx k hk
  have : parIter par (k + 1) x = some n := by
    rw [parIter_succ_back, hk]; simpa using (hL.child n hn c hc).2
  have := hs x hx (k + 1) this
  omega

theorem shallow_mono {f g : Nat} {n : Nat} (hfg : f ≤ g) (hs : Shallow par N f n) :
    Shallow par N g n := fun x hx k hk => Nat.lt_of_lt_of_le (hs x hx k hk) hfg

theorem foldlM_append_flatMap {g : List Nat → Nat → Except Fault (List Nat)}
    {F : Nat → List Nat} (L : List Nat)
    (hg : ∀ c ∈ L, ∀ acc, g acc c = .ok (acc ++ F c)) (acc : List Nat) :
    L.foldlM g acc = .ok (acc ++ L.flatMap F) := by
  induction L generalizing acc with
  | nil => simp [pure, Except.pure]
  | cons c L ih =>
    rw [List.foldlM_cons, hg c (List.mem_cons_self _ _)]
    show L.foldlM g (acc ++ F c) = _
    rw [ih (fun c hc => hg c (List.mem_cons_of_mem _ hc))]
    simp

end Chains

section PlainTraversal

variable {h : Heap} {N : Nat}

theorem allNodesFunc_eq (hL : Links h.par h.ch N) (f : Nat) {n : Nat} (hn : n < N)
    (hs : Shallow h.par N f n) (acc : List Nat) :
    allNodesFunc h f n acc = .ok (acc ++ preT h.ch f n) := by
  induction f generalizing n acc with
  | zero => exact absurd (hs n hn 0 rfl) (Nat.lt_irrefl 0)
  | succ f ih =>
    rw [allNodesFunc, preT]
    rw [foldlM_append_flatMap (F := preT h.ch f) (h n).Children
      (fun c hc acc => ih (hL.child n hn c hc).1 (shallow_child hL hn hc hs) acc)]
    simp [Heap.ch]

theorem VMap.get_set (m : VMap) (k k' : Nat) (v : Bool) :
    (m.set k v).get k' = if k' = k then v else m.get k' := by
  induction m with
  | nil =>
    by_cases hk : k' = k
    · subst hk; simp [VMap.set, VMap.get]
    · have : ¬ (k = k') := fun e => hk e.symm
      simp [VMap.set, VMap.get, hk, this]
  | cons e m ih =>
    rw [VMap.set]
    by_cases hek : e.1 = k
    · rw [if_pos hek]
      by_cases hk : k' = k
      · subst hk; simp [VMap.get]
      · have h1 : ¬ (k = k') := fun e => hk e.symm
        have h2 : ¬ (e.1 = k') := fun e' => hk (by rw [← e', hek])
        simp [VMap.get, hk, h1, h2, List.find?_cons]
    · rw [if_neg hek]
      by_cases hek' : e.1 = k'
      · have hk : ¬ (k' = k) := fun e' => hek (by rw [hek', e'])
        simp [VMap.get, List.find?_cons, hek', hk]
      · have e1 : VMap.get (e :: VMap.set m k v) k' = VMap.get (VMap.set m k v) k' := by
          simp [VMap.get, List.find?_cons, hek']
        have e2 : VMap.get (e :: m) k' = VMap.get m k' := by
          simp [VMap.get, List.find?_cons, hek']
        rw [e1, e2, ih]

theorem VMap.keys_set (m : VMap) (k : Nat) (v : Bool) (k' : Nat) :
    k' ∈ (m.set k v).map Prod.fst ↔ k' = k ∨ k' ∈ m.map Prod.fst := by
  induction m with
  | nil => simp [VMap.set]
  | cons e m ih =>
    rw [VMap.set]
    by_cases hek : e.1 = k
    · rw [if_pos hek]
      simp only [List.map_cons, List.mem_cons, hek]
      tauto
    · rw [if_neg hek]
      simp only [List.map_cons, List.mem_cons, ih]
      tauto

theorem VMap.nodup_set (m : VMap) (k : Nat) (v : Bool) (hm : (m.map Prod.fst).Nodup) :
    ((m.set k v).map Prod.fst).Nodup := by
  induction m with
  | nil => simp [VMap.set]
  | cons e m ih =>
    rw [List.map_cons, List.nodup_cons] at hm
    rw [VMap.set]
    by_cases hek : e.1 = k
    · rw [if_pos hek, List.map_cons, List.nodup_cons]
      exact ⟨by rw [← hek]; exact hm.1, hm.2⟩
    · rw [if_neg hek, List.map_cons, List.nodup_cons]
      refine ⟨?_, ih hm.2⟩
      rw [VMap.keys_set]
      rintro (e1 | e2)
      · exact hek e1
      · exact hm.1 e2

theorem VMap.get_of_mem (m : VMap) (hm : (m.map Prod.fst).Nodup) (e : Nat × Bool) (he : e ∈ m) :
    m.get e.1 = e.2 := by
  induction m with
  | nil => cases he
  | cons e' m ih =>
    rw [List.map_cons, List.nodup_cons] at hm
    rcases List.mem_cons.1 he with rfl | he'
    · simp [VMap.get]
    · have hne : ¬ (e'.1 = e.1) := by
        intro e1
        apply hm.1
        rw [e1]
        exact List.mem_map_of_mem _ he'
      have e1 : VMap.get (e' :: m) e.1 = VMap.get m e.1 := by
        simp [VMap.get, List.find?_cons, hne]
      rw [e1, ih hm.2 he']

theorem get_markAll (m : VMap) (l : List Nat) (a : Nat) :
    (markAll m l).get a = if a ∈ l then true else m.get a := by
  induction l generalizing m with
  | nil => simp [markAll]
  | cons b l ih =>
    show (markAll (m.set b true) l).get a = _
    rw [ih, VMap.get_set]
    by_cases hal : a ∈ l
    · simp [hal]
    · by_cases hab : a = b
      · simp [hab]
      · simp [hal, hab]

theorem keys_markAll (m : VMap) (l : List Nat) (a : Nat) :
    a ∈ (markAll m l).map Prod.fst ↔ a ∈ l ∨ a ∈ m.map Prod.fst := by
  induction l generalizing m with
  | nil => simp [markAll]
  | cons b l ih =>
    show a ∈ (markAll (m.set b true) l).map Prod.fst ↔ _
    rw [ih, VMap.keys_set, List.mem_cons]
    tauto

theorem nodup_markAll (m : VMap) (l : List Nat) (hm : (m.map Prod.fst).Nodup) :
    ((markAll m l).map Prod.fst).Nodup := by
  induction l generalizing m with
  | nil => simpa [markAll] using hm
  | cons b l ih => exact ih _ (VMap.nodup_set m b true hm)

theorem markAll_append (m : VMap) (l₁ l₂ : List Nat) :
    markAll m (l₁ ++ l₂) = markAll (markAll m l₁) l₂ := by
  simp [markAll, List.foldl_append]

theorem dfsChildren_ok {rec : Nat → VMap → Except Fault (Bool × VMap)} {F : Nat → List Nat}
    (L : List Nat) (v : VMap)
    (hrec : ∀ c ∈ L, ∀ v : VMap, (F c).Nodup → (∀ a ∈ F c, v.get a = false) →
      rec c v = .ok (true, markAll v (F c)))
    (hnd : (L.flatMap F).Nodup) (hfalse : ∀ a ∈ L.flatMap F, v.get a = false) :
    dfsChildren rec L v = .ok (true, markAll v (L.flatMap F)) := by
  induction L generalizing v with
  | nil => simp [dfsChildren, markAll]
  | cons c L ih =>
    rw [List.flatMap_cons, List.nodup_append] at hnd
    obtain ⟨hnd1, hnd2, hdis⟩ := hnd
    have hc := hrec c (List.mem_cons_self _ _) v hnd1
      (fun a ha => hfalse a (by rw [List.flatMap_cons]; exact List.mem_append_left _ ha))
    rw [dfsChildren, hc]
    show dfsChildren rec L (markAll v (F c)) = _
    rw [ih (markAll v (F c)) (fun c hc => hrec c (List.mem_cons_of_mem _ hc)) hnd2,
      List.flatMap_cons, markAll_append]
    intro a ha
    rw [get_markAll]
    have hna : a ∉ F c := fun h1 => hdis h1 ha
    rw [if_neg hna]
    exact hfalse a (by rw [List.flatMap_cons]; exact List.mem_append_right _ ha)

theorem isAcyclicDFS_tree (hL : Links h.par h.ch N) (f : Nat) {n : Nat} (hn : n < N)
    (hs : Shallow h.par N f n) (v : VMap) (hnd : (preT h.ch f n).Nodup)
    (hfalse : ∀ a ∈ preT h.ch f n, v.get a = false) :
    isAcyclicDFS h f n v = .ok (true, markAll v (preT h.ch f n)) := by
  induction f generalizing n v with
  | zero => exact absurd (hs n hn 0 rfl) (Nat.lt_irrefl 0)
  | succ f ih =>
    rw [preT, List.nodup_cons] at hnd
    have hvn : v.get n = false := hfalse n (by rw [preT]; exact List.mem_cons_self _ _)
    rw [isAcyclicDFS, if_neg (by rw [hvn]; exact Bool.false_ne_true)]
    have hch : (h n).Children = h.ch n := rfl
    rw [hch, dfsChildren_ok (F := preT h.ch f) (h.ch n) (v.set n true)
      (fun c hc v hnd hf => ih (hL.child n hn c hc).1 (shallow_child hL hn hc hs) v hnd hf)
      hnd.2]
    · rfl
    · intro a ha
      rw [VMap.get_set]
      have hne : a ≠ n := fun e => hnd.1 (e ▸ ha)
      rw [if_neg hne]
      exact hfalse a (by rw [preT]; exact List.mem_cons_of_mem _ ha)

theorem keys_seed (l : List Nat) (m : VMap) (a : Nat) :
    a ∈ (l.foldl (fun m node => m.set node false) m).map Prod.fst
      ↔ a ∈ l ∨ a ∈ m.map Prod.fst := by
  induction l generalizing m with
  | nil => simp
  | cons b l ih =>
    rw [List.foldl_cons, ih, VMap.keys_set, List.mem_cons]
    tauto

theorem nodup_seed (l : List Nat) (m : VMap) (hm : (m.map Prod.fst).Nodup) :
    ((l.foldl (fun m node => m.set node false) m).map Prod.fst).Nodup := by
  induction l generalizing m with
  | nil => simpa using hm
  | cons b l ih => exact ih _ (VMap.nodup_set m b false hm)

theorem get_seed (l : List Nat) (m : VMap) (a : Nat) (hm : m.get a = false) :
    (l.foldl (fun m node => m.set node false) m).get a = false := by
  induction l generalizing m with
  | nil => simpa using hm
  | cons b l ih =>
    rw [List.foldl_cons]
    apply ih
    rw [VMap.get_set]
    split <;> simp [hm]

/-- On a heap whose links agree, `ValidateTree` accepts every parentless node, given fuel. -/
theorem ValidateTree_root (hL : Links h.par h.ch N) {r : Nat} (hrN : r < N)
    (hr : (h r).Parent = none) (fuel : Nat) (hfuel : N ≤ fuel) :
    ValidateTree fuel h (some r) = .ok true := by
  have hs : Shallow h.par N fuel r := shallow_mono hfuel (shallow_root hL hr)
  have hall : allNodesFunc h fuel r [] = .ok (preT h.ch fuel r) := by
    simpa using allNodesFunc_eq hL fuel hrN hs []
  have hnd := nodup_preT_root hL hrN (show h.par r = none from hr) fuel
  have hA : AllNodes fuel h (some r) = .ok (preT h.ch fuel r, none) := by
    simp [AllNodes, hr, hall, Except.map]
  have hdfs := isAcyclicDFS_tree hL fuel hrN hs
    ((preT h.ch fuel r).foldl (fun m node => m.set node false) []) hnd
    (fun a _ => get_seed _ [] a (by simp [VMap.get]))
  simp only [ValidateTree, hA, hdfs]
  congr 1
  rw [Bool.true_and, List.all_eq_true]
  intro e he
  have hkeys : ((markAll ((preT h.ch fuel r).foldl (fun m node => m.set node false) [])
      (preT h.ch fuel r)).map Prod.fst).Nodup :=
    nodup_markAll _ _ (nodup_seed _ [] (by simp))
  rw [← VMap.get_of_mem _ hkeys e he, get_markAll]
  have hk : e.1 ∈ (markAll ((preT h.ch fuel r).foldl (fun m node => m.set node false) [])
      (preT h.ch fuel r)).map Prod.fst := List.mem_map_of_mem _ he
  rw [keys_markAll, keys_seed] at hk
  have : e.1 ∈ preT h.ch fuel r := by
    rcases hk with h1 | h1 | h1
    · exact h1
    · exact h1
    · simp at h1
  simp [this]

end PlainTraversal

section Build

theorem ensureNode_of_some {s : BuildState} {name : String} {q : Nat}
    (h : s.nameToNode name = some q) : ensureNode s name = s := by
  simp [ensureNode, h]

theorem ensureNode_of_none {s : BuildState} {name : String} (h : s.nameToNode name = none) :
    ensureNode s name =
      { s with
        heap := Function.update s.heap s.next ⟨name, none, []⟩
        next := s.next + 1
        nameToNode := Function.update s.nameToNode name (some s.next) } := by
  simp [ensureNode, h]

theorem ensureNode_root (s : BuildState) (name : String) : (ensureNode s name).root = s.root := by
  cases h : s.nameToNode name with
  | none => rw [ensureNode_of_none h]
  | some q => rw [ensureNode_of_some h]

theorem ensureNode_next (s : BuildState) (name : String) :
    s.next ≤ (ensureNode s name).next ∧ (ensureNode s name).next ≤ s.next + 1 := by
  cases h : s.nameToNode name with
  | none => rw [ensureNode_of_none h]; simp
  | some q => rw [ensureNode_of_some h]; simp

theorem ensureNode_lookup (s : BuildState) (name : String) :
    ∃ q, (ensureNode s name).nameToNode name = some q := by
  cases h : s.nameToNode name with
  | none => rw [ensureNode_of_none h]; exact ⟨s.next, by simp⟩
  | some q => rw [ensureNode_of_some h]; exact ⟨q, h⟩

theorem ensureNode_mono (s : BuildState) (name : String) {n : String} {q : Nat}
    (hq : s.nameToNode n = some q) : (ensureNode s name).nameToNode n = some q := by
  cases h : s.nameToNode name with
  | none =>
    rw [ensureNode_of_none h]
    have hne : n ≠ name := fun e => by rw [e, h] at hq; cases hq
    simp [Function.update_noteq hne, hq]
  | some q' => rw [ensureNode_of_some h]; exact hq

theorem ensureNode_dom (s : BuildState) (name : String) {n : String} {q : Nat}
    (hq : (ensureNode s name).nameToNode n = some q) : n = name ∨ s.nameToNode n = some q := by
  cases h : s.nameToNode name with
  | none =>
    rw [ensureNode_of_none h] at hq
    by_cases hne : n = name
    · exact Or.inl hne
    · right; simpa [Function.update_noteq hne] using hq
  | some q' => rw [ensureNode_of_some h] at hq; exact Or.inr hq

theorem ensureNode_core {s : BuildState} {es : List (String × String)} (hI : CoreInv s es)
    (name : String) : CoreInv (ensureNode s name) es := by
  cases h : s.nameToNode name with
  | some q => rw [ensureNode_of_some h]; exact hI
  | none =>
    rw [ensureNode_of_none h]
    have hfresh : ∀ p, p < s.next → (s.heap p).Name ≠ name := by
      intro p hp e
      have := (hI.name_ptr name p).2 ⟨hp, e⟩
      rw [h] at this; cases this
    have hold : ∀ e ∈ es, e.1 ≠ name ∧ e.2 ≠ name := by
      intro e he
      have := hI.alloc e he
      constructor
      · intro e1; rw [e1, h] at this; simp at this
      · intro e2; rw [e2, h] at this; simp at this
    refine ⟨⟨?_, ?_, ?_⟩, ?_, ?_, ?_⟩
    · -- children point back
      intro p hp c hc
      change p < s.next + 1 at hp
      show c < s.next + 1 ∧ _
      by_cases hpn : p = s.next
      · subst hpn; simp [Heap.ch] at hc
      · have hp' : p < s.next := by omega
        have hc' : c ∈ s.heap.ch p := by simpa [Heap.ch, Function.update_noteq hpn] using hc
        obtain ⟨h1, h2⟩ := hI.links.child p hp' c hc'
        have hcn : c ≠ s.next := by omega
        refine ⟨by omega, ?_⟩
        simpa [Heap.par, Function.update_noteq hcn] using h2
    · intro c hc p hpc
      change c < s.next + 1 at hc
      show p < s.next + 1 ∧ _
      by_cases hcn : c = s.next
      · subst hcn; simp [Heap.par] at hpc
      · have hc' : c < s.next := by omega
        have hpc' : p ∈ s.heap.par c := by simpa [Heap.par, Function.update_noteq hcn] using hpc
        obtain ⟨h1, h2⟩ := hI.links.parent c hc' p hpc'
        have hpn : p ≠ s.next := by omega
        refine ⟨by omega, ?_⟩
        simpa [Heap.ch, Function.update_noteq hpn] using h2
    · intro p hp
      change p < s.next + 1 at hp
      by_cases hpn : p = s.next
      · subst hpn; simp [Heap.ch]
      · have hp' : p < s.next := by omega
        simpa [Heap.ch, Function.update_noteq hpn] using hI.links.nodup p hp'
    · -- names and addresses
      intro n p
      show Function.update s.nameToNode name (some s.next) n = some p ↔
        p < s.next + 1 ∧ (Function.update s.heap s.next ⟨name, none, []⟩ p).Name = n
      by_cases hn : n = name
      · subst hn
        simp only [Function.update_same, Option.some.injEq]
        constructor
        · intro e; subst e; simp
        · rintro ⟨hp, hnm⟩
          by_cases hpn : p = s.next
          · exact hpn.symm
          · rw [Function.update_noteq hpn] at hnm
            exact absurd hnm (hfresh p (by omega))
      · rw [Function.update_noteq hn, hI.name_ptr]
        constructor
        · rintro ⟨hp, hnm⟩
          have hpn : p ≠ s.next := by omega
          exact ⟨by omega, by rw [Function.update_noteq hpn]; exact hnm⟩
        · rintro ⟨hp, hnm⟩
          by_cases hpn : p = s.next
          · subst hpn; simp at hnm; exact absurd hnm.symm hn
          · rw [Function.update_noteq hpn] at hnm
            exact ⟨by omega, hnm⟩
    · intro e he
      obtain ⟨h1, h2⟩ := hold e he
      show (Function.update s.nameToNode name (some s.next) e.1).isSome ∧
        (Function.update s.nameToNode name (some s.next) e.2).isSome
      rw [Function.update_noteq h1, Function.update_noteq h2]
      exact hI.alloc e he
    · intro c hc p
      change c < s.next + 1 at hc
      show (Function.update s.heap s.next ⟨name, none, []⟩ c).Parent = some p ↔
        p < s.next + 1 ∧
          ((Function.update s.heap s.next ⟨name, none, []⟩ c).Name,
            (Function.update s.heap s.next ⟨name, none, []⟩ p).Name) ∈ es ∧
          (Function.update s.heap s.next ⟨name, none, []⟩ c).Name ≠
            (Function.update s.heap s.next ⟨name, none, []⟩ p).Name
      by_cases hcn : c = s.next
      · subst hcn
        simp only [Function.update_same]
        constructor
        · intro e; cases e
        · rintro ⟨_, hmem, _⟩
          exact absurd rfl (hold _ hmem).1
      · have hc' : c < s.next := by omega
        rw [Function.update_noteq hcn, hI.parent c hc']
        constructor
        · rintro ⟨hp, hmem, hne⟩
          have hpn : p ≠ s.next := by omega
          rw [Function.update_noteq hpn]
          exact ⟨by omega, hmem, hne⟩
        · rintro ⟨hp, hmem, hne⟩
          by_cases hpn : p = s.next
          · subst hpn
            simp only [Function.update_same] at hmem
            exact absurd rfl (hold _ hmem).2
          · rw [Function.update_noteq hpn] at hmem hne
            exact ⟨by omega, hmem, hne⟩

theorem link_fields (h : Heap) {c p : Nat} (hcp : c ≠ p) (h1 h2 : Heap)
    (e1 : h1 = Function.update h c { h c with Parent := some p })
    (e2 : h2 = Function.update h1 p { h1 p with Children := (h1 p).Children ++ [c] }) :
    (∀ q, (h2 q).Name = (h q).Name) ∧
    (∀ q, (h2 q).Parent = if q = c then some p else (h q).Parent) ∧
    (∀ q, (h2 q).Children = if q = p then (h p).Children ++ [c] else (h q).Children) := by
  have hpc : p ≠ c := fun e => hcp e.symm
  subst e2 e1
  refine ⟨?_, ?_, ?_⟩
  · intro q
    by_cases hqp : q = p
    · subst hqp; simp [Function.update_noteq hpc]
    · rw [Function.update_noteq hqp]
      by_cases hqc : q = c
      · subst hqc; simp
      · rw [Function.update_noteq hqc]
  · intro q
    by_cases hqp : q = p
    · subst hqp; simp [Function.update_noteq hpc, hpc]
    · rw [Function.update_noteq hqp]
      by_cases hqc : q = c
      · subst hqc; simp
      · rw [Function.update_noteq hqc, if_neg hqc]
  · intro q
    by_cases hqp : q = p
    · subst hqp; simp [Function.update_noteq hpc]
    · rw [Function.update_noteq hqp, if_neg hqp]
      by_cases hqc : q = c
      · subst hqc; simp
      · rw [Function.update_noteq hqc]

theorem core_link {s : BuildState} {es : List (String × String)} (hI : CoreInv s es)
    {cn pn : String} {c p : Nat} (hc : s.nameToNode cn = some c) (hp : s.nameToNode pn = some p)
    (hne : cn ≠ pn) (hkey : cn ∉ es.map Prod.fst) (h2 : Heap)
    (hName : ∀ q, (h2 q).Name = (s.heap q).Name)
    (hPar : ∀ q, (h2 q).Parent = if q = c then some p else (s.heap q).Parent)
    (hCh : ∀ q, (h2 q).Children
      = if q = p then (s.heap p).Children ++ [c] else (s.heap q).Children) :
    CoreInv { s with heap := h2 } (es ++ [(cn, pn)]) := by
  obtain ⟨hcN, hcName⟩ := (hI.name_ptr cn c).1 hc
  obtain ⟨hpN, hpName⟩ := (hI.name_ptr pn p).1 hp
  have hparc : (s.heap c).Parent = none := by
    cases hq : (s.heap c).Parent with
    | none => rfl
    | some q =>
      have := ((hI.parent c hcN q).1 hq).2.1
      rw [hcName] at this
      exact absurd (List.mem_map_of_mem Prod.fst this) hkey
  have hnotin : ∀ q < s.next, c ∉ (s.heap q).Children := by
    intro q hq hmem
    have := (hI.links.child q hq c hmem).2
    rw [Heap.par, hparc] at this
    cases this
  refine ⟨⟨?_, ?_, ?_⟩, ?_, ?_, ?_⟩
  · intro q hq x hx
    change q < s.next at hq
    show x < s.next ∧ (h2 x).Parent = some q
    change x ∈ (h2 q).Children at hx
    rw [hCh] at hx
    rw [hPar]
    by_cases hqp : q = p
    · subst hqp
      rw [if_pos rfl, List.mem_append, List.mem_singleton] at hx
      rcases hx with hx | hx
      · have hxc : x ≠ c := fun e => hnotin q hq (e ▸ hx)
        rw [if_neg hxc]
        exact hI.links.child q hq x hx
      · subst hx; exact ⟨hcN, by simp⟩
    · rw [if_neg hqp] at hx
      have hxc : x ≠ c := fun e => hnotin q hq (e ▸ hx)
      rw [if_neg hxc]
      exact hI.links.child q hq x hx
  · intro x hx q hq
    change x < s.next at hx
    show q < s.next ∧ x ∈ (h2 q).Children
    change q ∈ (h2 x).Parent at hq
    rw [hPar] at hq
    rw [hCh]
    by_cases hxc : x = c
    · subst hxc
      rw [if_pos rfl] at hq
      have : q = p := by simpa using hq.symm
      subst this
      exact ⟨hpN, by simp⟩
    · rw [if_neg hxc] at hq
      obtain ⟨h1, h2'⟩ := hI.links.parent x hx q hq
      refine ⟨h1, ?_⟩
      by_cases hqp : q = p
      · subst hqp; rw [if_pos rfl]; exact List.mem_append_left _ h2'
      · rw [if_neg hqp]; exact h2'
  · intro q hq
    change q < s.next at hq
    show (h2 q).Children.Nodup
    rw [hCh]
    by_cases hqp : q = p
    · subst hqp
      rw [if_pos rfl]
      refine List.Nodup.append (hI.links.nodup q hq) (List.nodup_singleton c) ?_
      intro x hx1 hx2
      rw [List.mem_singleton] at hx2
      subst hx2
      exact hnotin q hq hx1
    · rw [if_neg hqp]; exact hI.links.nodup q hq
  · intro n q
    show s.nameToNode n = some q ↔ q < s.next ∧ (h2 q).Name = n
    rw [hName]; exact hI.name_ptr n q
  · intro e he
    show (s.nameToNode e.1).isSome ∧ (s.nameToNode e.2).isSome
    rw [List.mem_append, List.mem_singleton] at he
    rcases he with he | he
    · exact hI.alloc e he
    · subst he; simp [hc, hp]
  · intro x hx q
    change x < s.next at hx
    show (h2 x).Parent = some q ↔
      q < s.next ∧ ((h2 x).Name, (h2 q).Name) ∈ es ++ [(cn, pn)] ∧ (h2 x).Name ≠ (h2 q).Name
    rw [hPar, hName, hName, List.mem_append, List.mem_singleton]
    by_cases hxc : x = c
    · subst hxc
      rw [if_pos rfl, hcName]
      constructor
      · intro e
        have : q = p := by simpa using e.symm
        subst this
        rw [hpName]
        exact ⟨hpN, Or.inr rfl, hne⟩
      · rintro ⟨hqN, hmem | hmem, _⟩
        · exact absurd (List.mem_map_of_mem Prod.fst hmem) hkey
        · have hqn : (s.heap q).Name = pn := by simpa using congrArg Prod.snd hmem
          have h1 := (hI.name_ptr pn q).2 ⟨hqN, hqn⟩
          rw [hp] at h1
          exact h1
    · rw [if_neg hxc, hI.parent x hx q]
      constructor
      · rintro ⟨h1, h2', h3⟩; exact ⟨h1, Or.inl h2', h3⟩
      · rintro ⟨h1, h2' | h2', h3⟩
        · exact ⟨h1, h2', h3⟩
        · exfalso
          have hxn : (s.heap x).Name = cn := by simpa using congrArg Prod.fst h2'
          have h4 := (hI.name_ptr cn x).2 ⟨hx, hxn⟩
          rw [hc] at h4
          exact hxc (by simpa using h4.symm)

theorem core_self {s : BuildState} {es : List (String × String)} (hI : CoreInv s es)
    {n : String} {r : Nat} (hn : s.nameToNode n = some r) (root : Option Nat) :
    CoreInv { s with root := root } (es ++ [(n, n)]) := by
  refine ⟨hI.links, hI.name_ptr, ?_, ?_⟩
  · intro e he
    show (s.nameToNode e.1).isSome ∧ (s.nameToNode e.2).isSome
    rw [List.mem_append, List.mem_singleton] at he
    rcases he with he | he
    · exact hI.alloc e he
    · subst he; simp [hn]
  · intro x hx q
    show (s.heap x).Parent = some q ↔ _
    rw [hI.parent x hx q, List.mem_append, List.mem_singleton]
    constructor
    · rintro ⟨h1, h2, h3⟩; exact ⟨h1, Or.inl h2, h3⟩
    · rintro ⟨h1, h2 | h2, h3⟩
      · exact ⟨h1, h2, h3⟩
      · exfalso
        apply h3
        have e1 := congrArg Prod.fst h2
        have e2 := congrArg Prod.snd h2
        simp only at e1 e2
        rw [e1, e2]

theorem mem_edgeNames {es : List (String × String)} {name : String} :
    name ∈ edgeNames es ↔ ∃ e ∈ es, name = e.1 ∨ name = e.2 := by
  simp [edgeNames, List.mem_flatMap]

theorem buildStep_inv {s : BuildState} {es : List (String × String)} (hI : BuildInv s es)
    (e : String × String) (hkey : e.1 ∉ es.map Prod.fst) :
    ∃ s', buildStep s e = .ok s' ∧ BuildInv s' (es ++ [e]) := by
  have hI2 : CoreInv (ensureNode (ensureNode s e.2) e.1) es :=
    ensureNode_core (ensureNode_core hI.toCoreInv e.2) e.1
  obtain ⟨c, hc⟩ := ensureNode_lookup (ensureNode s e.2) e.1
  obtain ⟨p, hp1⟩ := ensureNode_lookup s e.2
  have hp : (ensureNode (ensureNode s e.2) e.1).nameToNode e.2 = some p :=
    ensureNode_mono _ _ hp1
  have hroot : (ensureNode (ensureNode s e.2) e.1).root = s.root := by
    rw [ensureNode_root, ensureNode_root]
  have hnext : (ensureNode (ensureNode s e.2) e.1).next ≤ 2 * (es ++ [e]).length := by
    have h1 := (ensureNode_next s e.2).2
    have h2 := (ensureNode_next (ensureNode s e.2) e.1).2
    have h3 := hI.next_le
    simp only [List.length_append, List.length_singleton]
    omega
  have hdom : ∀ name q, (ensureNode (ensureNode s e.2) e.1).nameToNode name = some q →
      name ∈ edgeNames (es ++ [e]) := by
    intro name q hq
    rw [mem_edgeNames]
    rcases ensureNode_dom _ _ hq with h1 | h1
    · exact ⟨e, by simp, Or.inl h1⟩
    · rcases ensureNode_dom _ _ h1 with h2 | h2
      · exact ⟨e, by simp, Or.inr h2⟩
      · obtain ⟨e', he', h3⟩ := mem_edgeNames.1 (hI.dom name q h2)
        exact ⟨e', List.mem_append_left _ he', h3⟩
  have hmono : ∀ {n : String} {q : Nat}, s.nameToNode n = some q →
      (ensureNode (ensureNode s e.2) e.1).nameToNode n = some q :=
    fun hq => ensureNode_mono _ _ (ensureNode_mono _ _ hq)
  by_cases hself : e.1 = e.2
  · refine ⟨_, by simp only [buildStep, if_pos hself]; rfl, ?_⟩
    have hcore := core_self hI2 (n := e.1) hc
      ((ensureNode (ensureNode s e.2) e.1).nameToNode e.1)
    have he : ((e.1, e.1) : String × String) = e := by
      rw [Prod.ext_iff]; exact ⟨rfl, hself⟩
    rw [he] at hcore
    refine ⟨hcore, hdom, ?_, ?_, hnext⟩
    · intro r hr
      exact ⟨e, by simp, hself, hr⟩
    · intro hr
      change (ensureNode (ensureNode s e.2) e.1).nameToNode e.1 = none at hr
      rw [hc] at hr; cases hr
  · have hcp : c ≠ p := by
      intro ecp
      have h1 := ((hI2.name_ptr e.1 c).1 hc).2
      have h2 := ((hI2.name_ptr e.2 p).1 hp).2
      exact hself (h1.symm.trans (by rw [ecp]; exact h2))
    refine ⟨_, by simp only [buildStep, if_neg hself, hc, hp]; rfl, ?_⟩
    obtain ⟨f1, f2, f3⟩ := link_fields (ensureNode (ensureNode s e.2) e.1).heap hcp _ _ rfl rfl
    have hcore := core_link hI2 hc hp hself hkey _ f1 f2 f3
    refine ⟨hcore, hdom, ?_, ?_, hnext⟩
    · intro r hr
      change (ensureNode (ensureNode s e.2) e.1).root = some r at hr
      rw [hroot] at hr
      obtain ⟨e', he', h1, h2⟩ := hI.root_some r hr
      exact ⟨e', List.mem_append_left _ he', h1, hmono h2⟩
    · intro hr e' he'
      change (ensureNode (ensureNode s e.2) e.1).root = none at hr
      rw [hroot] at hr
      rw [List.mem_append, List.mem_singleton] at he'
      rcases he' with he' | he'
      · exact hI.root_none hr e' he'
      · subst he'; exact hself

theorem buildInv_init : BuildInv BuildState.init [] := by
  refine ⟨⟨⟨?_, ?_, ?_⟩, ?_, ?_, ?_⟩, ?_, ?_, ?_, ?_⟩ <;>
    simp [BuildState.init, edgeNames]

theorem foldlM_buildStep {s : BuildState} {es₀ : List (String × String)} (hI : BuildInv s es₀)
    (es : List (String × String)) (hkeys : ((es₀ ++ es).map Prod.fst).Nodup) :
    ∃ s', es.foldlM buildStep s = .ok s' ∧ BuildInv s' (es₀ ++ es) := by
  induction es generalizing s es₀ with
  | nil => exact ⟨s, rfl, by simpa using hI⟩
  | cons e es ih =>
    have hkey : e.1 ∉ es₀.map Prod.fst := by
      intro hmem
      rw [List.map_append, List.map_cons] at hkeys
      have := (List.nodup_append.1 hkeys).2.2
      exact this hmem (List.mem_cons_self _ _)
    obtain ⟨s1, hs1, hI1⟩ := buildStep_inv hI e hkey
    have hk' : (((es₀ ++ [e]) ++ es).map Prod.fst).Nodup := by simpa using hkeys
    obtain ⟨s2, hs2, hI2⟩ := ih hI1 hk'
    refine ⟨s2, ?_, by simpa using hI2⟩
    rw [List.foldlM_cons, hs1]
    exact hs2

/-- On a mapping with pairwise distinct keys `buildTree` runs without fault and establishes
the loop invariant. -/
theorem buildTree_inv (es : List (String × String)) (hkeys : (es.map Prod.fst).Nodup) :
    ∃ s, buildTree es = .ok s ∧ BuildInv s es := by
  simpa [buildTree] using foldlM_buildStep buildInv_init es (by simpa using hkeys)

end Build

section NewTreeFacts

theorem value_unique {es : List (String × String)} (hkeys : (es.map Prod.fst).Nodup)
    {a b b' : String} (h1 : (a, b) ∈ es) (h2 : (a, b') ∈ es) : b = b' := by
  induction es with
  | nil => cases h1
  | cons e es ih =>
    rw [List.map_cons, List.nodup_cons] at hkeys
    rcases List.mem_cons.1 h1 with e1 | h1'
    · rcases List.mem_cons.1 h2 with e2 | h2'
      · exact congrArg Prod.snd (e1.trans e2.symm)
      · exact absurd (List.mem_map_of_mem Prod.fst h2') (by rw [← e1] at hkeys; exact hkeys.1)
    · rcases List.mem_cons.1 h2 with e2 | h2'
      · exact absurd (List.mem_map_of_mem Prod.fst h1') (by rw [← e2] at hkeys; exact hkeys.1)
      · exact ih hkeys.2 h1' h2'

theorem AllNodes_root {h : Heap} {N : Nat} (hL : Links h.par h.ch N) {r : Nat} (hrN : r < N)
    (hr : (h r).Parent = none) (fuel : Nat) (hfuel : N ≤ fuel) :
    AllNodes fuel h (some r) = .ok (preT h.ch fuel r, none) := by
  have hs : Shallow h.par N fuel r := shallow_mono hfuel (shallow_root hL hr)
  have hall : allNodesFunc h fuel r [] = .ok (preT h.ch fuel r) := by
    simpa using allNodesFunc_eq hL fuel hrN hs []
  simp [AllNodes, hr, hall, Except.map]

/-- When the mapping has no self-edge, `buildTree` returns the nil root. -/
theorem buildTree_root_none (es : List (String × String)) (hkeys : (es.map Prod.fst).Nodup)
    (hno : ∀ e ∈ es, e.1 ≠ e.2) : ∃ s, buildTree es = .ok s ∧ s.root = none := by
  obtain ⟨s, hs, hI⟩ := buildTree_inv es hkeys
  refine ⟨s, hs, ?_⟩
  cases hr : s.root with
  | none => rfl
  | some r =>
    obtain ⟨e, he, h1, _⟩ := hI.root_some r hr
    exact absurd h1 (hno e he)

/-- The root chosen by `buildTree` has no parent. -/
theorem root_parent_none {s : BuildState} {es : List (String × String)} (hI : BuildInv s es)
    (hkeys : (es.map Prod.fst).Nodup) {r : Nat} (hr : s.root = some r) :
    r < s.next ∧ (s.heap r).Parent = none ∧ ((s.heap r).Name, (s.heap r).Name) ∈ es := by
  obtain ⟨e, he, h1, h2⟩ := hI.root_some r hr
  obtain ⟨hrN, hname⟩ := (hI.name_ptr e.1 r).1 h2
  have hself : ((s.heap r).Name, (s.heap r).Name) ∈ es := by
    have : e = ((s.heap r).Name, (s.heap r).Name) := by
      rw [Prod.ext_iff]; exact ⟨hname.symm, by rw [← h1]; exact hname.symm⟩
    rw [← this]; exact he
  refine ⟨hrN, ?_, hself⟩
  cases hq : (s.heap r).Parent with
  | none => rfl
  | some q =>
    obtain ⟨_, h3, h4⟩ := (hI.parent r hrN q).1 hq
    exact absurd (value_unique hkeys hself h3) h4

theorem reach_root {s : BuildState} {es : List (String × String)} (hI : BuildInv s es)
    {root : String} {r : Nat} (hr : s.nameToNode root = some r) {name : String}
    (hpath : Relation.ReflTransGen (fun a b => (a, b) ∈ es) name root) :
    ∀ x, s.nameToNode name = some x → ∃ k, parIter s.heap.par k x = some r := by
  induction hpath using Relation.ReflTransGen.head_induction_on with
  | refl =>
    intro x hx
    rw [hr] at hx
    exact ⟨0, by simpa [parIter] using hx.symm⟩
  | @head a b hab _ ih =>
    intro x hx
    by_cases hself : a = b
    · subst hself; exact ih x hx
    · obtain ⟨_, hb⟩ := hI.alloc (a, b) hab
      obtain ⟨q, hq⟩ := Option.isSome_iff_exists.1 hb
      obtain ⟨k, hk⟩ := ih q hq
      obtain ⟨hxN, hxn⟩ := (hI.name_ptr a x).1 hx
      obtain ⟨hqN, hqn⟩ := (hI.name_ptr b q).1 hq
      have hpar : (s.heap x).Parent = some q :=
        (hI.parent x hxN q).2 ⟨hqN, by rw [hxn, hqn]; exact hab, by rw [hxn, hqn]; exact hself⟩
      exact ⟨k + 1, by simp [parIter, Heap.par, hpar, hk]⟩

theorem validMapping_perm {es es' : List (String × String)} {root : String}
    (hv : ValidMapping es root) (hp : es'.Perm es) : ValidMapping es' root := by
  obtain ⟨h1, h2, h3, h4⟩ := hv
  refine ⟨(hp.map Prod.fst).nodup_iff.2 h1, hp.mem_iff.2 h2,
    fun e he => h3 e (hp.mem_iff.1 he), ?_⟩
  intro name hname
  have hmem : name ∈ edgeNames es := by
    obtain ⟨e, he, h5⟩ := mem_edgeNames.1 hname
    exact mem_edgeNames.2 ⟨e, hp.mem_iff.1 he, h5⟩
  have hrel : (fun a b => (a, b) ∈ es) = fun a b => (a, b) ∈ es' := by
    funext a b
    exact propext hp.mem_iff.symm
  rw [← hrel]
  exact h4 name hmem

theorem NewTree_valid_aux (es : List (String × String)) (root : String)
    (hv : ValidMapping es root) (fuel : Nat) (hfuel : 2 * es.length ≤ fuel) :
    ∃ h r, NewTree fuel es = .ok ⟨h, some r, none⟩ ∧
      ∃ l, AllNodes fuel h (some r) = .ok (l, none) ∧
        ∀ name, (namesOf h l).count name = if name ∈ edgeNames es then 1 else 0 := by
  obtain ⟨hkeys, hroot, huniq, hreach⟩ := hv
  obtain ⟨s, hs, hI⟩ := buildTree_inv es hkeys
  cases hr : s.root with
  | none => exact absurd rfl (hI.root_none hr _ hroot)
  | some r =>
    obtain ⟨hrN, hrpar, hrself⟩ := root_parent_none hI hkeys hr
    have hN : s.next ≤ fuel := le_trans hI.next_le hfuel
    have hrname : s.nameToNode root = some r := by
      obtain ⟨e, he, h1, h2⟩ := hI.root_some r hr
      rw [← huniq e he h1]; exact h2
    refine ⟨s.heap, r, ?_, preT s.heap.ch fuel r, AllNodes_root hI.links hrN hrpar fuel hN, ?_⟩
    · simp only [NewTree, hs, hr, ValidateTree_root hI.links hrN hrpar fuel hN]
    · intro name
      have hnd := nodup_preT_root hI.links hrN (show s.heap.par r = none from hrpar) fuel
      by_cases hname : name ∈ edgeNames es
      · rw [if_pos hname]
        obtain ⟨e, he, h5⟩ := mem_edgeNames.1 hname
        have halloc : (s.nameToNode name).isSome := by
          rcases h5 with h5 | h5
          · rw [h5]; exact (hI.alloc e he).1
          · rw [h5]; exact (hI.alloc e he).2
        obtain ⟨x, hx⟩ := Option.isSome_iff_exists.1 halloc
        obtain ⟨hxN, hxn⟩ := (hI.name_ptr name x).1 hx
        obtain ⟨k, hk⟩ := reach_root hI hrname (hreach name hname) x hx
        have hkN : k < s.next := depth_lt hI.links hrpar hxN hk
        have hxmem : x ∈ preT s.heap.ch fuel r :=
          (mem_preT_iff hI.links fuel hrN hxN).2 ⟨k, by omega, hk⟩
        have hcount : (namesOf s.heap (preT s.heap.ch fuel r)).count name
            = (preT s.heap.ch fuel r).count x := by
          rw [namesOf, List.count, List.countP_map, List.count]
          apply List.countP_congr
          intro y hy
          have hyN := preT_lt hI.links hrN hy
          simp only [Function.comp, beq_iff_eq]
          constructor
          · intro e1
            have := (hI.name_ptr name y).2 ⟨hyN, e1⟩
            rw [hx] at this
            simpa using this.symm
          · intro e1; rw [e1]; exact hxn
        rw [hcount, List.count_eq_one_of_mem hnd hxmem]
      · rw [if_neg hname]
        apply List.count_eq_zero_of_not_mem
        intro hmem
        obtain ⟨y, hy, hyn⟩ := List.mem_map.1 hmem
        have hyN := preT_lt hI.links hrN hy
        exact hname (hI.dom name y ((hI.name_ptr name y).2 ⟨hyN, hyn⟩))

end NewTreeFacts

/-! ## The claims -/

/-- C1 (fails on the code): the mapping `A -> A, B -> C, C -> B` has a root self-edge, a cycle
`B -> C -> B` and two names that the root does not reach, yet `ValidateTree` answers `true` on
the root that `buildTree` returns, and `NewTree` hands that root back without an error, with
any positive amount of fuel. -/
theorem NewTree_accepts_unreachable_cycle (fuel : Nat) :
    (match buildTree [("A", "A"), ("B", "C"), ("C", "B")] with
      | .ok s => ValidateTree (fuel + 1) s.heap s.root = .ok true
      | .error _ => False) ∧
    (match NewTree (fuel + 1) [("A", "A"), ("B", "C"), ("C", "B")] with
      | .ok r => r.root = some 0 ∧ r.err = none ∧ namesOf r.heap [0, 1, 2] = ["A", "C", "B"] ∧
          (r.heap 1).Parent = some 2 ∧ (r.heap 2).Parent = some 1 ∧ (r.heap 0).Children = []
      | .error _ => False) := by
  constructor
  · show ValidateTree (fuel + 1) _ _ = .ok true
    rfl
  · show _ ∧ _ ∧ _ ∧ _ ∧ _ ∧ _
    refine ⟨rfl, rfl, by decide, rfl, rfl, rfl⟩

/-- C2: for a valid mapping (one self-edge marking the root, every name joined to the root)
and every iteration order `es'` of it, `NewTree` returns a root and no error once the fuel is
at least twice the number of entries, and `AllNodes` on that root lists every name of the
mapping exactly once and no other name. -/
theorem NewTree_valid (es : List (String × String)) (root : String)
    (hv : ValidMapping es root) (es' : List (String × String)) (hperm : es'.Perm es)
    (fuel : Nat) (hfuel : 2 * es.length ≤ fuel) :
    ∃ h r, NewTree fuel es' = .ok ⟨h, some r, none⟩ ∧
      ∃ l, AllNodes fuel h (some r) = .ok (l, none) ∧
        ∀ name, (namesOf h l).count name = if name ∈ edgeNames es then 1 else 0 := by
  obtain ⟨h, r, h1, l, h2, h3⟩ :=
    NewTree_valid_aux es' root (validMapping_perm hv hperm) fuel (by rw [hperm.length_eq]; exact hfuel)
  refine ⟨h, r, h1, l, h2, fun name => ?_⟩
  rw [h3 name]
  have : name ∈ edgeNames es' ↔ name ∈ edgeNames es := by
    rw [mem_edgeNames, mem_edgeNames]
    constructor
    · rintro ⟨e, he, h5⟩; exact ⟨e, hperm.mem_iff.1 he, h5⟩
    · rintro ⟨e, he, h5⟩; exact ⟨e, hperm.mem_iff.2 he, h5⟩
  simp only [this]

/-- C2, checked on the edges `A -> A, B -> A, C -> A, D -> B` iterated in reverse order. -/
theorem NewTree_valid_witness :
    ValidMapping demoEdges "A" ∧
    ∃ h r, NewTree 8 demoEdges.reverse = .ok ⟨h, some r, none⟩ ∧
      ∃ l, AllNodes 8 h (some r) = .ok (l, none) ∧
        ∀ name, (namesOf h l).count name = if name ∈ edgeNames demoEdges then 1 else 0 :=
  have hv : ValidMapping demoEdges "A" :=
    ⟨by decide, by decide, by decide, fun name hname => by
      have hcases : name = "A" ∨ name = "B" ∨ name = "C" ∨ name = "D" := by
        simp [edgeNames, demoEdges] at hname
        tauto
      have hBA : ("B", "A") ∈ demoEdges := by decide
      have hCA : ("C", "A") ∈ demoEdges := by decide
      have hDB : ("D", "B") ∈ demoEdges := by decide
      rcases hcases with e | e | e | e <;> subst e
      · exact Relation.ReflTransGen.refl
      · exact Relation.ReflTransGen.single hBA
      · exact Relation.ReflTransGen.single hCA
      · exact Relation.ReflTransGen.head hDB (Relation.ReflTransGen.single hBA)⟩
  ⟨hv, NewTree_valid demoEdges "A" hv demoEdges.reverse (List.reverse_perm _) 8 (by decide)⟩

/-- C3 (fails on the code): on a mapping without a self-edge, the empty mapping included,
`NewTree` does not return an error value: `buildTree` returns the nil root and `ValidateTree`
dereferences it, so the call ends in a nil-dereference panic whatever the fuel. -/
theorem NewTree_no_self_edge_panics (es : List (String × String))
    (hkeys : (es.map Prod.fst).Nodup) (hno : ∀ e ∈ es, e.1 ≠ e.2) (fuel : Nat) :
    NewTree fuel es = .error .nilDeref := by
  obtain ⟨s, hs, hr⟩ := buildTree_root_none es hkeys hno
  simp [NewTree, hs, hr, ValidateTree, AllNodes]

/-- C3, checked on the two-entry mapping `B -> C, C -> B` and on the empty mapping. -/
theorem NewTree_no_self_edge_panics_witness :
    NewTree 8 [("B", "C"), ("C", "B")] = .error .nilDeref ∧ NewTree 0 [] = .error .nilDeref :=
  ⟨NewTree_no_self_edge_panics [("B", "C"), ("C", "B")] (by decide) (by decide) 8,
   NewTree_no_self_edge_panics [] (by decide) (by decide) 0⟩

section Int64

theorem wrap64_modEq (x : Int) : wrap64 x ≡ x [ZMOD 18446744073709551616] := by
  unfold wrap64
  have := (Int.mod_modEq (x + 9223372036854775808) 18446744073709551616).sub_right
    9223372036854775808
  simpa using this

theorem wrap64_congr {a b : Int} (h : a ≡ b [ZMOD 18446744073709551616]) :
    wrap64 a = wrap64 b := by
  unfold wrap64
  have := h.add_right 9223372036854775808
  rw [Int.ModEq] at this
  rw [this]

theorem wrap64_of_isInt64 {x : Int} (h : isInt64 x) : wrap64 x = x := by
  unfold wrap64 isInt64 at *
  omega

theorem isInt64_wrap64 (x : Int) : isInt64 (wrap64 x) := by
  unfold wrap64 isInt64
  omega

end Int64

section AncestorLoops

variable {h : PHeap}

theorem parIter_none_mono {par : Nat → Option Nat} {f g : Nat} {x : Nat} (hfg : f ≤ g)
    (hf : parIter par f x = none) : parIter par g x = none := by
  have e : g = f + (g - f) := by omega
  rw [e, parIter_add, hf]; rfl

theorem ancF_stable {par : Nat → Option Nat} {f g : Nat} {x : Nat} (hfg : f ≤ g)
    (hf : parIter par f x = none) : ancF par g (some x) = ancF par f (some x) := by
  induction f generalizing g x with
  | zero => simp [parIter] at hf
  | succ f ih =>
    obtain ⟨g', rfl⟩ : ∃ g', g = g' + 1 := ⟨g - 1, by omega⟩
    rw [ancF, ancF]
    cases hp : par x with
    | none => cases g' <;> cases f <;> simp [ancF]
    | some p =>
      have : parIter par f p = none := by simpa [parIter, hp] using hf
      rw [ih (by omega) this]

theorem forAncestors_eq (body : PHeap → Nat → PHeap)
    (hbody : ∀ g p q, ((body g p) q).Parent = (g q).Parent) (f : Nat) (h : PHeap) (x : Nat)
    (hend : parIter h.par f x = none) :
    forAncestors body f h (some x) = .ok ((ancF h.par f (some x)).foldl body h) := by
  induction f generalizing h x with
  | zero => simp [parIter] at hend
  | succ f ih =>
    rw [forAncestors, ancF, List.foldl_cons]
    have hpar : (body h x).par = h.par := by
      funext q; exact hbody h x q
    have hx : ((body h x) x).Parent = h.par x := hbody h x x
    rw [hx]
    cases hp : h.par x with
    | none => cases f <;> simp [forAncestors, ancF]
    | some p =>
      have : parIter (body h x).par f p = none := by
        rw [hpar]; simpa [parIter, hp] using hend
      rw [ih (body h x) p this, hpar]

theorem setSize_parent (F : Int → Int) (g : PHeap) (p q : Nat) :
    ((setSize F g p) q).Parent = (g q).Parent := by
  unfold setSize
  by_cases hqp : q = p
  · subst hqp; simp
  · rw [Function.update_noteq hqp]

theorem foldl_setSize (F : Int → Int) (L : List Nat) (hnd : L.Nodup) (h : PHeap) (q : Nat) :
    (L.foldl (setSize F) h) q
      = if q ∈ L then { h q with SubTreeSize := F (h q).SubTreeSize } else h q := by
  induction L generalizing h with
  | nil => simp
  | cons a L ih =>
    rw [List.nodup_cons] at hnd
    rw [List.foldl_cons, ih hnd.2]
    by_cases hqa : q = a
    · subst hqa
      simp [hnd.1, setSize]
    · have : q ∈ a :: L ↔ q ∈ L := by simp [hqa]
      simp only [this, setSize, Function.update_noteq hqa]

theorem foldl_readSize (op : Int → Int → Int) (child : Nat) (L : List Nat) (hc : child ∉ L)
    (h : PHeap) :
    L.foldl (fun g ptr => Function.update g ptr
        { g ptr with SubTreeSize := op (g ptr).SubTreeSize (g child).SubTreeSize }) h
      = L.foldl (setSize fun s => op s (h child).SubTreeSize) h := by
  induction L generalizing h with
  | nil => rfl
  | cons a L ih =>
    rw [List.mem_cons, not_or] at hc
    rw [List.foldl_cons, List.foldl_cons, ih hc.2]
    have hca : child ≠ a := hc.1
    have e1 : (Function.update h a
        { h a with SubTreeSize := op (h a).SubTreeSize (h child).SubTreeSize }) child
        = h child := Function.update_noteq hca _ _
    rw [e1]
    rfl

end AncestorLoops

section PartitionOps

theorem PWF.links {h : PHeap} {N : Nat} (hw : PWF h N) : Links h.par h.ch N :=
  ⟨hw.1, hw.2.1, hw.2.2.1⟩

theorem PWF.ends {h : PHeap} {N : Nat} (hw : PWF h N) {x fuel : Nat} (hx : x < N)
    (hfuel : N ≤ fuel) : parIter h.par fuel x = none :=
  parIter_none_mono hfuel (hw.2.2.2 x hx)

theorem PWF.chain_eq {h : PHeap} {N : Nat} (hw : PWF h N) {x fuel : Nat} (hx : x < N)
    (hfuel : N ≤ fuel) : ancF h.par fuel (some x) = ancF h.par N (some x) :=
  ancF_stable hfuel (hw.2.2.2 x hx)

/-- The effect of `AddToNodeSize` when the `Parent` chain of `n` ends within the fuel: `NodeSize`
grows at `n`, `SubTreeSize` grows on the chain, nothing else changes. -/
theorem AddToNodeSize_eq {h : PHeap} {fuel n : Nat} (tasks : Int)
    (hend : parIter h.par fuel n = none) :
    ∃ h', AddToNodeSize fuel h n tasks = .ok h' ∧ ∀ q, h' q =
      { h q with
        NodeSize := if q = n then add64 (h q).NodeSize tasks else (h q).NodeSize
        SubTreeSize := if q ∈ ancF h.par fuel (some n) then add64 (h q).SubTreeSize tasks
          else (h q).SubTreeSize } := by
  have hpar : PHeap.par (Function.update h n { h n with NodeSize := add64 (h n).NodeSize tasks })
      = h.par := by
    funext q
    by_cases hq : q = n
    · subst hq; simp [PHeap.par]
    · simp [PHeap.par, Function.update_noteq hq]
  have hrun := forAncestors_eq (setSize fun s => add64 s tasks) (setSize_parent _) fuel
    (Function.update h n { h n with NodeSize := add64 (h n).NodeSize tasks }) n
    (by rw [hpar]; exact hend)
  refine ⟨_, hrun, fun q => ?_⟩
  rw [hpar, foldl_setSize _ _ (nodup_ancF hend)]
  by_cases hq : q = n
  · subst hq
    by_cases hm : q ∈ ancF h.par fuel (some q) <;> simp [hm]
  · rw [Function.update_noteq hq]
    by_cases hm : q ∈ ancF h.par fuel (some n) <;> simp [hm, hq]

/-- The effect of `RemoveChild` when the `Parent` chain of `p` ends within the fuel and does not
pass through `child`. -/
theorem RemoveChild_eq {h : PHeap} {fuel p child : Nat}
    (hend : parIter h.par fuel p = none) (hc : child ∉ ancF h.par fuel (some p)) :
    ∃ h', RemoveChild fuel h p child = .ok h' ∧ ∀ q, h' q =
      { h q with
        Children := if q = p then (h q).Children.erase child else (h q).Children
        SubTreeSize := if q ∈ ancF h.par fuel (some p)
          then sub64 (h q).SubTreeSize (h child).SubTreeSize else (h q).SubTreeSize } := by
  have hrun := forAncestors_eq
    (fun g ptr => Function.update g ptr
      { g ptr with SubTreeSize := sub64 (g ptr).SubTreeSize (g child).SubTreeSize })
    (fun g a q => by
      by_cases hq : q = a
      · subst hq; simp
      · simp [Function.update_noteq hq]) fuel h p hend
  rw [foldl_readSize sub64 child _ hc] at hrun
  refine ⟨_, by simp only [RemoveChild, hrun]; rfl, fun q => ?_⟩
  by_cases hq : q = p
  · subst hq
    simp only [Function.update_same, foldl_setSize _ _ (nodup_ancF hend), if_true]
    by_cases hm : q ∈ ancF h.par fuel (some q) <;> simp [hm]
  · rw [Function.update_noteq hq, foldl_setSize _ _ (nodup_ancF hend)]
    by_cases hm : q ∈ ancF h.par fuel (some p) <;> simp [hm, hq]

/-- The effect of `AppendChild` when the `Parent` chain of `p` ends within the fuel and does not
pass through `child`. -/
theorem AppendChild_eq {h : PHeap} {fuel p child : Nat}
    (hend : parIter h.par fuel p = none) (hc : child ∉ ancF h.par fuel (some p)) :
    ∃ h', AppendChild fuel h p child = .ok h' ∧ ∀ q, h' q =
      { h q with
        Children := if q = p then (h q).Children ++ [child] else (h q).Children
        SubTreeSize := if q ∈ ancF h.par fuel (some p)
          then add64 (h q).SubTreeSize (h child).SubTreeSize else (h q).SubTreeSize } := by
  have hrun := forAncestors_eq
    (fun g ptr => Function.update g ptr
      { g ptr with SubTreeSize := add64 (g ptr).SubTreeSize (g child).SubTreeSize })
    (fun g a q => by
      by_cases hq : q = a
      · subst hq; simp
      · simp [Function.update_noteq hq]) fuel h p hend
  rw [foldl_readSize add64 child _ hc] at hrun
  refine ⟨_, by simp only [AppendChild, hrun]; rfl, fun q => ?_⟩
  by_cases hq : q = p
  · subst hq
    simp only [Function.update_same, foldl_setSize _ _ (nodup_ancF hend), if_true]
    by_cases hm : q ∈ ancF h.par fuel (some q) <;> simp [hm]
  · rw [Function.update_noteq hq, foldl_setSize _ _ (nodup_ancF hend)]
    by_cases hm : q ∈ ancF h.par fuel (some p) <;> simp [hm, hq]

theorem PWF_of_sameLinks {h h' : PHeap} {N : Nat} (hw : PWF h N) (hs : SameLinks h h') :
    PWF h' N := by
  have hpar : h'.par = h.par := by funext q; exact (hs q).2.1
  obtain ⟨h1, h2, h3, h4⟩ := hw
  refine ⟨?_, ?_, ?_, ?_⟩
  · intro p hp c hc
    rw [(hs p).2.2] at hc
    rw [(hs c).2.1]
    exact h1 p hp c hc
  · intro c hc p hpc
    rw [(hs c).2.1] at hpc
    rw [(hs p).2.2]
    exact h2 c hc p hpc
  · intro p hp
    rw [(hs p).2.2]; exact h3 p hp
  · intro x hx
    rw [hpar]; exact h4 x hx

theorem countP_mem_eq_sum_count (l A : List Nat) (hA : A.Nodup) :
    l.countP (fun c => decide (c ∈ A)) = (l.map fun c => A.count c).sum := by
  induction l with
  | nil => simp
  | cons c l ih =>
    rw [List.countP_cons, List.map_cons, List.sum_cons, ih]
    by_cases hc : c ∈ A
    · simp [hc, List.count_eq_one_of_mem hA hc]; omega
    · simp [hc, List.count_eq_zero_of_not_mem hc]

/-- On the `Parent` chain `L` of `n`: a node lies on `L` exactly when it is `n` or has one child
on `L`, and it never has two. -/
theorem chain_count {h : PHeap} {N : Nat} (hw : PWF h N) {n q : Nat} (hn : n < N) (hq : q < N) :
    (if q ∈ ancF h.par N (some n) then 1 else 0)
      = (if n = q then 1 else 0)
        + (h q).Children.countP (fun c => decide (c ∈ ancF h.par N (some n))) := by
  have hnd : (ancF h.par N (some n)).Nodup := nodup_ancF (hw.2.2.2 n hn)
  have h1 := @count_ancF_succ h.par N n q
  rw [ancF_stable (Nat.le_succ N) (hw.2.2.2 n hn)] at h1
  have h2 : (ancF h.par N (some n)).countP (fun a => decide (h.par a = some q))
      = (ancF h.par N (some n)).countP (fun a => decide (a ∈ h.ch q)) := by
    apply List.countP_congr
    intro a ha
    have haN := ancF_lt hw.links hn ha
    simp only [decide_eq_true_eq]
    constructor
    · intro e; exact (hw.links.parent a haN q (by simp [e])).2
    · intro e; exact (hw.links.child q hq a e).2
  rw [h2, ← sum_count_eq_countP _ _ (hw.links.nodup q hq),
    ← countP_mem_eq_sum_count _ _ hnd] at h1
  show _ = (if n = q then 1 else 0)
    + (h.ch q).countP (fun c => decide (c ∈ ancF h.par N (some n)))
  rw [← h1]
  by_cases hm : q ∈ ancF h.par N (some n)
  · rw [if_pos hm, List.count_eq_one_of_mem hnd hm]
  · rw [if_neg hm, List.count_eq_zero_of_not_mem hm]

theorem sum_bump (L l : List Nat) (S : Nat → Int) (F : Int → Int) (d : Int)
    (hF : ∀ s, F s ≡ s + d [ZMOD 18446744073709551616]) :
    (l.map fun c => if c ∈ L then F (S c) else S c).sum
      ≡ (l.map S).sum + d * (l.countP fun c => decide (c ∈ L)) [ZMOD 18446744073709551616] := by
  induction l with
  | nil => simp
  | cons c l ih =>
    rw [List.map_cons, List.sum_cons, List.map_cons, List.sum_cons, List.countP_cons]
    by_cases hc : c ∈ L
    · simp only [hc, if_true, decide_True]
      have := (hF (S c)).add ih
      refine this.trans ?_
      push_cast
      rw [show S c + d + ((l.map S).sum + d * (l.countP fun c => decide (c ∈ L)))
        = S c + (l.map S).sum + d * ((l.countP fun c => decide (c ∈ L)) + 1) by ring]
    · simp only [hc, if_false, decide_False]
      have := (Int.ModEq.refl (S c)).add ih
      refine this.trans ?_
      simp
      rw [show S c + ((l.map S).sum + d * (l.countP fun c => decide (c ∈ L)))
        = S c + (l.map S).sum + d * (l.countP fun c => decide (c ∈ L)) by ring]

/-- `AddToNodeSize` on a partition tree: it runs to completion, changes no link, adds `tasks`
to `NodeSize` at `n` and to `SubTreeSize` on the `Parent` chain of `n`, and keeps the subtree-sum
invariant wherever it held. -/
theorem AddToNodeSize_inv {h : PHeap} {N : Nat} (hw : PWF h N) {n : Nat} (hn : n < N)
    {fuel : Nat} (hfuel : N ≤ fuel) (tasks : Int) :
    ∃ h', AddToNodeSize fuel h n tasks = .ok h' ∧ SameLinks h h' ∧
      (∀ q, (h' q).NodeSize = if q = n then add64 (h q).NodeSize tasks else (h q).NodeSize) ∧
      (∀ q, (h' q).SubTreeSize = if q ∈ ancF h.par N (some n)
        then add64 (h q).SubTreeSize tasks else (h q).SubTreeSize) ∧
      (∀ q < N, SumInv h q → SumInv h' q) := by
  obtain ⟨h', hrun, hq'⟩ := AddToNodeSize_eq tasks (hw.ends hn hfuel)
  rw [hw.chain_eq hn hfuel] at hq'
  have hN : ∀ q, (h' q).NodeSize = if q = n then add64 (h q).NodeSize tasks
      else (h q).NodeSize := fun q => by rw [hq' q]
  have hS : ∀ q, (h' q).SubTreeSize = if q ∈ ancF h.par N (some n)
      then add64 (h q).SubTreeSize tasks else (h q).SubTreeSize := fun q => by rw [hq' q]
  have hC : ∀ q, (h' q).Children = (h q).Children := fun q => by rw [hq' q]
  refine ⟨h', hrun, fun q => by rw [hq' q]; exact ⟨rfl, rfl, rfl⟩, hN, hS, ?_⟩
  intro q hq hinv
  unfold SumInv at hinv ⊢
  have hmap : ((h' q).Children.map fun c => (h' c).SubTreeSize)
      = (h q).Children.map fun c => if c ∈ ancF h.par N (some n)
          then (fun s => add64 s tasks) (h c).SubTreeSize else (h c).SubTreeSize := by
    rw [hC q]
    apply List.map_congr_left
    intro c _
    exact hS c
  have hsum := sum_bump (ancF h.par N (some n)) (h q).Children (fun c => (h c).SubTreeSize)
    (fun s => add64 s tasks) tasks (fun s => wrap64_modEq (s + tasks))
  rw [← hmap] at hsum
  have hcnt := chain_count hw hn hq
  rw [hS q, hN q]
  generalize ((h' q).Children.map fun c => (h' c).SubTreeSize).sum = sum1 at hsum ⊢
  generalize ((h q).Children.map fun c => (h c).SubTreeSize).sum = sum0 at hsum hinv
  generalize (h q).Children.countP (fun c => decide (c ∈ ancF h.par N (some n))) = cnt
    at hsum hcnt
  rw [hinv]
  by_cases hm : q ∈ ancF h.par N (some n)
  · rw [if_pos hm] at hcnt ⊢
    by_cases hqn : q = n
    · have hc0 : cnt = 0 := by
        have : n = q := hqn.symm
        rw [if_pos this] at hcnt; omega
      subst hc0
      rw [if_pos hqn]
      simp only [Nat.cast_zero, mul_zero, add_zero] at hsum
      unfold Int.ModEq at hsum
      unfold add64 wrap64
      omega
    · have hc1 : cnt = 1 := by
        have : ¬ n = q := fun e => hqn e.symm
        rw [if_neg this] at hcnt; omega
      subst hc1
      rw [if_neg hqn]
      simp only [Nat.cast_one, mul_one] at hsum
      unfold Int.ModEq at hsum
      unfold add64 wrap64
      omega
  · rw [if_neg hm] at hcnt ⊢
    have hqn : ¬ q = n := by
      intro e
      have : n = q := e.symm
      rw [if_pos this] at hcnt; omega
    have hc0 : cnt = 0 := by omega
    subst hc0
    rw [if_neg hqn]
    simp only [Nat.cast_zero, mul_zero, add_zero] at hsum
    unfold Int.ModEq at hsum
    unfold wrap64
    omega

theorem foldlM_flatMap_fold {α : Type} {g : α → Nat → Except Fault α} {step : α → Nat → α}
    {F : Nat → List Nat} (L : List Nat)
    (hg : ∀ c ∈ L, ∀ acc, g acc c = .ok ((F c).foldl step acc)) (acc : α) :
    L.foldlM g acc = .ok ((L.flatMap F).foldl step acc) := by
  induction L generalizing acc with
  | nil => simp [pure, Except.pure]
  | cons c L ih =>
    rw [List.foldlM_cons, hg c (List.mem_cons_self _ _)]
    show L.foldlM g ((F c).foldl step acc) = _
    rw [ih (fun c hc => hg c (List.mem_cons_of_mem _ hc)), List.flatMap_cons, List.foldl_append]

theorem mapNameToPartitionNodeFunc_eq {h : PHeap} {N : Nat} (hL : Links h.par h.ch N) (f : Nat)
    {n : Nat} (hn : n < N) (hs : Shallow h.par N f n) (m : String → Option Nat) :
    mapNameToPartitionNodeFunc h f n m = .ok (indexNames h (preT h.ch f n) m) := by
  induction f generalizing n m with
  | zero => exact absurd (hs n hn 0 rfl) (Nat.lt_irrefl 0)
  | succ f ih =>
    rw [mapNameToPartitionNodeFunc, preT]
    have hfold := @foldlM_flatMap_fold (String → Option Nat)
      (fun m child => mapNameToPartitionNodeFunc h f child m)
      (fun m p => Function.update m (h p).Name (some p)) (preT h.ch f) (h n).Children
      (fun c hc acc => ih (hL.child n hn c hc).1 (shallow_child hL hn hc hs) acc)
    rw [hfold]
    rfl

theorem indexNames_untouched (h : PHeap) (l : List Nat) (m : String → Option Nat)
    (name : String) (hl : ∀ y ∈ l, (h y).Name ≠ name) : indexNames h l m name = m name := by
  induction l generalizing m with
  | nil => rfl
  | cons a l ih =>
    show indexNames h l (Function.update m (h a).Name (some a)) name = _
    rw [ih _ (fun y hy => hl y (List.mem_cons_of_mem _ hy))]
    exact Function.update_noteq (fun e => hl a (List.mem_cons_self _ _) e.symm) _ _

theorem indexNames_lookup (h : PHeap) (l : List Nat) (m : String → Option Nat) {x : Nat}
    (hx : x ∈ l) (huniq : ∀ y ∈ l, (h y).Name = (h x).Name → y = x) :
    indexNames h l m (h x).Name = some x := by
  induction l generalizing m with
  | nil => cases hx
  | cons a l ih =>
    show indexNames h l (Function.update m (h a).Name (some a)) (h x).Name = _
    by_cases hxl : x ∈ l
    · exact ih _ hxl (fun y hy => huniq y (List.mem_cons_of_mem _ hy))
    · have hax : a = x := by
        rcases List.mem_cons.1 hx with e | e
        · exact e.symm
        · exact absurd e hxl
      subst hax
      rw [indexNames_untouched h l _ _ (fun y hy e => hxl (by
        have := huniq y (List.mem_cons_of_mem _ hy) e
        rw [← this]; exact hy))]
      simp

theorem parIter_last {par : Nat → Option Nat} {f x : Nat} (hf : parIter par f x = none) :
    ∃ k < f, ∃ y, parIter par k x = some y ∧ par y = none := by
  induction f generalizing x with
  | zero => simp [parIter] at hf
  | succ f ih =>
    cases hp : par x with
    | none => exact ⟨0, Nat.succ_pos _, x, rfl, hp⟩
    | some p =>
      have : parIter par f p = none := by simpa [parIter, hp] using hf
      obtain ⟨k, hk, y, hky, hy⟩ := ih this
      exact ⟨k + 1, Nat.succ_lt_succ hk, y, by simp [parIter, hp, hky], hy⟩

/-- In a single-rooted partition tree every `Parent` chain ends at the root. -/
theorem reaches_root {h : PHeap} {N root : Nat} (hw : PWF h N) (hr : Rooted h N root) {x : Nat}
    (hx : x < N) : ∃ k < N, parIter h.par k x = some root := by
  obtain ⟨k, hk, y, hky, hy⟩ := parIter_last (hw.2.2.2 x hx)
  have hyN : y < N := ancF_lt hw.links hx (mem_ancF.2 ⟨k, hk, hky⟩)
  have : y = root := by
    by_contra hne
    exact hr.2.2 y hyN hne hy
  subst this
  exact ⟨k, hk, hky⟩

theorem root_mem_chain {h : PHeap} {N root : Nat} (hw : PWF h N) (hr : Rooted h N root) {x : Nat}
    (hx : x < N) : root ∈ ancF h.par N (some x) :=
  mem_ancF.2 (reaches_root hw hr hx)

theorem mem_preT_root {h : PHeap} {N root : Nat} (hw : PWF h N) (hr : Rooted h N root) {x : Nat}
    (hx : x < N) {fuel : Nat} (hfuel : N ≤ fuel) : x ∈ preT h.ch fuel root := by
  obtain ⟨k, hk, hkx⟩ := reaches_root hw hr hx
  exact (mem_preT_iff hw.links fuel hr.1 hx).2 ⟨k, by omega, hkx⟩

/-- On a single-rooted tree with pairwise distinct names, `MapNameToPartitionNode` returns an
index that sends the name of every node to that node. -/
theorem MapNameToPartitionNode_ok {h : PHeap} {N root : Nat} (hw : PWF h N)
    (hr : Rooted h N root) (hnames : ∀ x < N, ∀ y < N, (h x).Name = (h y).Name → x = y)
    {fuel : Nat} (hfuel : N ≤ fuel) :
    ∃ m, MapNameToPartitionNode fuel h root = .ok (m, none) ∧ ∀ x < N, m (h x).Name = some x := by
  have hs : Shallow h.par N fuel root :=
    shallow_mono hfuel (shallow_root hw.links (show h.par root = none from hr.2.1))
  refine ⟨indexNames h (preT h.ch fuel root) fun _ => none, ?_, ?_⟩
  · simp [MapNameToPartitionNode, hr.2.1, mapNameToPartitionNodeFunc_eq hw.links fuel hr.1 hs,
      Except.map]
  · intro x hx
    apply indexNames_lookup h _ _ (mem_preT_root hw hr hx hfuel)
    intro y hy e
    exact hnames y (preT_lt hw.links hr.1 hy) x hx e

theorem indexNames_isSome_of (h : PHeap) (l : List Nat) (m : String → Option Nat)
    (name : String) (hm : (m name).isSome) : (indexNames h l m name).isSome := by
  induction l generalizing m with
  | nil => exact hm
  | cons a l ih =>
    show (indexNames h l (Function.update m (h a).Name (some a)) name).isSome
    apply ih
    by_cases e : name = (h a).Name
    · subst e; simp
    · rw [Function.update_noteq e]; exact hm

theorem indexNames_isSome (h : PHeap) (l : List Nat) (m : String → Option Nat) {x : Nat}
    (hx : x ∈ l) : (indexNames h l m (h x).Name).isSome := by
  induction l generalizing m with
  | nil => cases hx
  | cons a l ih =>
    show (indexNames h l (Function.update m (h a).Name (some a)) (h x).Name).isSome
    rcases List.mem_cons.1 hx with e | e
    · subst e
      exact indexNames_isSome_of h l _ _ (by simp)
    · exact ih _ e

theorem indexNames_val (h : PHeap) (l : List Nat) (m : String → Option Nat) {name : String}
    {x : Nat} (hx : indexNames h l m name = some x) : x ∈ l ∨ m name = some x := by
  induction l generalizing m with
  | nil => exact Or.inr hx
  | cons a l ih =>
    have := ih (Function.update m (h a).Name (some a)) hx
    rcases this with h1 | h1
    · exact Or.inl (List.mem_cons_of_mem _ h1)
    · by_cases e : name = (h a).Name
      · subst e
        rw [Function.update_same] at h1
        left
        have : a = x := by simpa using h1
        rw [← this]; exact List.mem_cons_self _ _
      · rw [Function.update_noteq e] at h1; exact Or.inr h1

/-- On a single-rooted tree `MapNameToPartitionNode` returns, without error, an index whose
values are tree nodes and that knows the name of every node. -/
theorem MapNameToPartitionNode_total {h : PHeap} {N root : Nat} (hw : PWF h N)
    (hr : Rooted h N root) {fuel : Nat} (hfuel : N ≤ fuel) :
    ∃ m, MapNameToPartitionNode fuel h root = .ok (m, none) ∧
      (∀ name x, m name = some x → x < N) ∧ ∀ x < N, (m (h x).Name).isSome := by
  have hs : Shallow h.par N fuel root :=
    shallow_mono hfuel (shallow_root hw.links (show h.par root = none from hr.2.1))
  refine ⟨indexNames h (preT h.ch fuel root) fun _ => none, ?_, ?_, ?_⟩
  · simp [MapNameToPartitionNode, hr.2.1, mapNameToPartitionNodeFunc_eq hw.links fuel hr.1 hs,
      Except.map]
  · intro name x hx
    rcases indexNames_val h _ _ hx with h1 | h1
    · exact preT_lt hw.links hr.1 h1
    · cases h1
  · intro x hx
    exact indexNames_isSome h _ _ (mem_preT_root hw hr hx hfuel)

theorem sameLinks_refl (h : PHeap) : SameLinks h h := fun _ => ⟨rfl, rfl, rfl⟩

theorem sameLinks_trans {h₁ h₂ h₃ : PHeap} (h12 : SameLinks h₁ h₂) (h23 : SameLinks h₂ h₃) :
    SameLinks h₁ h₃ := fun q =>
  ⟨(h23 q).1.trans (h12 q).1, (h23 q).2.1.trans (h12 q).2.1, (h23 q).2.2.trans (h12 q).2.2⟩

theorem Rooted_of_sameLinks {h h' : PHeap} {N root : Nat} (hr : Rooted h N root)
    (hs : SameLinks h h') : Rooted h' N root := by
  refine ⟨hr.1, by rw [(hs root).2.1]; exact hr.2.1, fun x hx hne => ?_⟩
  rw [(hs x).2.1]; exact hr.2.2 x hx hne

theorem nodeSizeSum_bump {g g' : PHeap} {N x : Nat} (hx : x < N) (t : Int)
    (hN : ∀ q, (g' q).NodeSize = if q = x then add64 (g q).NodeSize t else (g q).NodeSize) :
    nodeSizeSum g' N ≡ nodeSizeSum g N + t [ZMOD 18446744073709551616] := by
  have hsum := sum_bump [x] (List.range N) (fun q => (g q).NodeSize) (fun s => add64 s t) t
    (fun s => wrap64_modEq (s + t))
  have hmap : ((List.range N).map fun c => if c ∈ [x] then (fun s => add64 s t) (g c).NodeSize
      else (g c).NodeSize) = (List.range N).map fun q => (g' q).NodeSize := by
    apply List.map_congr_left
    intro c _
    rw [hN c]
    simp
  have hcnt : (List.range N).countP (fun c => decide (c ∈ [x])) = 1 := by
    have h1 : (List.range N).countP (fun c => decide (c ∈ [x])) = (List.range N).count x := by
      rw [List.count]
      apply List.countP_congr
      intro c _
      simp
    rw [h1]
    exact List.count_eq_one_of_mem (List.nodup_range N) (List.mem_range.2 hx)
  rw [hmap, hcnt] at hsum
  simpa [nodeSizeSum] using hsum

theorem added_refl (N root : Nat) (g : PHeap) : Added N root g g 0 :=
  ⟨sameLinks_refl g, fun _ _ hq => hq, by simp, fun hq => hq, by simp⟩

theorem added_trans {N root : Nat} {g₁ g₂ g₃ : PHeap} {t₁ t₂ : Int}
    (h12 : Added N root g₁ g₂ t₁) (h23 : Added N root g₂ g₃ t₂) :
    Added N root g₁ g₃ (t₁ + t₂) := by
  refine ⟨sameLinks_trans h12.same h23.same, fun q hq hi => h23.inv q hq (h12.inv q hq hi), ?_,
    fun hi => h23.rootRange (h12.rootRange hi), ?_⟩
  · have := h23.rootSize.trans (h12.rootSize.add_right t₂)
    rwa [add_assoc] at this
  · have := h23.nodeSizes.trans (h12.nodeSizes.add_right t₂)
    rwa [add_assoc] at this

theorem AddToNodeSize_added {g : PHeap} {N root : Nat} (hw : PWF g N) (hr : Rooted g N root)
    {x : Nat} (hx : x < N) {fuel : Nat} (hfuel : N ≤ fuel) (t : Int) :
    ∃ g', AddToNodeSize fuel g x t = .ok g' ∧ Added N root g g' t := by
  obtain ⟨g', hrun, hsame, hN, hS, hinv⟩ := AddToNodeSize_inv hw hx hfuel t
  refine ⟨g', hrun, hsame, hinv, ?_, ?_, nodeSizeSum_bump hx t hN⟩
  · rw [hS root, if_pos (root_mem_chain hw hr hx)]
    exact wrap64_modEq _
  · intro _
    rw [hS root, if_pos (root_mem_chain hw hr hx)]
    exact isInt64_wrap64 _

theorem addDay_added {g : PHeap} {N root : Nat} (hw : PWF g N) (hr : Rooted g N root)
    {fuel : Nat} (hfuel : N ≤ fuel) (m : String → Option Nat)
    (hm : ∀ name x, m name = some x → x < N) (day : List (String × Int))
    (hknown : ∀ e ∈ day, (m e.1).isSome) :
    ∃ g', addDay fuel m day g = .ok g' ∧ Added N root g g' (dayTotal day) := by
  induction day generalizing g with
  | nil => exact ⟨g, rfl, by simpa [dayTotal] using added_refl N root g⟩
  | cons e day ih =>
    obtain ⟨name, t⟩ := e
    obtain ⟨x, hx⟩ := Option.isSome_iff_exists.1 (hknown (name, t) (List.mem_cons_self _ _))
    obtain ⟨g1, hrun1, hadd1⟩ := AddToNodeSize_added hw hr (hm name x hx) hfuel t
    obtain ⟨g2, hrun2, hadd2⟩ := ih (PWF_of_sameLinks hw hadd1.same)
      (Rooted_of_sameLinks hr hadd1.same) (fun e he => hknown e (List.mem_cons_of_mem _ he))
    refine ⟨g2, ?_, ?_⟩
    · simp only [addDay, hx, hrun1, hrun2]
    · have := added_trans hadd1 hadd2
      simpa [dayTotal] using this

theorem addDays_added {g : PHeap} {N root : Nat} (hw : PWF g N) (hr : Rooted g N root)
    {fuel : Nat} (hfuel : N ≤ fuel) (m : String → Option Nat)
    (hm : ∀ name x, m name = some x → x < N) (days : List (List (String × Int)))
    (hknown : ∀ day ∈ days, ∀ e ∈ day, (m e.1).isSome) :
    ∃ g', addDays fuel m days g = .ok g' ∧ Added N root g g' (seriesTotal days) := by
  induction days generalizing g with
  | nil => exact ⟨g, rfl, by simpa [seriesTotal] using added_refl N root g⟩
  | cons day days ih =>
    obtain ⟨g1, hrun1, hadd1⟩ := addDay_added hw hr hfuel m hm day
      (hknown day (List.mem_cons_self _ _))
    obtain ⟨g2, hrun2, hadd2⟩ := ih (PWF_of_sameLinks hw hadd1.same)
      (Rooted_of_sameLinks hr hadd1.same) (fun d hd => hknown d (List.mem_cons_of_mem _ hd))
    refine ⟨g2, ?_, ?_⟩
    · simp only [addDays, hrun1, hrun2]
    · have := added_trans hadd1 hadd2
      simpa [seriesTotal] using this

/-- `SetInitialSize` on the root of a single-rooted tree whose `SubTreeSize` is not positive,
with every name of the visited days naming a tree node: no fault, no error, and the sizes are
those of the corresponding run of `AddToNodeSize` calls. -/
theorem SetInitialSize_run {h : PHeap} {N root : Nat} (hw : PWF h N) (hr : Rooted h N root)
    (hsize : (h root).SubTreeSize ≤ 0) {fuel : Nat} (hfuel : N ≤ fuel)
    (tasksPerDay : List (List (String × Int))) (initDays : Int)
    (hknown : ∀ day ∈ tasksPerDay.take initDays.toNat, ∀ e ∈ day, ∃ x < N, (h x).Name = e.1) :
    ∃ h', SetInitialSize fuel h root tasksPerDay initDays = .ok (h', none) ∧
      Added N root h h' (seriesTotal (tasksPerDay.take initDays.toNat)) := by
  obtain ⟨m, hmap, hmv, hmk⟩ := MapNameToPartitionNode_total hw hr hfuel
  obtain ⟨h', hrun, hadd⟩ := addDays_added hw hr hfuel m hmv (tasksPerDay.take initDays.toNat)
    (fun day hday e he => by
      obtain ⟨x, hx, hxe⟩ := hknown day hday e he
      rw [← hxe]; exact hmk x hx)
  refine ⟨h', ?_, hadd⟩
  have hng : ¬ (h root).SubTreeSize > 0 := by omega
  simp [SetInitialSize, PartitionNode.isRoot, hr.2.1, hng, hmap, hrun]

end PartitionOps

section Copy

theorem copied_alloc (st : CopyState) (name : String) (parent : Option Nat) :
    Copied st ⟨Function.update st.heap st.next ⟨name, parent, [], 0, 0⟩, st.next + 1⟩
      st.next parent := by
  refine ⟨rfl, Nat.lt_succ_self _, ?_, ?_, ?_, ?_, ?_, ?_⟩
  · intro a ha
    exact Function.update_noteq (Nat.ne_of_lt ha) _ _
  · simp
  · intro a h1 h2 c hc
    have : a = st.next := by change a < st.next + 1 at h2; omega
    subst this
    simp at hc
  · intro a h1 h2
    change a < st.next + 1 at h2
    omega
  · intro a h1 h2
    have : a = st.next := by change a < st.next + 1 at h2; omega
    subst this
    simp
  · intro a h1 h2
    have : a = st.next := by change a < st.next + 1 at h2; omega
    subst this
    simp

theorem copied_attach {st sti st1 : CopyState} {p : Nat} {parent : Option Nat}
    (h0 : Copied st sti p parent) (h1 : Copied sti st1 sti.next (some p)) (h2 : PHeap)
    (hN : ∀ q, (h2 q).Name = (st1.heap q).Name)
    (hP : ∀ q, (h2 q).Parent = (st1.heap q).Parent)
    (hS : ∀ q, (h2 q).NodeSize = (st1.heap q).NodeSize ∧
      (h2 q).SubTreeSize = (st1.heap q).SubTreeSize)
    (hC : ∀ q, (h2 q).Children
      = if q = p then (st1.heap p).Children ++ [sti.next] else (st1.heap q).Children) :
    Copied st ⟨h2, st1.next⟩ p parent := by
  have hp : p = st.next := h0.top
  have hlt0 := h0.next_lt
  have hlt1 := h1.next_lt
  have hpi : p < sti.next := by omega
  have hold : ∀ a < sti.next, (st1.heap a) = sti.heap a := h1.frame
  have hpC : (st1.heap p).Children = (sti.heap p).Children := by rw [hold p hpi]
  refine ⟨hp, by show st.next < st1.next; omega, ?_, ?_, ?_, ?_, ?_, ?_⟩
  · intro a ha
    have hap : a ≠ p := by omega
    have e1 : h2 a = st1.heap a := by
      have hn := hN a; have hpp := hP a; have hs := hS a; have hc := hC a
      rw [if_neg hap] at hc
      cases hx : h2 a; cases hy : st1.heap a
      rw [hx, hy] at hn hpp hs hc
      simp only at hn hpp hs hc
      simp [hn, hpp, hs.1, hs.2, hc]
    show h2 a = st.heap a
    rw [e1, hold a (by omega), h0.frame a ha]
  · show (h2 p).Parent = parent
    rw [hP, hold p hpi]; exact h0.topParent
  · intro a ha1 ha2 c hc
    change a < st1.next at ha2
    change c ∈ (h2 a).Children at hc
    show a < c ∧ c < st1.next ∧ (h2 c).Parent = some a
    rw [hC] at hc
    rw [hP]
    by_cases hap : a = p
    · subst hap
      rw [if_pos rfl, hpC, List.mem_append, List.mem_singleton] at hc
      rcases hc with hc | hc
      · obtain ⟨g1, g2, g3⟩ := h0.childUp a ha1 hpi c hc
        exact ⟨g1, by omega, by rw [hold c g2]; exact g3⟩
      · subst hc
        exact ⟨hpi, hlt1, h1.topParent⟩
    · rw [if_neg hap] at hc
      by_cases hai : a < sti.next
      · rw [hold a hai] at hc
        obtain ⟨g1, g2, g3⟩ := h0.childUp a ha1 hai c hc
        exact ⟨g1, by omega, by rw [hold c g2]; exact g3⟩
      · exact h1.childUp a (by omega) ha2 c hc
  · intro a ha1 ha2
    change a < st1.next at ha2
    show ∃ q, st.next ≤ q ∧ q < a ∧ (h2 a).Parent = some q ∧ a ∈ (h2 q).Children
    by_cases hai : a < sti.next
    · obtain ⟨q, g1, g2, g3, g4⟩ := h0.parentDown a ha1 hai
      refine ⟨q, g1, g2, by rw [hP, hold a hai]; exact g3, ?_⟩
      rw [hC]
      by_cases hqp : q = p
      · subst hqp
        rw [if_pos rfl, hpC]
        exact List.mem_append_left _ g4
      · rw [if_neg hqp, hold q (by omega)]; exact g4
    · by_cases hac : a = sti.next
      · subst hac
        refine ⟨p, by omega, hpi, by rw [hP]; exact h1.topParent, ?_⟩
        rw [hC, if_pos rfl]
        exact List.mem_append_right _ (List.mem_singleton_self _)
      · obtain ⟨q, g1, g2, g3, g4⟩ := h1.parentDown a (by omega) ha2
        refine ⟨q, by omega, g2, by rw [hP]; exact g3, ?_⟩
        rw [hC, if_neg (by omega)]
        exact g4
  · intro a ha1 ha2
    change a < st1.next at ha2
    show (h2 a).Children.Nodup
    rw [hC]
    by_cases hap : a = p
    · subst hap
      rw [if_pos rfl, hpC]
      refine List.Nodup.append (h0.nodup a ha1 hpi) (List.nodup_singleton _) ?_
      intro x hx1 hx2
      rw [List.mem_singleton] at hx2
      have := (h0.childUp a ha1 hpi x hx1).2.1
      omega
    · rw [if_neg hap]
      by_cases hai : a < sti.next
      · rw [hold a hai]; exact h0.nodup a ha1 hai
      · exact h1.nodup a (by omega) ha2
  · intro a ha1 ha2
    change a < st1.next at ha2
    show (h2 a).NodeSize = 0 ∧ (h2 a).SubTreeSize = 0
    rw [(hS a).1, (hS a).2]
    by_cases hai : a < sti.next
    · rw [hold a hai]; exact h0.zero a ha1 hai
    · exact h1.zero a (by omega) ha2

theorem copyTree_ok {src : Heap} {M : Nat} (hL : Links src.par src.ch M) (fuel : Nat)
    {root : Nat} (hroot : root < M) (hs : Shallow src.par M fuel root) (parent : Option Nat)
    (st : CopyState) :
    ∃ st', copyTree src fuel root parent st = .ok (st.next, st') ∧
      Copied st st' st.next parent := by
  induction fuel generalizing root parent st with
  | zero => exact absurd (hs root hroot 0 rfl) (Nat.lt_irrefl 0)
  | succ fuel ih =>
    rw [copyTree]
    have hloop : ∀ (L : List Nat), (∀ c ∈ L, c ∈ src.ch root) → ∀ sti : CopyState,
        Copied st sti st.next parent →
        ∃ st', L.foldlM
            (fun (acc : Nat × CopyState) child =>
              match copyTree src fuel child (some st.next) acc.2 with
              | Except.error f => (Except.error f : Except Fault (Nat × CopyState))
              | Except.ok (c, st1) =>
                Except.ok (st.next, ⟨Function.update st1.heap st.next
                  { st1.heap st.next with
                    Children := (st1.heap st.next).Children ++ [c] }, st1.next⟩))
            (st.next, sti) = Except.ok (st.next, st') ∧ Copied st st' st.next parent := by
      intro L
      induction L with
      | nil => intro _ sti hsti; exact ⟨sti, rfl, hsti⟩
      | cons c L ihL =>
        intro hsub sti hsti
        have hc : c ∈ src.ch root := hsub c (List.mem_cons_self _ _)
        obtain ⟨st1, hrun1, hcop1⟩ := ih (hL.child root hroot c hc).1
          (shallow_child hL hroot hc hs) (some st.next) sti
        have hpi : st.next ≠ sti.next := Nat.ne_of_lt hsti.next_lt
        have hatt := copied_attach hsti hcop1
          (Function.update st1.heap st.next
            { st1.heap st.next with Children := (st1.heap st.next).Children ++ [sti.next] })
          (fun q => by
            by_cases hq : q = st.next
            · subst hq; simp
            · rw [Function.update_noteq hq])
          (fun q => by
            by_cases hq : q = st.next
            · subst hq; simp
            · rw [Function.update_noteq hq])
          (fun q => by
            by_cases hq : q = st.next
            · subst hq; simp
            · rw [Function.update_noteq hq]; exact ⟨rfl, rfl⟩)
          (fun q => by
            by_cases hq : q = st.next
            · subst hq; simp
            · rw [Function.update_noteq hq, if_neg hq])
        obtain ⟨st', hrun', hcop'⟩ := ihL (fun x hx => hsub x (List.mem_cons_of_mem _ hx)) _ hatt
        refine ⟨st', ?_, hcop'⟩
        rw [List.foldlM_cons]
        simp only [hrun1]
        exact hrun'
    exact hloop (src root).Children (fun c hc => hc) _ (copied_alloc st _ parent)

theorem parIter_none_of_decreasing {par : Nat → Option Nat} {N : Nat}
    (hdec : ∀ c < N, ∀ p, par c = some p → p < c) {x : Nat} (hx : x < N) :
    parIter par (x + 1) x = none := by
  induction x using Nat.strong_induction_on with
  | _ x ih =>
    rw [parIter]
    cases hp : par x with
    | none => rfl
    | some p =>
      have hpx := hdec x hx p hp
      exact parIter_none_mono (show p + 1 ≤ x by omega) (ih p hpx (by omega))

/-- The partition tree that `NewPartitionTree` copies from a plain tree (links agree, parentless
root `r`): the call runs to completion with any fuel of at least the number of plain nodes, the
copy of the root is at address `0`, and the copy is a single-rooted partition tree whose sizes
are all zero. -/
theorem NewPartitionTree_fresh {src : Heap} {M : Nat} (hL : Links src.par src.ch M) {r : Nat}
    (hr : r < M) (hpar : (src r).Parent = none) {fuel : Nat} (hfuel : M ≤ fuel) :
    ∃ st, NewPartitionTree fuel src (some r) = .ok (0, st) ∧ PWF st.heap st.next ∧
      Rooted st.heap st.next 0 ∧
      ∀ q < st.next, (st.heap q).NodeSize = 0 ∧ (st.heap q).SubTreeSize = 0 := by
  obtain ⟨st, hrun, hc⟩ := copyTree_ok hL fuel hr
    (shallow_mono hfuel (shallow_root hL (show src.par r = none from hpar))) none CopyState.init
  have h0 : CopyState.init.next = 0 := rfl
  rw [h0] at hrun hc
  have hcU := hc.childUp
  have hpD := hc.parentDown
  have hnd := hc.nodup
  have hz := hc.zero
  have hnl := hc.next_lt
  rw [h0] at hcU hpD hnd hz hnl
  have hdec : ∀ c < st.next, ∀ p, st.heap.par c = some p → p < c := by
    intro c hcN p hp
    by_cases hc0 : c = 0
    · subst hc0
      have : (st.heap 0).Parent = none := hc.topParent
      rw [show st.heap.par 0 = (st.heap 0).Parent from rfl, this] at hp
      cases hp
    · obtain ⟨q, _, g2, g3, _⟩ := hpD c (by omega) hcN
      rw [show st.heap.par c = (st.heap c).Parent from rfl, g3] at hp
      have : q = p := by simpa using hp
      omega
  refine ⟨st, hrun, ⟨?_, ?_, ?_, ?_⟩, ⟨hnl, hc.topParent, ?_⟩, fun q hq => hz q (Nat.zero_le q) hq⟩
  · intro p hp c hcm
    obtain ⟨_, g2, g3⟩ := hcU p (Nat.zero_le p) hp c hcm
    exact ⟨g2, g3⟩
  · intro c hcN p hp
    by_cases hc0 : c = 0
    · subst hc0
      rw [hc.topParent] at hp
      cases hp
    · obtain ⟨q, _, g2, g3, g4⟩ := hpD c (by omega) hcN
      rw [g3] at hp
      have : q = p := by simpa using hp
      subst this
      exact ⟨by omega, g4⟩
  · intro p hp
    exact hnd p (Nat.zero_le p) hp
  · intro x hx
    exact parIter_none_mono (show x + 1 ≤ st.next by omega) (parIter_none_of_decreasing hdec hx)
  · intro x hx hne
    obtain ⟨q, _, _, g3, _⟩ := hpD x (by omega) hx
    rw [g3]
    exact Option.some_ne_none q

end Copy

theorem SetInitialSize_zero_tree (h : PHeap) (N root : Nat) (hw : PWF h N)
    (hr : Rooted h N root) (hzero : ∀ q < N, (h q).NodeSize = 0 ∧ (h q).SubTreeSize = 0)
    (series : List (List (String × Int))) (k : Nat)
    (hknown : ∀ day ∈ series.take (min k series.length), ∀ e ∈ day, ∃ x < N, (h x).Name = e.1)
    (fuel : Nat) (hfuel : N ≤ fuel) :
    ∃ h', SetInitialSize fuel h root series k = .ok (h', none) ∧
      (h' root).SubTreeSize = wrap64 (seriesTotal (series.take (min k series.length))) ∧
      (h' root).SubTreeSize = wrap64 (nodeSizeSum h' N) ∧
      (isInt64 (seriesTotal (series.take (min k series.length))) →
        (h' root).SubTreeSize = seriesTotal (series.take (min k series.length))) := by
  have htake : series.take (min k series.length) = series.take k := by
    rw [List.take_eq_take]; simp
  rw [htake] at hknown ⊢
  have hS0 := (hzero root hr.1).2
  obtain ⟨h', hrun, hadd⟩ := SetInitialSize_run hw hr (by rw [hS0]) hfuel series (k : Int)
    (by simpa using hknown)
  have hk : ((k : Int)).toNat = k := by simp
  rw [hk] at hadd
  have hrange : isInt64 (h' root).SubTreeSize := hadd.rootRange (by rw [hS0]; decide)
  have hsum0 : nodeSizeSum h N = 0 := by
    unfold nodeSizeSum
    apply List.sum_eq_zero
    intro x hx
    obtain ⟨q, hq, rfl⟩ := List.mem_map.1 hx
    exact (hzero q (List.mem_range.1 hq)).1
  have h1 : (h' root).SubTreeSize = wrap64 (seriesTotal (series.take k)) := by
    rw [← wrap64_of_isInt64 hrange]
    apply wrap64_congr
    have := hadd.rootSize
    rwa [hS0, zero_add] at this
  refine ⟨h', hrun, h1, ?_, fun hfit => by rw [h1, wrap64_of_isInt64 hfit]⟩
  rw [h1]
  apply wrap64_congr
  have := hadd.nodeSizes
  rw [hsum0, zero_add] at this
  exact this.symm

theorem demoCopy_eq : NewPartitionTree 8 demoPlain (some 0) = .ok (0, demoCopy) := rfl

/-- C6: let `NewPartitionTree` copy a plain tree (links agree, parentless root `r`); the copy
`st` is returned with its root at address `0`, and for every series and every `k ≥ 0` such that
the names of the first `min k (len series)` days all name nodes of the copy,
`SetInitialSize(series, k)` on that root returns no error, and afterwards `SubTreeSize(root)`
is the `int64` sum of all contributions of those days, which is also the `int64` sum of
`NodeSize` over all nodes; it is the exact sum whenever that sum fits in an `int64`. -/
theorem SetInitialSize_fresh (src : Heap) (M r : Nat) (hL : Links src.par src.ch M)
    (hr : r < M) (hpar : (src r).Parent = none) (fuel : Nat) (hfuel : M ≤ fuel) :
    ∃ st, NewPartitionTree fuel src (some r) = .ok (0, st) ∧
      ∀ (series : List (List (String × Int))) (k : Nat),
        (∀ day ∈ series.take (min k series.length), ∀ e ∈ day,
          ∃ x < st.next, (st.heap x).Name = e.1) →
        ∀ fuel', st.next ≤ fuel' →
          ∃ h', SetInitialSize fuel' st.heap 0 series k = .ok (h', none) ∧
            (h' 0).SubTreeSize = wrap64 (seriesTotal (series.take (min k series.length))) ∧
            (h' 0).SubTreeSize = wrap64 (nodeSizeSum h' st.next) ∧
            (isInt64 (seriesTotal (series.take (min k series.length))) →
              (h' 0).SubTreeSize = seriesTotal (series.take (min k series.length))) := by
  obtain ⟨st, hrun, hw, hroot, hzero⟩ := NewPartitionTree_fresh hL hr hpar hfuel
  exact ⟨st, hrun, fun series k hknown fuel' hfuel' =>
    SetInitialSize_zero_tree st.heap st.next 0 hw hroot hzero series k hknown fuel' hfuel'⟩

/-- C6, checked on the scenario of the specification: on the copy of `A -> A, B -> A, C -> A,
D -> B`, `SetInitialSize` with day-0 weights `{A:10, B:5, C:3, D:2}` returns no error and
gives `SubTreeSize` `D = 2`, `B = 7`, `C = 3`, `A = 20`. -/
theorem SetInitialSize_fresh_witness :
    (Links demoPlain.par demoPlain.ch 4 ∧ (demoPlain 0).Parent = none) ∧
    (∃ h', SetInitialSize 8 demoPart 0 demoSeries (1 : Nat) = .ok (h', none) ∧
      (h' 0).SubTreeSize = wrap64 (seriesTotal (demoSeries.take (min 1 demoSeries.length))) ∧
      (h' 0).SubTreeSize = wrap64 (nodeSizeSum h' 4) ∧
      (isInt64 (seriesTotal (demoSeries.take (min 1 demoSeries.length))) →
        (h' 0).SubTreeSize = seriesTotal (demoSeries.take (min 1 demoSeries.length)))) ∧
    ((List.range 4).map (fun q => ((demoInit q).Name, (demoInit q).SubTreeSize))
      = [("A", 20), ("B", 7), ("D", 2), ("C", 3)]) := by
  have hL : Links demoPlain.par demoPlain.ch 4 := ⟨by decide, by decide, by decide⟩
  refine ⟨⟨hL, by decide⟩, ?_, by decide⟩
  obtain ⟨st, hrun, H⟩ := SetInitialSize_fresh demoPlain 4 0 hL (by decide) (by decide) 8
    (by decide)
  have hst : st = demoCopy := by
    rw [demoCopy_eq] at hrun
    simpa using hrun.symm
  subst hst
  exact H demoSeries 1 (by decide) 8 (by decide)

section Sequences

theorem applyOp_sizeOp {h g : PHeap} {N root : Nat} (hs : SameLinks h g) (hw : PWF g N)
    (hr : Rooted g N root) {fuel : Nat} (hfuel : N ≤ fuel) (op : Op) (hop : SizeOp h N op) :
    ∃ g', applyOp fuel g op = .ok g' ∧ SameLinks g g' ∧ ∀ q < N, SumInv g q → SumInv g' q := by
  cases op with
  | addToNodeSize n tasks =>
    obtain ⟨g', hrun, hsame, _, _, hinv⟩ := AddToNodeSize_inv hw (show n < N from hop) hfuel tasks
    exact ⟨g', hrun, hsame, hinv⟩
  | setInitialSize r tasksPerDay initDays =>
    obtain ⟨hrN, hknown⟩ := hop
    by_cases hpar : (g r).Parent = none
    · have hroot : r = root := by
        by_contra hne
        exact hr.2.2 r hrN hne hpar
      subst hroot
      by_cases hpos : (g r).SubTreeSize > 0
      · refine ⟨g, ?_, sameLinks_refl g, fun _ _ hq => hq⟩
        simp [applyOp, SetInitialSize, hpar, hpos, Except.map]
      · obtain ⟨g', hrun, hadd⟩ := SetInitialSize_run hw hr (by omega) hfuel tasksPerDay initDays
          (fun day hday e he => by
            obtain ⟨x, hx, hxe⟩ := hknown day hday e he
            exact ⟨x, hx, by rw [(hs x).1]; exact hxe⟩)
        refine ⟨g', ?_, hadd.same, hadd.inv⟩
        simp [applyOp, hrun, Except.map]
    · refine ⟨g, ?_, sameLinks_refl g, fun _ _ hq => hq⟩
      simp [applyOp, SetInitialSize, hpar, Except.map]
  | removeChild _ _ => exact absurd hop id
  | appendChild _ _ => exact absurd hop id
  | separateRoot _ => exact absurd hop id
  | uniteRoot _ _ => exact absurd hop id
  | separateMaxChild _ => exact absurd hop id
  | uniteMaxChild _ _ => exact absurd hop id

theorem runOps_sizeOps {h g : PHeap} {N root : Nat} (hs : SameLinks h g) (hw : PWF g N)
    (hr : Rooted g N root) (hinv : ∀ q < N, SumInv g q) {fuel : Nat} (hfuel : N ≤ fuel)
    (ops : List Op) (hops : ∀ op ∈ ops, SizeOp h N op) :
    ∃ g', runOps fuel g ops = .ok g' ∧ SameLinks g g' ∧ ∀ q < N, SumInv g' q := by
  induction ops generalizing g with
  | nil => exact ⟨g, rfl, sameLinks_refl g, hinv⟩
  | cons op ops ih =>
    obtain ⟨g1, hrun1, hs1, hinv1⟩ := applyOp_sizeOp hs hw hr hfuel op
      (hops op (List.mem_cons_self _ _))
    obtain ⟨g2, hrun2, hs2, hinv2⟩ := ih (sameLinks_trans hs hs1) (PWF_of_sameLinks hw hs1)
      (Rooted_of_sameLinks hr hs1) (fun q hq => hinv1 q hq (hinv q hq))
      (fun o ho => hops o (List.mem_cons_of_mem _ ho))
    exact ⟨g2, by simp only [runOps, hrun1, hrun2], sameLinks_trans hs1 hs2, hinv2⟩

end Sequences

/-- C4 as stated fails: on the copy of `A -> A, B -> A, C -> A, D -> B` initialised with the
day-0 weights, each of the following call sequences runs to completion and leaves the root `A`
off the invariant: `SeparateMaxChild(A); AddToNodeSize(B, 1)` (then `SubTreeSize(A) = 14` with
`NodeSize(A) = 10` and the single child `C` of size `3`), `RemoveChild(A, D)`,
`SeparateRoot(B)`, `UniteRoot(A, [B, C])`, `AppendChild(A, D); AddToNodeSize(D, 1)` and
`UniteMaxChild(A, [D]); AddToNodeSize(D, 1)`. -/
theorem invariant_broken_after_separate :
    (runOps 8 demoPart
        [.setInitialSize 0 demoSeries 1, .separateMaxChild 0, .addToNodeSize 1 1]).toOption.map
      (fun h => (decide (SumInv h 0), (h 0).SubTreeSize, (h 0).NodeSize, (h 0).Children,
        (h 3).SubTreeSize))
      = some (false, 14, 10, [3], 3) ∧
    [[Op.removeChild 0 2], [.separateRoot 1], [.uniteRoot 0 [1, 3]],
      [.appendChild 0 2, .addToNodeSize 2 1], [.uniteMaxChild 0 [2], .addToNodeSize 2 1]].map
      (fun ops => (runOps 8 demoPart (.setInitialSize 0 demoSeries 1 :: ops)).toOption.map
        fun h => decide (SumInv h 0))
      = [some false, some false, some false, some false, some false] := by
  decide

theorem sumInv_of_zero {h : PHeap} {N : Nat} (hw : PWF h N)
    (hzero : ∀ q < N, (h q).NodeSize = 0 ∧ (h q).SubTreeSize = 0) : ∀ q < N, SumInv h q := by
  intro q hq
  unfold SumInv
  have hsum : ((h q).Children.map fun c => (h c).SubTreeSize).sum = 0 := by
    apply List.sum_eq_zero
    intro x hx
    obtain ⟨c, hc, rfl⟩ := List.mem_map.1 hx
    exact (hzero c (hw.1 q hq c hc).1).2
  rw [hsum, (hzero q hq).1, (hzero q hq).2]
  decide

/-- C4, amended: let `NewPartitionTree` copy a plain tree (links agree, parentless root); from
the copy, every finite sequence of `AddToNodeSize` calls on tree nodes and of `SetInitialSize`
calls whose names are names of tree nodes runs to completion, changes no link, and leaves the
subtree-sum invariant in force at every node. -/
theorem size_ops_keep_invariant (src : Heap) (M r : Nat) (hL : Links src.par src.ch M)
    (hr : r < M) (hpar : (src r).Parent = none) (fuel : Nat) (hfuel : M ≤ fuel) :
    ∃ st, NewPartitionTree fuel src (some r) = .ok (0, st) ∧
      ∀ (ops : List Op), (∀ op ∈ ops, SizeOp st.heap st.next op) →
        ∀ fuel', st.next ≤ fuel' →
          ∃ h', runOps fuel' st.heap ops = .ok h' ∧ SameLinks st.heap h' ∧
            ∀ q < st.next, SumInv h' q := by
  obtain ⟨st, hrun, hw, hroot, hzero⟩ := NewPartitionTree_fresh hL hr hpar hfuel
  exact ⟨st, hrun, fun ops hops fuel' hfuel' =>
    runOps_sizeOps (sameLinks_refl st.heap) hw hroot (sumInv_of_zero hw hzero) hfuel' ops hops⟩

/-- C4 amended, checked on the copy of `A -> A, B -> A, C -> A, D -> B`. -/
theorem size_ops_keep_invariant_witness :
    (Links demoPlain.par demoPlain.ch 4 ∧ (demoPlain 0).Parent = none) ∧
    ∃ h', runOps 8 demoPart
        [.setInitialSize 0 demoSeries 1, .addToNodeSize 2 (-7), .addToNodeSize 3 4] = .ok h' ∧
      SameLinks demoPart h' ∧ ∀ q < 4, SumInv h' q := by
  have hL : Links demoPlain.par demoPlain.ch 4 := ⟨by decide, by decide, by decide⟩
  refine ⟨⟨hL, by decide⟩, ?_⟩
  obtain ⟨st, hrun, H⟩ := size_ops_keep_invariant demoPlain 4 0 hL (by decide) (by decide) 8
    (by decide)
  have hst : st = demoCopy := by
    rw [demoCopy_eq] at hrun
    simpa using hrun.symm
  subst hst
  exact H [.setInitialSize 0 demoSeries 1, .addToNodeSize 2 (-7), .addToNodeSize 3 4]
    (by
      intro op hop
      simp only [List.mem_cons, List.mem_singleton, List.not_mem_nil, or_false] at hop
      rcases hop with e | e | e <;> subst e
      · exact ⟨by decide, by decide⟩
      · show 2 < demoCopy.next; decide
      · show 3 < demoCopy.next; decide)
    8 (by decide)

section Detach

theorem child_not_on_chain {h : PHeap} {N : Nat} (hw : PWF h N) {p c : Nat} (hc : c < N)
    (hpar : (h c).Parent = some p) {fuel : Nat} (hfuel : N ≤ fuel) :
    c ∉ ancF h.par fuel (some p) := by
  have hend : parIter h.par (fuel + 1) c = none := hw.ends hc (by omega)
  have hnd := nodup_ancF hend
  rw [ancF, List.nodup_cons] at hnd
  have : h.par c = some p := hpar
  rw [this] at hnd
  exact hnd.1

theorem maxChildLoop_mem (h : PHeap) (l : List Nat) (acc : Option Nat × Int) {m : Nat}
    (hm : (maxChildLoop h l acc).1 = some m) : m ∈ l ∨ acc.1 = some m := by
  induction l generalizing acc with
  | nil => exact Or.inr hm
  | cons c l ih =>
    rw [maxChildLoop] at hm
    split at hm
    · rcases ih _ hm with h1 | h1
      · exact Or.inl (List.mem_cons_of_mem _ h1)
      · left
        have : c = m := by simpa using h1
        rw [← this]; exact List.mem_cons_self _ _
    · rcases ih _ hm with h1 | h1
      · exact Or.inl (List.mem_cons_of_mem _ h1)
      · exact Or.inr h1

theorem RemoveChild_child {h : PHeap} {N : Nat} (hw : PWF h N) {p c : Nat} (hp : p < N)
    (hc : c ∈ (h p).Children) {fuel : Nat} (hfuel : N ≤ fuel) :
    ∃ h1, RemoveChild fuel h p c = .ok h1 ∧ h1.par = h.par ∧
      (∀ q, (h1 q).Children = if q = p then (h q).Children.erase c else (h q).Children) ∧
      (∀ q, (h1 q).SubTreeSize = if q ∈ ancF h.par N (some p)
        then sub64 (h q).SubTreeSize (h c).SubTreeSize else (h q).SubTreeSize) ∧
      (∀ q, (h1 q).NodeSize = (h q).NodeSize) := by
  obtain ⟨hcN, hcpar⟩ := hw.1 p hp c hc
  obtain ⟨h1, hrun, hq⟩ := RemoveChild_eq (hw.ends hp hfuel)
    (child_not_on_chain hw hcN hcpar hfuel)
  rw [hw.chain_eq hp hfuel] at hq
  refine ⟨h1, hrun, ?_, fun q => by rw [hq q], fun q => by rw [hq q], fun q => by rw [hq q]⟩
  funext q
  show (h1 q).Parent = (h q).Parent
  rw [hq q]

end Detach

section DetachAnywhere

/-- A loop body that only rewrites `SubTreeSize` leaves the other fields of every node alone. -/
theorem foldl_sizeBody_fields (F : PHeap → Nat → Int) (L : List Nat) (g : PHeap) (q : Nat) :
    ((L.foldl (fun g ptr => Function.update g ptr { g ptr with SubTreeSize := F g ptr }) g)
        q).Parent = (g q).Parent ∧
    ((L.foldl (fun g ptr => Function.update g ptr { g ptr with SubTreeSize := F g ptr }) g)
        q).Children = (g q).Children ∧
    ((L.foldl (fun g ptr => Function.update g ptr { g ptr with SubTreeSize := F g ptr }) g)
        q).NodeSize = (g q).NodeSize ∧
    ((L.foldl (fun g ptr => Function.update g ptr { g ptr with SubTreeSize := F g ptr }) g)
        q).Name = (g q).Name := by
  induction L generalizing g with
  | nil => exact ⟨rfl, rfl, rfl, rfl⟩
  | cons a L ih =>
    rw [List.foldl_cons]
    obtain ⟨h1, h2, h3, h4⟩ := ih (Function.update g a { g a with SubTreeSize := F g a })
    by_cases hq : q = a
    · subst hq
      rw [Function.update_same] at h1 h2 h3 h4
      exact ⟨h1, h2, h3, h4⟩
    · rw [Function.update_noteq hq] at h1 h2 h3 h4
      exact ⟨h1, h2, h3, h4⟩

/-- A loop that rewrites `SubTreeSize` along `L` leaves every node outside `L` alone. -/
theorem foldl_sizeBody_untouched (F : PHeap → Nat → Int) (L : List Nat) (g : PHeap) (q : Nat)
    (hq : q ∉ L) :
    (L.foldl (fun g ptr => Function.update g ptr { g ptr with SubTreeSize := F g ptr }) g) q
      = g q := by
  induction L generalizing g with
  | nil => rfl
  | cons a L ih =>
    rw [List.mem_cons, not_or] at hq
    rw [List.foldl_cons, ih _ hq.2, Function.update_noteq hq.1]

/-- The effect of `RemoveChild(p, c)` that needs nothing but a `Parent` chain of `p` that ends
within the fuel: the call returns, the first occurrence of `c` leaves `p.Children`, no other
link, name or `NodeSize` changes, `SubTreeSize(p)` drops by `SubTreeSize(c)`, and the nodes off
the chain of `p` keep their `SubTreeSize`. -/
theorem RemoveChild_run {h : PHeap} {fuel p : Nat} (c : Nat)
    (hend : parIter h.par fuel p = none) :
    ∃ h1, RemoveChild fuel h p c = .ok h1 ∧
      (∀ q, (h1 q).Parent = (h q).Parent ∧ (h1 q).NodeSize = (h q).NodeSize ∧
        (h1 q).Name = (h q).Name) ∧
      (∀ q, (h1 q).Children = if q = p then (h q).Children.erase c else (h q).Children) ∧
      (h1 p).SubTreeSize = sub64 (h p).SubTreeSize (h c).SubTreeSize ∧
      (∀ q, q ∉ ancF h.par fuel (some p) → (h1 q).SubTreeSize = (h q).SubTreeSize) := by
  have hrun := forAncestors_eq
    (fun g ptr => Function.update g ptr
      { g ptr with SubTreeSize := sub64 (g ptr).SubTreeSize (g c).SubTreeSize })
    (fun g a q => by
      by_cases hq : q = a
      · subst hq; simp
      · simp [Function.update_noteq hq]) fuel h p hend
  have hfields := foldl_sizeBody_fields
    (fun g ptr => sub64 (g ptr).SubTreeSize (g c).SubTreeSize) (ancF h.par fuel (some p)) h
  have hout := foldl_sizeBody_untouched
    (fun g ptr => sub64 (g ptr).SubTreeSize (g c).SubTreeSize) (ancF h.par fuel (some p)) h
  have hnd := nodup_ancF hend
  have hpmem : p ∈ ancF h.par fuel (some p) := by
    cases fuel with
    | zero => simp [parIter] at hend
    | succ f => exact mem_ancF.2 ⟨0, Nat.succ_pos f, rfl⟩
  refine ⟨_, by simp only [RemoveChild, hrun]; rfl, fun q => ?_, fun q => ?_, ?_, fun q hq => ?_⟩
  · by_cases hqp : q = p
    · subst hqp
      rw [Function.update_same]
      exact ⟨(hfields q).1, (hfields q).2.2.1, (hfields q).2.2.2⟩
    · rw [Function.update_noteq hqp]
      exact ⟨(hfields q).1, (hfields q).2.2.1, (hfields q).2.2.2⟩
  · by_cases hqp : q = p
    · subst hqp
      rw [Function.update_same, if_pos rfl]
      show List.erase _ c = _
      rw [(hfields q).2.1]
    · rw [Function.update_noteq hqp, if_neg hqp]
      exact (hfields q).2.1
  · rw [Function.update_same]
    cases fuel with
    | zero => simp [parIter] at hend
    | succ f =>
      rw [ancF, List.nodup_cons] at hnd
      show ((List.foldl _ h (ancF h.par (f + 1) (some p))) p).SubTreeSize = _
      rw [ancF, List.foldl_cons,
        foldl_sizeBody_untouched
          (fun g ptr => sub64 (g ptr).SubTreeSize (g c).SubTreeSize) _ _ p hnd.1,
        Function.update_same]
  · have hqp : q ≠ p := fun e => hq (e ▸ hpmem)
    rw [Function.update_noteq hqp, hout q hq]

/-- A node whose `Parent` field was left alone still feeds its whole `Parent` chain. -/
theorem stale_parent_feeds {h h1 : PHeap} (hpar1 : ∀ q, (h1 q).Parent = (h q).Parent)
    {fuel p c : Nat} (hcend : parIter h.par fuel c = none) (tasks : Int) :
    StillLinked h h1 fuel p c tasks := by
  have hpar : h1.par = h.par := funext hpar1
  have hend1 : parIter h1.par fuel c = none := by rw [hpar]; exact hcend
  obtain ⟨h2, hrun, hq⟩ := AddToNodeSize_eq tasks hend1
  rw [hpar] at hq
  have hchain : ∀ a ∈ ancF h.par fuel (some c),
      (h2 a).SubTreeSize = add64 (h1 a).SubTreeSize tasks := by
    intro a ha
    rw [hq a]
    simp [ha]
  refine ⟨hpar1, h2, hrun, hchain, fun hcp => ⟨(hpar1 c).trans hcp, fun a ha => ?_⟩⟩
  apply hchain
  obtain ⟨k, _, hka⟩ := mem_ancF.1 ha
  have hstep : parIter h.par (k + 1) c = some a := by
    have : h.par c = some p := hcp
    simp [parIter, this, hka]
  have hlt : k + 1 < fuel := by
    by_contra hge
    have := parIter_none_mono (Nat.le_of_not_lt hge) hcend
    rw [hstep] at this
    cases this
  exact mem_ancF.2 ⟨k + 1, hlt, hstep⟩

end DetachAnywhere

/-- C5 as stated fails: after `RemoveChild(A, B)` on the initialised scenario tree, `B` is
gone from `A.Children` but `B.Parent` is still `A`, and `AddToNodeSize(B, 1)` raises
`SubTreeSize(A)` from `13` to `14`. -/
theorem detached_child_keeps_parent :
    (RemoveChild 8 demoInit 0 1).toOption.map
        (fun h1 => ((h1 0).Children, (h1 1).Parent, (h1 0).SubTreeSize,
          (AddToNodeSize 8 h1 1 1).toOption.map fun h2 => (h2 0).SubTreeSize))
      = some ([3], some 0, 13, some 14) := by
  decide

/-- C5, amended: let `c` be among the children of `p`, with the `Parent` chains of `p` and of
`c` ending within the fuel.  `RemoveChild(p, c)` runs to completion and removes one occurrence
of `c` from `p.Children` (so `c` is gone when the children are distinct), and likewise
`SeparateMaxChild(p)` when `c` is the child it selects, while `SeparateRoot(p)` empties
`p.Children`; but none of the three writes a `Parent` field.  So `c.Parent` is what it was, and
a later `AddToNodeSize(tasks)` on the detached node runs to completion and adds `tasks` to
`SubTreeSize` of every node on the `Parent` chain of `c`: whenever `c.Parent` designated `p`
before the call, it still does, and `SubTreeSize` of `p` and of every ancestor of `p` grows by
`tasks`. -/
theorem detach_leaves_parent_link (h : PHeap) (p c : Nat) (hc : c ∈ (h p).Children)
    (fuel : Nat) (hp : parIter h.par fuel p = none) (hcend : parIter h.par fuel c = none)
    (tasks : Int) :
    (∃ h1, RemoveChild fuel h p c = .ok h1 ∧
      (h1 p).Children = (h p).Children.erase c ∧
      (h1 p).Children.length + 1 = (h p).Children.length ∧
      ((h p).Children.Nodup → c ∉ (h1 p).Children) ∧ StillLinked h h1 fuel p c tasks) ∧
    ((maxChildLoop h (h p).Children (none, 0)).1 = some c →
      ∃ h1 separate, SeparateMaxChild fuel h p = .ok (h1, separate, [c]) ∧
        (h1 p).Children = (h p).Children.erase c ∧
        (h1 p).Children.length + 1 = (h p).Children.length ∧
        ((h p).Children.Nodup → c ∉ (h1 p).Children) ∧ StillLinked h h1 fuel p c tasks) ∧
    (((SeparateRoot h p).1 p).Children = [] ∧
      StillLinked h (SeparateRoot h p).1 fuel p c tasks) := by
  have key : ∃ h1, RemoveChild fuel h p c = .ok h1 ∧
      (h1 p).Children = (h p).Children.erase c ∧
      (h1 p).Children.length + 1 = (h p).Children.length ∧
      ((h p).Children.Nodup → c ∉ (h1 p).Children) ∧ StillLinked h h1 fuel p c tasks := by
    obtain ⟨h1, hrun, hF, hC, _, _⟩ := RemoveChild_run c hp
    have hCp : (h1 p).Children = (h p).Children.erase c := by rw [hC p, if_pos rfl]
    refine ⟨h1, hrun, hCp, ?_, ?_, stale_parent_feeds (fun q => (hF q).1) hcend tasks⟩
    · rw [hCp, List.length_erase_of_mem hc]
      have : 0 < (h p).Children.length := List.length_pos_of_mem hc
      omega
    · intro hnd hmem
      rw [hCp] at hmem
      exact ((List.Nodup.mem_erase_iff hnd).1 hmem).1 rfl
  refine ⟨key, ?_, ?_⟩
  · intro hm
    obtain ⟨h1, hrun, hrest⟩ := key
    by_cases hgt : (h1 c).SubTreeSize > (h1 p).SubTreeSize
    · exact ⟨h1, [c, p], by simp only [SeparateMaxChild, hm, hrun, if_pos hgt], hrest⟩
    · exact ⟨h1, [p, c], by simp only [SeparateMaxChild, hm, hrun, if_neg hgt], hrest⟩
  · refine ⟨by simp [SeparateRoot], stale_parent_feeds (fun q => ?_) hcend tasks⟩
    by_cases hq : q = p
    · subst hq; simp [SeparateRoot]
    · simp [SeparateRoot, Function.update_noteq hq]

/-- C5 amended, checked on the initialised scenario tree with `p = A`, `c = B`, and on the heap
that `SeparateRoot(A)` leaves, which is no partition tree any more, with `p = B`, `c = D`. -/
theorem detach_leaves_parent_link_witness :
    ((1 ∈ (demoInit 0).Children ∧ parIter demoInit.par 8 0 = none ∧
        parIter demoInit.par 8 1 = none ∧
        (maxChildLoop demoInit (demoInit 0).Children (none, 0)).1 = some 1) ∧
      (¬ PWF demoSplit 4 ∧ 2 ∈ (demoSplit 1).Children ∧ parIter demoSplit.par 8 1 = none ∧
        parIter demoSplit.par 8 2 = none)) ∧
    ((∃ h1, RemoveChild 8 demoInit 0 1 = .ok h1 ∧
        (h1 0).Children = (demoInit 0).Children.erase 1 ∧
        (h1 0).Children.length + 1 = (demoInit 0).Children.length ∧
        ((demoInit 0).Children.Nodup → 1 ∉ (h1 0).Children) ∧
        StillLinked demoInit h1 8 0 1 5) ∧
     (∃ h1 separate, SeparateMaxChild 8 demoInit 0 = .ok (h1, separate, [1]) ∧
        (h1 0).Children = (demoInit 0).Children.erase 1 ∧
        (h1 0).Children.length + 1 = (demoInit 0).Children.length ∧
        ((demoInit 0).Children.Nodup → 1 ∉ (h1 0).Children) ∧
        StillLinked demoInit h1 8 0 1 5) ∧
     (((SeparateRoot demoInit 0).1 0).Children = [] ∧
        StillLinked demoInit (SeparateRoot demoInit 0).1 8 0 1 5)) ∧
    (∃ h1, RemoveChild 8 demoSplit 1 2 = .ok h1 ∧
        (h1 1).Children = (demoSplit 1).Children.erase 2 ∧
        (h1 1).Children.length + 1 = (demoSplit 1).Children.length ∧
        ((demoSplit 1).Children.Nodup → 2 ∉ (h1 1).Children) ∧
        StillLinked demoSplit h1 8 1 2 5) :=
  ⟨by decide,
   ⟨(detach_leaves_parent_link demoInit 0 1 (by decide) 8 (by decide) (by decide) 5).1,
    (detach_leaves_parent_link demoInit 0 1 (by decide) 8 (by decide) (by decide) 5).2.1
      (by decide),
    (detach_leaves_parent_link demoInit 0 1 (by decide) 8 (by decide) (by decide) 5).2.2⟩,
   (detach_leaves_parent_link demoSplit 1 2 (by decide) 8 (by decide) (by decide) 5).1⟩

/-- C7 as stated fails: the root of `pairNeg` has `SubTreeSize = -1`, which is nonzero, and
`SetInitialSize` is not rejected there: it returns no error and raises `NodeSize(A)` to `5` and
`SubTreeSize(A)` to `4`. -/
theorem negative_size_not_rejected :
    (pairNeg 0).Parent = none ∧ (pairNeg 0).SubTreeSize = -1 ∧
    (SetInitialSize 8 pairNeg 0 [[("A", 5)]] 1).toOption.map
        (fun r => (r.2, (r.1 0).NodeSize, (r.1 0).SubTreeSize))
      = some (none, 5, 4) := by
  decide

/-- C7, amended: for a partition root (a node without parent) `SetInitialSize` returns the
already-initialised error, with the heap as it was, if and only if `SubTreeSize(root)` is
strictly positive before the call. -/
theorem SetInitialSize_rejects_iff_positive (fuel : Nat) (h : PHeap) (root : Nat)
    (tasksPerDay : List (List (String × Int))) (initDays : Int)
    (hroot : (h root).Parent = none) :
    SetInitialSize fuel h root tasksPerDay initDays = .ok (h, some .alreadyInitial)
      ↔ 0 < (h root).SubTreeSize := by
  constructor
  · intro hres
    by_contra hpos
    have hng : ¬ (h root).SubTreeSize > 0 := hpos
    simp only [SetInitialSize, hroot, ne_eq, not_true_eq_false, if_false, hng,
      MapNameToPartitionNode] at hres
    cases hm : mapNameToPartitionNodeFunc h fuel root fun _ => none with
    | error f => simp [hm, Except.map] at hres
    | ok m =>
      simp only [hm, Except.map] at hres
      cases hd : addDays fuel m (List.take initDays.toNat tasksPerDay) h with
      | error f => simp [hd] at hres
      | ok h1 => simp [hd] at hres
  · intro hpos
    have hgt : (h root).SubTreeSize > 0 := hpos
    simp [SetInitialSize, hroot, hgt]

/-- C7 amended, checked on the initialised scenario tree, whose root has `SubTreeSize = 20`. -/
theorem SetInitialSize_rejects_iff_positive_witness :
    (demoInit 0).Parent = none ∧
    (SetInitialSize 8 demoInit 0 demoSeries 1 = .ok (demoInit, some .alreadyInitial)
      ↔ 0 < (demoInit 0).SubTreeSize) :=
  ⟨by decide, SetInitialSize_rejects_iff_positive 8 demoInit 0 demoSeries 1 (by decide)⟩

section Unite

theorem foldl_add64 (f : Nat → Int) (cs : List Nat) (s0 : Int) (hs : isInt64 s0) :
    cs.foldl (fun s c => add64 s (f c)) s0 = wrap64 (s0 + (cs.map f).sum) := by
  induction cs generalizing s0 with
  | nil => simp [wrap64_of_isInt64 hs]
  | cons c cs ih =>
    rw [List.foldl_cons, ih (add64 s0 (f c)) (isInt64_wrap64 _), List.map_cons, List.sum_cons]
    apply wrap64_congr
    unfold add64
    have := (wrap64_modEq (s0 + f c)).add_right (cs.map f).sum
    rwa [add_assoc] at this

theorem foldl_size_congr (g h : PHeap) (cs : List Nat) (s0 : Int)
    (hgh : ∀ x ∈ cs, (g x).SubTreeSize = (h x).SubTreeSize) :
    cs.foldl (fun s c => add64 s (g c).SubTreeSize) s0
      = cs.foldl (fun s c => add64 s (h c).SubTreeSize) s0 := by
  apply List.foldl_ext
  intro s x hx
  rw [hgh x hx]

theorem uniteLoop_eq (r : Nat) (cs : List Nat) (hr : r ∉ cs) (g : PHeap) :
    cs.foldl (fun g ch => Function.update g r
        { g r with SubTreeSize := add64 (g r).SubTreeSize (g ch).SubTreeSize }) g
      = Function.update g r { g r with
          SubTreeSize := cs.foldl (fun s c => add64 s (g c).SubTreeSize) (g r).SubTreeSize } := by
  induction cs generalizing g with
  | nil => simp
  | cons c cs ih =>
    rw [List.mem_cons, not_or] at hr
    rw [List.foldl_cons, ih hr.2, List.foldl_cons]
    have hcr : c ≠ r := fun e => hr.1 e.symm
    funext q
    by_cases hq : q = r
    · subst hq
      simp only [Function.update_same]
      rw [foldl_size_congr _ g _ _ (fun x hx => by
        have hxq : x ≠ q := fun e => hr.2 (e ▸ hx)
        rw [Function.update_noteq hxq])]
    · simp [Function.update_noteq hq]

end Unite

/-- C8: for a partition root `r` (no parent, the children's `Parent` links name `r`) that
satisfies the subtree-sum invariant at `r`, `SeparateRoot(r)` followed by `UniteRoot(r, ·)` on
the returned reunitable list restores `SubTreeSize(r)` and the children of `r`; every other
node is left as it was. -/
theorem SeparateRoot_UniteRoot (h : PHeap) (r : Nat) (hroot : (h r).Parent = none)
    (hlinks : ∀ c ∈ (h r).Children, (h c).Parent = some r) (hinv : SumInv h r)
    (hrange : isInt64 (h r).NodeSize) :
    (UniteRoot (SeparateRoot h r).1 r (SeparateRoot h r).2.2 r).SubTreeSize
        = (h r).SubTreeSize ∧
    (UniteRoot (SeparateRoot h r).1 r (SeparateRoot h r).2.2 r).Children = (h r).Children ∧
    ∀ q, q ≠ r → UniteRoot (SeparateRoot h r).1 r (SeparateRoot h r).2.2 q = h q := by
  have hr : r ∉ (h r).Children := by
    intro hmem
    have := hlinks r hmem
    rw [hroot] at this
    cases this
  have hU : UniteRoot (SeparateRoot h r).1 r (SeparateRoot h r).2.2
      = Function.update h r { h r with
          SubTreeSize := (h r).Children.foldl (fun s c => add64 s (h c).SubTreeSize)
            (h r).NodeSize } := by
    simp only [UniteRoot, SeparateRoot, Function.update_same, Function.update_idem]
    rw [uniteLoop_eq r _ hr]
    simp only [Function.update_same, Function.update_idem]
    rw [foldl_size_congr _ h _ _ (fun x hx => by
      have hxr : x ≠ r := fun e => hr (e ▸ hx)
      rw [Function.update_noteq hxr])]
  rw [hU]
  refine ⟨?_, by simp, fun q hq => Function.update_noteq hq _ _⟩
  simp only [Function.update_same]
  rw [foldl_add64 _ _ _ hrange]
  exact hinv.symm

/-- C8, checked on the initialised scenario tree at its root `A`. -/
theorem SeparateRoot_UniteRoot_witness :
    ((demoInit 0).Parent = none ∧ (∀ c ∈ (demoInit 0).Children, (demoInit c).Parent = some 0) ∧
      SumInv demoInit 0 ∧ isInt64 (demoInit 0).NodeSize) ∧
    ((UniteRoot (SeparateRoot demoInit 0).1 0 (SeparateRoot demoInit 0).2.2 0).SubTreeSize
        = (demoInit 0).SubTreeSize ∧
     (UniteRoot (SeparateRoot demoInit 0).1 0 (SeparateRoot demoInit 0).2.2 0).Children
        = (demoInit 0).Children ∧
     ∀ q, q ≠ 0 → UniteRoot (SeparateRoot demoInit 0).1 0 (SeparateRoot demoInit 0).2.2 q
        = demoInit q) :=
  ⟨by decide,
   SeparateRoot_UniteRoot demoInit 0 (by decide) (by decide) (by decide) (by decide)⟩

theorem add64_sub64_cancel {s : Int} (hs : isInt64 s) (t : Int) : add64 (sub64 s t) t = s := by
  unfold add64 sub64 wrap64
  unfold isInt64 at hs
  omega

/-- C9: for every node `p` of a partition tree (`Parent` links agree with the `Children` lists,
children pairwise distinct, `Parent` chains finite), `SeparateMaxChild(p)` followed by
`UniteMaxChild(p, ·)` on the returned reunitable list runs to completion, leaves `SubTreeSize`
of `p` and of every ancestor of `p` at its value before the separation, and leaves `p` with
the same children up to order. -/
theorem SeparateMaxChild_UniteMaxChild (h : PHeap) (N p : Nat) (hw : PWF h N) (hp : p < N)
    (hrange : ∀ a ∈ ancF h.par N (some p), isInt64 (h a).SubTreeSize)
    (fuel : Nat) (hfuel : N ≤ fuel) :
    ∃ h1 separate forUnite, SeparateMaxChild fuel h p = .ok (h1, separate, forUnite) ∧
      ∃ h2, UniteMaxChild fuel h1 p forUnite = .ok h2 ∧
        (h2 p).SubTreeSize = (h p).SubTreeSize ∧
        (∀ a ∈ ancF h.par N (some p), (h2 a).SubTreeSize = (h a).SubTreeSize) ∧
        (h2 p).Children.Perm (h p).Children := by
  have hpmem : p ∈ ancF h.par N (some p) := mem_ancF.2 ⟨0, by omega, rfl⟩
  cases hm : (maxChildLoop h (h p).Children (none, 0)).1 with
  | none =>
    exact ⟨h, [], [], by simp only [SeparateMaxChild, hm], h, rfl, rfl, fun _ _ => rfl,
      List.Perm.refl _⟩
  | some m =>
    have hmem : m ∈ (h p).Children := by
      rcases maxChildLoop_mem h _ _ hm with h1 | h1
      · exact h1
      · cases h1
    obtain ⟨hmN, hmpar⟩ := hw.1 p hp m hmem
    have hnot := child_not_on_chain hw hmN hmpar hfuel
    obtain ⟨h1, hrun1, hpar1, hC1, hS1, _⟩ := RemoveChild_child hw hp hmem hfuel
    obtain ⟨h2, hrun2, hq2⟩ := @AppendChild_eq h1 fuel p m
      (by rw [hpar1]; exact hw.ends hp hfuel) (by rw [hpar1]; exact hnot)
    rw [hpar1, hw.chain_eq hp hfuel] at hq2
    rw [hw.chain_eq hp hfuel] at hnot
    have hSm : (h1 m).SubTreeSize = (h m).SubTreeSize := by rw [hS1 m, if_neg hnot]
    have hchain : ∀ a ∈ ancF h.par N (some p), (h2 a).SubTreeSize = (h a).SubTreeSize := by
      intro a ha
      rw [hq2 a]
      simp only [ha, if_true]
      rw [hS1 a, if_pos ha, hSm]
      exact add64_sub64_cancel (hrange a ha) _
    have hsep : ∃ separate, SeparateMaxChild fuel h p = .ok (h1, separate, [m]) := by
      by_cases hgt : (h1 m).SubTreeSize > (h1 p).SubTreeSize
      · exact ⟨[m, p], by simp only [SeparateMaxChild, hm, hrun1, if_pos hgt]⟩
      · exact ⟨[p, m], by simp only [SeparateMaxChild, hm, hrun1, if_neg hgt]⟩
    obtain ⟨separate, hsep⟩ := hsep
    refine ⟨h1, separate, [m], hsep, h2, by simp only [UniteMaxChild, hrun2],
      hchain p hpmem, hchain, ?_⟩
    rw [hq2 p]
    simp only [if_true]
    rw [hC1 p, if_pos rfl]
    exact (List.perm_append_singleton m _).trans (List.perm_cons_erase hmem).symm

/-- C9, checked on the initialised scenario tree at `B`, whose only child is `D`. -/
theorem SeparateMaxChild_UniteMaxChild_witness :
    (PWF demoInit 4 ∧ ∀ a ∈ ancF demoInit.par 4 (some 1), isInt64 (demoInit a).SubTreeSize) ∧
    ∃ h1 separate forUnite, SeparateMaxChild 8 demoInit 1 = .ok (h1, separate, forUnite) ∧
      ∃ h2, UniteMaxChild 8 h1 1 forUnite = .ok h2 ∧
        (h2 1).SubTreeSize = (demoInit 1).SubTreeSize ∧
        (∀ a ∈ ancF demoInit.par 4 (some 1), (h2 a).SubTreeSize = (demoInit a).SubTreeSize) ∧
        (h2 1).Children.Perm (demoInit 1).Children :=
  ⟨by decide,
   SeparateMaxChild_UniteMaxChild demoInit 4 1 (by decide) (by decide) (by decide) 8
     (by decide)⟩

/-- C10 (fails on the code): in `pairNeg` the node `A` has the single child `B`, whose
`SubTreeSize` is `-1`; `SeparateMaxChild(A)` detaches nothing: it returns two empty lists and
leaves `B` among the children of `A`, because the search starts from `maxSize = 0`. -/
theorem SeparateMaxChild_skips_negative_child :
    (pairNeg 0).Children = [1] ∧ (pairNeg 1).SubTreeSize = -1 ∧
    (maxChildLoop pairNeg (pairNeg 0).Children (none, 0)).1 = none ∧
    (SeparateMaxChild 8 pairNeg 0).toOption.map (fun r => (r.2.1, r.2.2, (r.1 0).Children))
      = some ([], [], [1]) := by
  decide

/-- C11: whenever the search loop of `SeparateMaxChild(p)` selects a child `m` and the
`Parent` chain of `p` ends within the fuel (nothing else is asked of the heap, so a heap left
by earlier detachments is covered), the call runs to completion, detaches `m` (the first
occurrence of `m` leaves `p.Children`, and `SubTreeSize(p)` is reduced by `SubTreeSize(m)`),
returns as separated list exactly the two nodes `p` and `m`, the one with the larger
`SubTreeSize` after the detachment first, and returns `[m]` as reunitable list.
`SubTreeSize(m)` itself is unchanged when `m` is neither `p` nor an ancestor of `p`. -/
theorem SeparateMaxChild_pair (h : PHeap) (p m : Nat) (fuel : Nat)
    (hend : parIter h.par fuel p = none)
    (hm : (maxChildLoop h (h p).Children (none, 0)).1 = some m) :
    ∃ h1 first second, SeparateMaxChild fuel h p = .ok (h1, [first, second], [m]) ∧
      ((first = p ∧ second = m) ∨ (first = m ∧ second = p)) ∧
      (h1 second).SubTreeSize ≤ (h1 first).SubTreeSize ∧
      (h1 p).SubTreeSize = sub64 (h p).SubTreeSize (h m).SubTreeSize ∧
      (m ∉ ancF h.par fuel (some p) → (h1 m).SubTreeSize = (h m).SubTreeSize) ∧
      m ∈ (h p).Children ∧ (h1 p).Children = (h p).Children.erase m := by
  have hmem : m ∈ (h p).Children := by
    rcases maxChildLoop_mem h _ _ hm with h1 | h1
    · exact h1
    · cases h1
  obtain ⟨h1, hrun, _, hC, hSp, hout⟩ := RemoveChild_run m hend
  have hCp : (h1 p).Children = (h p).Children.erase m := by rw [hC p, if_pos rfl]
  by_cases hgt : (h1 m).SubTreeSize > (h1 p).SubTreeSize
  · exact ⟨h1, m, p, by simp only [SeparateMaxChild, hm, hrun, if_pos hgt],
      Or.inr ⟨rfl, rfl⟩, le_of_lt hgt, hSp, hout m, hmem, hCp⟩
  · exact ⟨h1, p, m, by simp only [SeparateMaxChild, hm, hrun, if_neg hgt],
      Or.inl ⟨rfl, rfl⟩, not_lt.1 hgt, hSp, hout m, hmem, hCp⟩

/-- C11, checked on the scenario of the specification: `SeparateMaxChild(A)` detaches `B`,
leaves `SubTreeSize(A) = 13` and returns the pair `(A, B)` with the reunitable list `[B]`; and
checked on the heap that this call leaves, which is no partition tree any more: a second
`SeparateMaxChild(A)` detaches `C`, leaves `SubTreeSize(A) = 10` and returns the pair
`(A, C)`. -/
theorem SeparateMaxChild_pair_witness :
    ((parIter demoInit.par 8 0 = none ∧
        (maxChildLoop demoInit (demoInit 0).Children (none, 0)).1 = some 1) ∧
      (¬ PWF demoPeeled 4 ∧ parIter demoPeeled.par 8 0 = none ∧
        (maxChildLoop demoPeeled (demoPeeled 0).Children (none, 0)).1 = some 3)) ∧
    (∃ h1 first second, SeparateMaxChild 8 demoInit 0 = .ok (h1, [first, second], [1]) ∧
      ((first = 0 ∧ second = 1) ∨ (first = 1 ∧ second = 0)) ∧
      (h1 second).SubTreeSize ≤ (h1 first).SubTreeSize ∧
      (h1 0).SubTreeSize = sub64 (demoInit 0).SubTreeSize (demoInit 1).SubTreeSize ∧
      (1 ∉ ancF demoInit.par 8 (some 0) → (h1 1).SubTreeSize = (demoInit 1).SubTreeSize) ∧
      1 ∈ (demoInit 0).Children ∧ (h1 0).Children = (demoInit 0).Children.erase 1) ∧
    (∃ h1 first second, SeparateMaxChild 8 demoPeeled 0 = .ok (h1, [first, second], [3]) ∧
      ((first = 0 ∧ second = 3) ∨ (first = 3 ∧ second = 0)) ∧
      (h1 second).SubTreeSize ≤ (h1 first).SubTreeSize ∧
      (h1 0).SubTreeSize = sub64 (demoPeeled 0).SubTreeSize (demoPeeled 3).SubTreeSize ∧
      (3 ∉ ancF demoPeeled.par 8 (some 0) →
        (h1 3).SubTreeSize = (demoPeeled 3).SubTreeSize) ∧
      3 ∈ (demoPeeled 0).Children ∧ (h1 0).Children = (demoPeeled 0).Children.erase 3) ∧
    (SeparateMaxChild 8 demoInit 0).toOption.map
        (fun r => (r.2.1.map fun q => ((r.1 q).Name, (r.1 q).SubTreeSize), r.2.2))
      = some ([("A", 13), ("B", 7)], [1]) ∧
    (SeparateMaxChild 8 demoPeeled 0).toOption.map
        (fun r => (r.2.1.map fun q => ((r.1 q).Name, (r.1 q).SubTreeSize), r.2.2))
      = some ([("A", 10), ("C", 3)], [3]) :=
  ⟨by decide,
   SeparateMaxChild_pair demoInit 0 1 8 (by decide) (by decide),
   SeparateMaxChild_pair demoPeeled 0 3 8 (by decide) (by decide),
   by decide, by decide⟩

/-- C13 as stated fails: on the initialised scenario tree `SeparateRoot(A)` returns the
separated list `[A, B, C]` with `SubTreeSize` `10, 7, 3`, not `[B, C, A]`; `SubTreeSize(A)` is
reset to `10` and the reunitable list is `[B, C]`. -/
theorem SeparateRoot_scenario_order :
    (SeparateRoot demoInit 0).2.1.map (fun q => (demoInit q).Name) ≠ ["B", "C", "A"] ∧
    (SeparateRoot demoInit 0).2.1.map
        (fun q => ((SeparateRoot demoInit 0).1 q).SubTreeSize) ≠ [7, 3, 10] := by
  decide

/-- C13, amended: on the partition tree built from the edges `A -> A, B -> A, C -> A, D -> B`
and initialised with the day-0 weights `{A:10, B:5, C:3, D:2}`, `SeparateRoot(A)` returns the
separated list in the order `[A, B, C]` with `SubTreeSize` `10, 7, 3`, resets `SubTreeSize(A)`
to `10`, and returns the reunitable list `[B, C]`. -/
theorem SeparateRoot_scenario :
    (SeparateRoot demoInit 0).2.1.map
        (fun q => (((SeparateRoot demoInit 0).1 q).Name,
          ((SeparateRoot demoInit 0).1 q).SubTreeSize))
      = [("A", 10), ("B", 7), ("C", 3)] ∧
    ((SeparateRoot demoInit 0).1 0).SubTreeSize = 10 ∧
    (SeparateRoot demoInit 0).2.2.map (fun q => (demoInit q).Name) = ["B", "C"] := by
  decide

theorem UniteRoot_eq (h : PHeap) (r : Nat) (cs : List Nat) (hr : r ∉ cs) :
    UniteRoot h r cs = Function.update h r { h r with
      Children := cs
      SubTreeSize := cs.foldl (fun s c => add64 s (h c).SubTreeSize) (h r).SubTreeSize } := by
  simp only [UniteRoot, Function.update_same]
  rw [uniteLoop_eq r _ hr]
  simp only [Function.update_same, Function.update_idem]
  rw [foldl_size_congr _ h _ _ (fun x hx => by
    have hxr : x ≠ r := fun e => hr (e ▸ hx)
    rw [Function.update_noteq hxr])]

/-- C14 as stated fails: on the initialised scenario tree, where `A` still has its children
and `SubTreeSize(A) = 20`, `UniteRoot(A, [B, C])` leaves `SubTreeSize(A) = 30`, while
`NodeSize(A)` plus the sizes of `B` and `C` is `20`. -/
theorem UniteRoot_adds_to_old_size :
    (UniteRoot demoInit 0 [1, 3] 0).Children = [1, 3] ∧
    (UniteRoot demoInit 0 [1, 3] 0).SubTreeSize = 30 ∧
    (UniteRoot demoInit 0 [1, 3] 0).NodeSize
      + ([1, 3].map fun c => (UniteRoot demoInit 0 [1, 3] c).SubTreeSize).sum = 20 := by
  decide

/-- C14, amended: for every partition node `r` and every list `cs` of partition nodes that
does not contain `r`, after `UniteRoot(r, cs)` the children of `r` are exactly `cs`, no other
node has changed, and `SubTreeSize(r)` is its value before the call plus the sum of
`SubTreeSize(c)` over `cs` (in `int64`); it is `NodeSize(r)` plus that sum when
`SubTreeSize(r) = NodeSize(r)` before the call, which is how `SeparateRoot` leaves `r`. -/
theorem UniteRoot_adds (h : PHeap) (r : Nat) (cs : List Nat) (hr : r ∉ cs)
    (hrange : isInt64 (h r).SubTreeSize) :
    (UniteRoot h r cs r).Children = cs ∧
    (UniteRoot h r cs r).SubTreeSize
      = wrap64 ((h r).SubTreeSize + (cs.map fun c => (h c).SubTreeSize).sum) ∧
    (∀ q, q ≠ r → UniteRoot h r cs q = h q) ∧
    ((h r).SubTreeSize = (h r).NodeSize →
      (UniteRoot h r cs r).SubTreeSize
        = wrap64 ((UniteRoot h r cs r).NodeSize
          + (cs.map fun c => (UniteRoot h r cs c).SubTreeSize).sum)) := by
  rw [UniteRoot_eq h r cs hr]
  have hsum : (cs.map fun c => (Function.update h r { h r with
        Children := cs
        SubTreeSize := cs.foldl (fun s c => add64 s (h c).SubTreeSize) (h r).SubTreeSize }
        c).SubTreeSize) = cs.map fun c => (h c).SubTreeSize := by
    apply List.map_congr_left
    intro c hc
    have hcr : c ≠ r := fun e => hr (e ▸ hc)
    rw [Function.update_noteq hcr]
  refine ⟨by simp, ?_, fun q hq => Function.update_noteq hq _ _, fun heq => ?_⟩
  · simp only [Function.update_same]
    exact foldl_add64 _ _ _ hrange
  · rw [hsum]
    simp only [Function.update_same]
    rw [foldl_add64 _ _ _ hrange, heq]

/-- C14 amended, checked on the scenario tree right after `SeparateRoot(A)`. -/
theorem UniteRoot_adds_witness :
    (0 ∉ [1, 3] ∧ isInt64 ((SeparateRoot demoInit 0).1 0).SubTreeSize) ∧
    ((UniteRoot (SeparateRoot demoInit 0).1 0 [1, 3] 0).Children = [1, 3] ∧
     (UniteRoot (SeparateRoot demoInit 0).1 0 [1, 3] 0).SubTreeSize
       = wrap64 (((SeparateRoot demoInit 0).1 0).SubTreeSize
         + ([1, 3].map fun c => ((SeparateRoot demoInit 0).1 c).SubTreeSize).sum) ∧
     (∀ q, q ≠ 0 → UniteRoot (SeparateRoot demoInit 0).1 0 [1, 3] q
       = (SeparateRoot demoInit 0).1 q) ∧
     (((SeparateRoot demoInit 0).1 0).SubTreeSize = ((SeparateRoot demoInit 0).1 0).NodeSize →
       (UniteRoot (SeparateRoot demoInit 0).1 0 [1, 3] 0).SubTreeSize
         = wrap64 ((UniteRoot (SeparateRoot demoInit 0).1 0 [1, 3] 0).NodeSize
           + ([1, 3].map fun c =>
               (UniteRoot (SeparateRoot demoInit 0).1 0 [1, 3] c).SubTreeSize).sum))) :=
  ⟨by decide, UniteRoot_adds (SeparateRoot demoInit 0).1 0 [1, 3] (by decide) (by decide)⟩

/-- C15 (fails on the code): on the initialised scenario tree `D` is not a child of `A`, yet
`RemoveChild(A, D)` is not a no-op: it leaves the `Children` lists and every `NodeSize` alone
but lowers `SubTreeSize(A)` from `20` to `18`, because the sizes are subtracted along the
`Parent` chain before the child is looked for. -/
theorem RemoveChild_absent_child_changes_size :
    2 ∉ (demoInit 0).Children ∧ (demoInit 0).SubTreeSize = 20 ∧
    (RemoveChild 8 demoInit 0 2).toOption.map
        (fun h1 => ((h1 0).Children, (h1 0).NodeSize, (h1 0).SubTreeSize, (h1 2).SubTreeSize))
      = some ([1, 3], 10, 18, 2) := by
  decide

/-- C12: for a partition root `r` (no parent, the children's `Parent` links name `r`),
`SeparateRoot(r)` leaves `r` without children and with `SubTreeSize(r) = NodeSize(r)`, changes
no other node (so every former child keeps its `SubTreeSize`), returns as reunitable list the
former children in their order, and returns as separated list a permutation of the former
children plus `r` that is sorted by non-increasing `SubTreeSize` as it stands after the
reset. -/
theorem SeparateRoot_spec (h : PHeap) (r : Nat) (hroot : (h r).Parent = none)
    (hlinks : ∀ c ∈ (h r).Children, (h c).Parent = some r) :
    ((SeparateRoot h r).1 r).Children = [] ∧
    ((SeparateRoot h r).1 r).SubTreeSize = (h r).NodeSize ∧
    (∀ q, q ≠ r → (SeparateRoot h r).1 q = h q) ∧
    (∀ c ∈ (h r).Children, ((SeparateRoot h r).1 c).SubTreeSize = (h c).SubTreeSize) ∧
    (SeparateRoot h r).2.2 = (h r).Children ∧
    (SeparateRoot h r).2.1.Perm ((h r).Children ++ [r]) ∧
    (SeparateRoot h r).2.1.Sorted
      (fun a b => ((SeparateRoot h r).1 b).SubTreeSize ≤ ((SeparateRoot h r).1 a).SubTreeSize) := by
  have hr : r ∉ (h r).Children := by
    intro hmem
    have := hlinks r hmem
    rw [hroot] at this
    cases this
  refine ⟨by simp [SeparateRoot], by simp [SeparateRoot],
    fun q hq => by simp [SeparateRoot, Function.update_noteq hq], fun c hc => ?_, rfl,
    List.perm_insertionSort _ _, ?_⟩
  · have hcr : c ≠ r := fun e => hr (e ▸ hc)
    simp [SeparateRoot, Function.update_noteq hcr]
  · haveI : IsTotal Nat (sizeGe (SeparateRoot h r).1) := ⟨fun a b => le_total _ _⟩
    haveI : IsTrans Nat (sizeGe (SeparateRoot h r).1) := ⟨fun a b c hab hbc => le_trans hbc hab⟩
    exact List.sorted_insertionSort (sizeGe (SeparateRoot h r).1) _

/-- C12, checked on the initialised scenario tree at its root `A`. -/
theorem SeparateRoot_spec_witness :
    ((demoInit 0).Parent = none ∧ ∀ c ∈ (demoInit 0).Children, (demoInit c).Parent = some 0) ∧
    (((SeparateRoot demoInit 0).1 0).Children = [] ∧
     ((SeparateRoot demoInit 0).1 0).SubTreeSize = (demoInit 0).NodeSize ∧
     (∀ q, q ≠ 0 → (SeparateRoot demoInit 0).1 q = demoInit q) ∧
     (∀ c ∈ (demoInit 0).Children,
       ((SeparateRoot demoInit 0).1 c).SubTreeSize = (demoInit c).SubTreeSize) ∧
     (SeparateRoot demoInit 0).2.2 = (demoInit 0).Children ∧
     (SeparateRoot demoInit 0).2.1.Perm ((demoInit 0).Children ++ [0]) ∧
     (SeparateRoot demoInit 0).2.1.Sorted
       (fun a b => ((SeparateRoot demoInit 0).1 b).SubTreeSize
         ≤ ((SeparateRoot demoInit 0).1 a).SubTreeSize)) :=
  ⟨by decide, SeparateRoot_spec demoInit 0 (by decide) (by decide)⟩

/-- C16: for every node `n` whose `Parent` chain ends within the fuel (is finite and acyclic)
and every signed `tasks`, `AddToNodeSize(n, tasks)` runs to completion, adds `tasks` to
`NodeSize(n)`, adds `tasks` to `SubTreeSize` of `n` and of every ancestor of `n`, and leaves
every other `NodeSize`, every other `SubTreeSize`, all names and all `Parent`/`Children` links
unchanged; in a partition tree (links agree) it keeps the subtree-sum invariant at every node
where it held. -/
theorem AddToNodeSize_frame (h : PHeap) (n fuel : Nat) (tasks : Int)
    (hend : parIter h.par fuel n = none) :
    ∃ h', AddToNodeSize fuel h n tasks = .ok h' ∧
      (h' n).NodeSize = add64 (h n).NodeSize tasks ∧
      (∀ k a, parIter h.par k n = some a →
        (h' a).SubTreeSize = add64 (h a).SubTreeSize tasks) ∧
      (∀ q, q ≠ n → (h' q).NodeSize = (h q).NodeSize) ∧
      (∀ q, (∀ k, parIter h.par k n ≠ some q) → (h' q).SubTreeSize = (h q).SubTreeSize) ∧
      SameLinks h h' ∧
      (∀ N, PWF h N → n < N → N ≤ fuel → ∀ q < N, SumInv h q → SumInv h' q) := by
  obtain ⟨h', hrun, hq⟩ := AddToNodeSize_eq tasks hend
  refine ⟨h', hrun, by rw [hq n]; simp, ?_, fun q hqn => by rw [hq q]; simp [hqn], ?_,
    fun q => by rw [hq q]; exact ⟨rfl, rfl, rfl⟩, ?_⟩
  · intro k a hk
    have hkf : k < fuel := by
      by_contra hge
      have := parIter_none_mono (Nat.le_of_not_lt hge) hend
      rw [hk] at this
      cases this
    have hmem : a ∈ ancF h.par fuel (some n) := mem_ancF.2 ⟨k, hkf, hk⟩
    rw [hq a]
    simp [hmem]
  · intro q hno
    have hmem : q ∉ ancF h.par fuel (some n) := by
      intro hm
      obtain ⟨k, _, hk⟩ := mem_ancF.1 hm
      exact hno k hk
    rw [hq q]
    simp [hmem]
  · intro N hw hn hfuel q hqN hinv
    obtain ⟨h'', hrun', _, _, _, hkeep⟩ := AddToNodeSize_inv hw hn hfuel tasks
    have : h'' = h' := by
      rw [hrun] at hrun'
      simpa using hrun'.symm
    rw [← this]
    exact hkeep q hqN hinv

/-- C16, checked on the initialised scenario tree at `D` with `tasks = -4`. -/
theorem AddToNodeSize_frame_witness :
    parIter demoInit.par 8 2 = none ∧
    ∃ h', AddToNodeSize 8 demoInit 2 (-4) = .ok h' ∧
      (h' 2).NodeSize = add64 (demoInit 2).NodeSize (-4) ∧
      (∀ k a, parIter demoInit.par k 2 = some a →
        (h' a).SubTreeSize = add64 (demoInit a).SubTreeSize (-4)) ∧
      (∀ q, q ≠ 2 → (h' q).NodeSize = (demoInit q).NodeSize) ∧
      (∀ q, (∀ k, parIter demoInit.par k 2 ≠ some q) →
        (h' q).SubTreeSize = (demoInit q).SubTreeSize) ∧
      SameLinks demoInit h' ∧
      (∀ N, PWF demoInit N → 2 < N → N ≤ 8 → ∀ q < N, SumInv demoInit q → SumInv h' q) :=
  ⟨by decide, AddToNodeSize_frame demoInit 2 8 (-4) (by decide)⟩

theorem preT_parent_mem {h : Heap} {N : Nat} (hL : Links h.par h.ch N) {r : Nat} (hrN : r < N)
    (fuel : Nat) {x : Nat} (hx : x ∈ preT h.ch fuel r) (hne : x ≠ r) :
    ∃ p ∈ preT h.ch fuel r, (h x).Parent = some p ∧ x ∈ (h p).Children := by
  have hxN := preT_lt hL hrN hx
  obtain ⟨k, hk, hkx⟩ := (mem_preT_iff hL fuel hrN hxN).1 hx
  cases k with
  | zero => exact absurd (by simpa [parIter] using hkx) hne
  | succ k =>
    rw [parIter] at hkx
    cases hp : h.par x with
    | none => rw [hp] at hkx; cases hkx
    | some p =>
      rw [hp] at hkx
      obtain ⟨hpN, hmem⟩ := hL.parent x hxN p (by simp [hp])
      exact ⟨p, (mem_preT_iff hL fuel hrN hpN).2 ⟨k, by omega, hkx⟩, hp, hmem⟩

/-- C18: for every edge mapping with pairwise distinct keys (a map) that contains a self-edge,
in whatever order its entries are iterated, and every fuel of at least twice the number of
entries: `buildTree` returns a root `r`; `AllNodes(r)` terminates with a list `l` without
repetition in which `r` has no parent and every other node has its `Parent` in `l` and is
listed among that parent's `Children` (the reachable nodes form a finite tree); `isAcyclicDFS`
returns `true` on the map that `ValidateTree` seeds from `l`; `ValidateTree` returns `true`; and
`NewTree` returns `r` with no error. -/
theorem NewTree_self_edge_accepted (es : List (String × String))
    (hkeys : (es.map Prod.fst).Nodup) (hself : ∃ e ∈ es, e.1 = e.2) (fuel : Nat)
    (hfuel : 2 * es.length ≤ fuel) :
    ∃ s r l visited, buildTree es = .ok s ∧ s.root = some r ∧
      AllNodes fuel s.heap (some r) = .ok (l, none) ∧ l.Nodup ∧ r ∈ l ∧
      (s.heap r).Parent = none ∧
      (∀ x ∈ l, x ≠ r → ∃ p ∈ l, (s.heap x).Parent = some p ∧ x ∈ (s.heap p).Children) ∧
      isAcyclicDFS s.heap fuel r (l.foldl (fun m node => m.set node false) [])
        = .ok (true, visited) ∧
      ValidateTree fuel s.heap s.root = .ok true ∧
      NewTree fuel es = .ok ⟨s.heap, some r, none⟩ := by
  obtain ⟨s, hs, hI⟩ := buildTree_inv es hkeys
  cases hr : s.root with
  | none =>
    obtain ⟨e, he, hee⟩ := hself
    exact absurd hee (hI.root_none hr e he)
  | some r =>
    obtain ⟨hrN, hrpar, _⟩ := root_parent_none hI hkeys hr
    have hN : s.next ≤ fuel := le_trans hI.next_le hfuel
    have hsh : Shallow s.heap.par s.next fuel r :=
      shallow_mono hN (shallow_root hI.links hrpar)
    have hnd := nodup_preT_root hI.links hrN (show s.heap.par r = none from hrpar) fuel
    have hrmem : r ∈ preT s.heap.ch fuel r :=
      (mem_preT_iff hI.links fuel hrN hrN).2 ⟨0, by omega, rfl⟩
    have hdfs := isAcyclicDFS_tree hI.links fuel hrN hsh
      ((preT s.heap.ch fuel r).foldl (fun m node => m.set node false) []) hnd
      (fun a _ => get_seed _ [] a (by simp [VMap.get]))
    have hval := ValidateTree_root hI.links hrN hrpar fuel hN
    exact ⟨s, r, preT s.heap.ch fuel r, _, hs, hr,
      AllNodes_root hI.links hrN hrpar fuel hN, hnd, hrmem, hrpar,
      fun x hx hne => preT_parent_mem hI.links hrN fuel hx hne, hdfs, by rw [hr]; exact hval,
      by simp only [NewTree, hs, hr, hval]⟩

/-- C18, checked on `A -> A, B -> C, C -> B` (a self-edge next to an unreachable cycle) and
on the mapping `B -> B, A -> A`, whose root is the node of the self-edge iterated last. -/
theorem NewTree_self_edge_accepted_witness :
    (∃ s r l visited, buildTree [("A", "A"), ("B", "C"), ("C", "B")] = .ok s ∧
      s.root = some r ∧ AllNodes 6 s.heap (some r) = .ok (l, none) ∧ l.Nodup ∧ r ∈ l ∧
      (s.heap r).Parent = none ∧
      (∀ x ∈ l, x ≠ r → ∃ p ∈ l, (s.heap x).Parent = some p ∧ x ∈ (s.heap p).Children) ∧
      isAcyclicDFS s.heap 6 r (l.foldl (fun m node => m.set node false) [])
        = .ok (true, visited) ∧
      ValidateTree 6 s.heap s.root = .ok true ∧
      NewTree 6 [("A", "A"), ("B", "C"), ("C", "B")] = .ok ⟨s.heap, some r, none⟩) ∧
    (NewTree 4 [("B", "B"), ("A", "A")]).toOption.map
        (fun t => (t.root.map fun r => (t.heap r).Name, t.err)) = some (some "A", none) :=
  ⟨NewTree_self_edge_accepted [("A", "A"), ("B", "C"), ("C", "B")] (by decide)
     ⟨("A", "A"), by decide, rfl⟩ 6 (by decide),
   by decide⟩

/-- C19: separation conserves the total weight.  Let `p` satisfy the subtree-sum invariant at
`p`; nothing is asked of the rest of the heap, so a heap left by earlier detachments is
covered.  When `p` is not listed among its own children, the `int64` sum of `SubTreeSize` over
the separated list of `SeparateRoot(p)` is `SubTreeSize(p)` before the call.  When the `Parent`
chain of `p` ends within the fuel and `SeparateMaxChild(p)` detaches a child `m` that is neither
`p` nor an ancestor of `p`, the `int64` sum of `SubTreeSize` over its two separated nodes is
`SubTreeSize(p)` before the call.  Both are the exact sums when nothing overflows. -/
theorem separation_conserves_weight (h : PHeap) (p : Nat) (hinv : SumInv h p) :
    (p ∉ (h p).Children →
      wrap64 ((SeparateRoot h p).2.1.map fun q => ((SeparateRoot h p).1 q).SubTreeSize).sum
        = (h p).SubTreeSize ∧
      (isInt64 ((SeparateRoot h p).2.1.map fun q => ((SeparateRoot h p).1 q).SubTreeSize).sum →
        ((SeparateRoot h p).2.1.map fun q => ((SeparateRoot h p).1 q).SubTreeSize).sum
          = (h p).SubTreeSize)) ∧
    (∀ fuel m, parIter h.par fuel p = none →
      (maxChildLoop h (h p).Children (none, 0)).1 = some m →
      m ∉ ancF h.par fuel (some p) →
      ∃ h1 first second, SeparateMaxChild fuel h p = .ok (h1, [first, second], [m]) ∧
        wrap64 ((h1 first).SubTreeSize + (h1 second).SubTreeSize) = (h p).SubTreeSize ∧
        (isInt64 ((h p).SubTreeSize - (h m).SubTreeSize) →
          (h1 first).SubTreeSize + (h1 second).SubTreeSize = (h p).SubTreeSize)) := by
  have hrange : isInt64 (h p).SubTreeSize := by
    rw [hinv]; exact isInt64_wrap64 _
  constructor
  · intro hself
    have hsum : ((SeparateRoot h p).2.1.map fun q => ((SeparateRoot h p).1 q).SubTreeSize).sum
        = (h p).NodeSize + ((h p).Children.map fun c => (h c).SubTreeSize).sum := by
      have hperm : (SeparateRoot h p).2.1.Perm ((h p).Children ++ [p]) :=
        List.perm_insertionSort _ _
      rw [(hperm.map _).sum_eq, List.map_append, List.sum_append]
      have h1 : ((h p).Children.map fun q => ((SeparateRoot h p).1 q).SubTreeSize)
          = (h p).Children.map fun c => (h c).SubTreeSize := by
        apply List.map_congr_left
        intro c hc
        have hcp : c ≠ p := fun e => hself (e ▸ hc)
        simp [SeparateRoot, Function.update_noteq hcp]
      rw [h1]
      simp [SeparateRoot]
      ring
    rw [hsum]
    exact ⟨hinv.symm, fun hfit => by rw [hinv, wrap64_of_isInt64 hfit]⟩
  · intro fuel m hend hm hoff
    obtain ⟨h1, hrun, _, _, hSp, hout⟩ := RemoveChild_run m hend
    have hSm : (h1 m).SubTreeSize = (h m).SubTreeSize := hout m hoff
    have hkey : wrap64 ((h1 p).SubTreeSize + (h1 m).SubTreeSize) = (h p).SubTreeSize ∧
        (isInt64 ((h p).SubTreeSize - (h m).SubTreeSize) →
          (h1 p).SubTreeSize + (h1 m).SubTreeSize = (h p).SubTreeSize) := by
      rw [hSp, hSm]
      unfold isInt64 at hrange ⊢
      unfold sub64 wrap64
      constructor
      · omega
      · intro hfit; omega
    by_cases hgt : (h1 m).SubTreeSize > (h1 p).SubTreeSize
    · refine ⟨h1, m, p, by simp only [SeparateMaxChild, hm, hrun, if_pos hgt], ?_, ?_⟩
      · rw [add_comm]; exact hkey.1
      · intro hfit; rw [add_comm]; exact hkey.2 hfit
    · exact ⟨h1, p, m, by simp only [SeparateMaxChild, hm, hrun, if_neg hgt], hkey.1, hkey.2⟩

/-- C19, checked on the initialised scenario tree at its root `A` (`SubTreeSize 20`):
`SeparateRoot` yields sizes `10 + 7 + 3`, `SeparateMaxChild` yields `13 + 7`; and checked on
the heap that `SeparateRoot(A)` leaves, which is no partition tree any more, at `B`
(`SubTreeSize 7`): `SeparateMaxChild(B)` yields `5 + 2`. -/
theorem separation_conserves_weight_witness :
    ((SumInv demoInit 0 ∧ 0 ∉ (demoInit 0).Children ∧ parIter demoInit.par 8 0 = none ∧
        (maxChildLoop demoInit (demoInit 0).Children (none, 0)).1 = some 1 ∧
        1 ∉ ancF demoInit.par 8 (some 0)) ∧
      (¬ PWF demoSplit 4 ∧ SumInv demoSplit 1 ∧ parIter demoSplit.par 8 1 = none ∧
        (maxChildLoop demoSplit (demoSplit 1).Children (none, 0)).1 = some 2 ∧
        2 ∉ ancF demoSplit.par 8 (some 1))) ∧
    (wrap64 ((SeparateRoot demoInit 0).2.1.map
          fun q => ((SeparateRoot demoInit 0).1 q).SubTreeSize).sum
        = (demoInit 0).SubTreeSize ∧
      (isInt64 ((SeparateRoot demoInit 0).2.1.map
          fun q => ((SeparateRoot demoInit 0).1 q).SubTreeSize).sum →
        ((SeparateRoot demoInit 0).2.1.map
          fun q => ((SeparateRoot demoInit 0).1 q).SubTreeSize).sum
          = (demoInit 0).SubTreeSize)) ∧
    (∃ h1 first second, SeparateMaxChild 8 demoInit 0 = .ok (h1, [first, second], [1]) ∧
      wrap64 ((h1 first).SubTreeSize + (h1 second).SubTreeSize)
        = (demoInit 0).SubTreeSize ∧
      (isInt64 ((demoInit 0).SubTreeSize - (demoInit 1).SubTreeSize) →
        (h1 first).SubTreeSize + (h1 second).SubTreeSize = (demoInit 0).SubTreeSize)) ∧
    (∃ h1 first second, SeparateMaxChild 8 demoSplit 1 = .ok (h1, [first, second], [2]) ∧
      wrap64 ((h1 first).SubTreeSize + (h1 second).SubTreeSize)
        = (demoSplit 1).SubTreeSize ∧
      (isInt64 ((demoSplit 1).SubTreeSize - (demoSplit 2).SubTreeSize) →
        (h1 first).SubTreeSize + (h1 second).SubTreeSize = (demoSplit 1).SubTreeSize)) ∧
    ((SeparateRoot demoInit 0).2.1.map fun q => ((SeparateRoot demoInit 0).1 q).SubTreeSize)
      = [10, 7, 3] ∧
    (demoSplit 1).SubTreeSize = 7 ∧
    (SeparateMaxChild 8 demoSplit 1).toOption.map
        (fun r => r.2.1.map fun q => ((r.1 q).Name, (r.1 q).SubTreeSize))
      = some [("B", 5), ("D", 2)] :=
  ⟨by decide,
   (separation_conserves_weight demoInit 0 (by decide)).1 (by decide),
   (separation_conserves_weight demoInit 0 (by decide)).2 8 1 (by decide) (by decide)
     (by decide),
   (separation_conserves_weight demoSplit 1 (by decide)).2 8 2 (by decide) (by decide)
     (by decide),
   by decide, by decide, by decide⟩

theorem maxChildLoop_none (h : PHeap) (l : List Nat) (acc : Option Nat × Int)
    (hlt : ∀ c ∈ l, (h c).SubTreeSize < acc.2) : maxChildLoop h l acc = acc := by
  induction l with
  | nil => rfl
  | cons c l ih =>
    have hc := hlt c (List.mem_cons_self _ _)
    rw [maxChildLoop, if_neg (not_le.2 hc)]
    exact ih (fun x hx => hlt x (List.mem_cons_of_mem _ hx))

theorem maxChildLoop_last_max (h : PHeap) (l : List Nat) (acc : Option Nat × Int)
    (hex : ∃ c ∈ l, acc.2 ≤ (h c).SubTreeSize) :
    ∃ l1 m l2, l = l1 ++ m :: l2 ∧ maxChildLoop h l acc = (some m, (h m).SubTreeSize) ∧
      acc.2 ≤ (h m).SubTreeSize ∧ (∀ c ∈ l1, (h c).SubTreeSize ≤ (h m).SubTreeSize) ∧
      (∀ c ∈ l2, (h c).SubTreeSize < (h m).SubTreeSize) := by
  induction l generalizing acc with
  | nil =>
    obtain ⟨c, hc, _⟩ := hex
    cases hc
  | cons c l ih =>
    by_cases hge : (h c).SubTreeSize ≥ acc.2
    · rw [maxChildLoop, if_pos hge]
      by_cases hlater : ∃ x ∈ l, (h c).SubTreeSize ≤ (h x).SubTreeSize
      · obtain ⟨l1, m, l2, hl, hres, hacc, h1, h2⟩ := ih (some c, (h c).SubTreeSize) hlater
        refine ⟨c :: l1, m, l2, by rw [hl]; rfl, hres, le_trans hge hacc, ?_, h2⟩
        intro x hx
        rcases List.mem_cons.1 hx with e | e
        · rw [e]; exact hacc
        · exact h1 x e
      · have hlt : ∀ x ∈ l, (h x).SubTreeSize < (h c).SubTreeSize := by
          intro x hx
          by_contra hnot
          exact hlater ⟨x, hx, not_lt.1 hnot⟩
        refine ⟨[], c, l, rfl, ?_, hge, ?_, hlt⟩
        · exact maxChildLoop_none h l (some c, (h c).SubTreeSize) hlt
        · intro x hx
          exact absurd hx (List.not_mem_nil x)
    · rw [maxChildLoop, if_neg hge]
      have hex' : ∃ x ∈ l, acc.2 ≤ (h x).SubTreeSize := by
        obtain ⟨x, hx, hxa⟩ := hex
        rcases List.mem_cons.1 hx with e | e
        · rw [e] at hxa; exact absurd hxa hge
        · exact ⟨x, e, hxa⟩
      obtain ⟨l1, m, l2, hl, hres, hacc, h1, h2⟩ := ih acc hex'
      refine ⟨c :: l1, m, l2, by rw [hl]; rfl, hres, hacc, ?_, h2⟩
      intro x hx
      rcases List.mem_cons.1 hx with e | e
      · rw [e]; exact le_trans (le_of_lt (not_le.1 hge)) hacc
      · exact h1 x e

/-- C20: when the `Parent` chain of `p` ends within the fuel (nothing else is asked of the
heap, so a heap left by earlier detachments is covered), `SeparateMaxChild(p)` detaches a
child, that is returns a reunitable list `[m]`, exactly when some child of `p` has
`SubTreeSize >= 0`.  In that case the detached child `m` has the maximal `SubTreeSize` among the
children and is the last such child in `Children` order (every child after it is strictly
smaller); its first occurrence is removed from `p.Children`, which leaves the other children
in their order and without `m` when the children are distinct.  Otherwise (no children, or
only negative ones) the call returns two empty lists and the heap is unchanged. -/
theorem SeparateMaxChild_detaches_iff (h : PHeap) (p : Nat) (fuel : Nat)
    (hend : parIter h.par fuel p = none) :
    ((∃ h1 separate m, SeparateMaxChild fuel h p = .ok (h1, separate, [m])) ↔
      ∃ c ∈ (h p).Children, 0 ≤ (h c).SubTreeSize) ∧
    ((∃ c ∈ (h p).Children, 0 ≤ (h c).SubTreeSize) →
      ∃ l1 m l2, (h p).Children = l1 ++ m :: l2 ∧
        (∀ c ∈ (h p).Children, (h c).SubTreeSize ≤ (h m).SubTreeSize) ∧
        (∀ c ∈ l2, (h c).SubTreeSize < (h m).SubTreeSize) ∧
        ∃ h1 separate, SeparateMaxChild fuel h p = .ok (h1, separate, [m]) ∧
          (h1 p).Children = (h p).Children.erase m ∧
          ((h p).Children.Nodup → (h1 p).Children = l1 ++ l2 ∧ m ∉ (h1 p).Children)) ∧
    ((∀ c ∈ (h p).Children, (h c).SubTreeSize < 0) →
      SeparateMaxChild fuel h p = .ok (h, [], [])) := by
  have hnone : (∀ c ∈ (h p).Children, (h c).SubTreeSize < 0) →
      SeparateMaxChild fuel h p = .ok (h, [], []) := by
    intro hneg
    have hres := maxChildLoop_none h (h p).Children (none, 0) hneg
    simp only [SeparateMaxChild, hres]
  have hsome : (∃ c ∈ (h p).Children, 0 ≤ (h c).SubTreeSize) →
      ∃ l1 m l2, (h p).Children = l1 ++ m :: l2 ∧
        (∀ c ∈ (h p).Children, (h c).SubTreeSize ≤ (h m).SubTreeSize) ∧
        (∀ c ∈ l2, (h c).SubTreeSize < (h m).SubTreeSize) ∧
        ∃ h1 separate, SeparateMaxChild fuel h p = .ok (h1, separate, [m]) ∧
          (h1 p).Children = (h p).Children.erase m ∧
          ((h p).Children.Nodup → (h1 p).Children = l1 ++ l2 ∧ m ∉ (h1 p).Children) := by
    intro hex
    obtain ⟨l1, m, l2, hl, hres, _, h1, h2⟩ :=
      maxChildLoop_last_max h (h p).Children (none, 0) hex
    have hm : (maxChildLoop h (h p).Children (none, 0)).1 = some m := by rw [hres]
    obtain ⟨g, hrun, _, hC, _, _⟩ := RemoveChild_run m hend
    have hCp : (g p).Children = (h p).Children.erase m := by rw [hC p, if_pos rfl]
    have hsplit : (h p).Children.Nodup → (g p).Children = l1 ++ l2 ∧ m ∉ (g p).Children := by
      intro hnd
      have hm1 : m ∉ l1 := by
        intro hin
        rw [hl] at hnd
        exact (List.nodup_append.1 hnd).2.2 hin (List.mem_cons_self _ _)
      have hm12 : m ∉ l1 ++ l2 := by
        rw [hl] at hnd
        have hmid := (List.nodup_append.1 hnd).2.1
        rw [List.nodup_cons] at hmid
        intro hin
        rcases List.mem_append.1 hin with e | e
        · exact hm1 e
        · exact hmid.1 e
      have herase : (h p).Children.erase m = l1 ++ l2 := by
        rw [hl, List.erase_append_right _ hm1, List.erase_cons_head]
      rw [hCp, herase]
      exact ⟨rfl, hm12⟩
    refine ⟨l1, m, l2, hl, ?_, h2, ?_⟩
    · intro c hc
      rw [hl] at hc
      rcases List.mem_append.1 hc with e | e
      · exact h1 c e
      · rcases List.mem_cons.1 e with e' | e'
        · rw [e']
        · exact le_of_lt (h2 c e')
    · by_cases hgt : (g m).SubTreeSize > (g p).SubTreeSize
      · exact ⟨g, [m, p], by simp only [SeparateMaxChild, hm, hrun, if_pos hgt], hCp, hsplit⟩
      · exact ⟨g, [p, m], by simp only [SeparateMaxChild, hm, hrun, if_neg hgt], hCp, hsplit⟩
  refine ⟨⟨fun hdet => ?_, fun hex => ?_⟩, hsome, hnone⟩
  · by_contra hno
    have hneg : ∀ c ∈ (h p).Children, (h c).SubTreeSize < 0 := by
      intro c hc
      by_contra hge
      exact hno ⟨c, hc, not_lt.1 hge⟩
    obtain ⟨h1, separate, m, hrun⟩ := hdet
    rw [hnone hneg] at hrun
    simp at hrun
  · obtain ⟨_, m, _, _, _, _, h1, separate, hrun, _⟩ := hsome hex
    exact ⟨h1, separate, m, hrun⟩

/-- C20, checked on the initialised scenario tree at `A` (children `B` of size `7` and `C` of
size `3`: `B` is detached), on the heap that this call leaves, which is no partition tree any
more (a second call at `A` detaches `C`), on `pairNeg` at `A` (single child of size `-1`:
nothing is detached and the heap is returned as it was), and on `demoTie` at `A` (children `B`
and `C` both of size `3`: the later child `C`, at address `3`, is detached). -/
theorem SeparateMaxChild_detaches_iff_witness :
    ((parIter demoInit.par 8 0 = none ∧ ∃ c ∈ (demoInit 0).Children, 0 ≤ (demoInit c).SubTreeSize) ∧
      (¬ PWF demoPeeled 4 ∧ parIter demoPeeled.par 8 0 = none ∧
        ∃ c ∈ (demoPeeled 0).Children, 0 ≤ (demoPeeled c).SubTreeSize) ∧
      (parIter pairNeg.par 8 0 = none ∧
        ∀ c ∈ (pairNeg 0).Children, (pairNeg c).SubTreeSize < 0)) ∧
    (∃ l1 m l2, (demoInit 0).Children = l1 ++ m :: l2 ∧
        (∀ c ∈ (demoInit 0).Children, (demoInit c).SubTreeSize ≤ (demoInit m).SubTreeSize) ∧
        (∀ c ∈ l2, (demoInit c).SubTreeSize < (demoInit m).SubTreeSize) ∧
        ∃ h1 separate, SeparateMaxChild 8 demoInit 0 = .ok (h1, separate, [m]) ∧
          (h1 0).Children = (demoInit 0).Children.erase m ∧
          ((demoInit 0).Children.Nodup →
            (h1 0).Children = l1 ++ l2 ∧ m ∉ (h1 0).Children)) ∧
    (∃ h1 separate m, SeparateMaxChild 8 demoPeeled 0 = .ok (h1, separate, [m])) ∧
    SeparateMaxChild 8 pairNeg 0 = .ok (pairNeg, [], []) ∧
    ((demoTie 0).Children = [1, 3] ∧ (demoTie 1).SubTreeSize = 3 ∧
      (demoTie 3).SubTreeSize = 3) ∧
    (SeparateMaxChild 8 demoTie 0).toOption.map (fun r => (r.2.1, r.2.2, (r.1 0).Children))
      = some ([0, 3], [3], [1]) ∧
    (SeparateMaxChild 8 demoPeeled 0).toOption.map (fun r => (r.2.1, r.2.2, (r.1 0).Children))
      = some ([0, 3], [3], []) :=
  ⟨by decide,
   (SeparateMaxChild_detaches_iff demoInit 0 8 (by decide)).2.1 (by decide),
   (SeparateMaxChild_detaches_iff demoPeeled 0 8 (by decide)).1.2 (by decide),
   (SeparateMaxChild_detaches_iff pairNeg 0 8 (by decide)).2.2 (by decide),
   by decide, by decide, by decide⟩

section CopyShape

theorem preT_closed {par : Nat → Option Nat} {ch : Nat → List Nat} {N : Nat}
    (hL : Links par ch N) {f : Nat} {c : Nat} (hc : c < N) (hs : Shallow par N f c)
    {x y : Nat} (hx : x ∈ preT ch f c) (hy : y ∈ ch x) : y ∈ preT ch f c := by
  have hxN := preT_lt hL hc hx
  obtain ⟨k, _, hkx⟩ := (mem_preT_iff hL f hc hxN).1 hx
  obtain ⟨hyN, hpar⟩ := hL.child x hxN y hy
  have hky : parIter par (k + 1) y = some c := by simp [parIter, hpar, hkx]
  exact (mem_preT_iff hL f hc hyN).2 ⟨k + 1, hs y hyN (k + 1) hky, hky⟩

theorem self_mem_preT {par : Nat → Option Nat} {ch : Nat → List Nat} {N : Nat} {f : Nat}
    {c : Nat} (hc : c < N) (hs : Shallow par N f c) : c ∈ preT ch f c := by
  have h0 : 0 < f := hs c hc 0 rfl
  obtain ⟨f', rfl⟩ : ∃ f', f = f' + 1 := ⟨f - 1, by omega⟩
  rw [preT]
  exact List.mem_cons_self _ _

theorem shaped_glue {src : Heap} {hold hnew h2 : PHeap} {lo mid hi : Nat} {f g : Nat → Nat}
    {T1 T2 : List Nat} (h1 : Shaped src hold lo mid f T1) (h2' : Shaped src hnew mid hi g T2)
    (hlm : lo ≤ mid) (hmh : mid ≤ hi) (hdis : ∀ x ∈ T1, x ∉ T2)
    (hcl1 : ∀ x ∈ T1, ∀ y ∈ (src x).Children, y ∈ T1)
    (hcl2 : ∀ x ∈ T2, ∀ y ∈ (src x).Children, y ∈ T2)
    (hagree1 : ∀ a, lo ≤ a → a < mid → h2 a = hold a)
    (hagree2 : ∀ a, mid ≤ a → a < hi → h2 a = hnew a) :
    Shaped src h2 lo hi (fun x => if x ∈ T2 then g x else f x) (T1 ++ T2) := by
  have hf1 : ∀ x ∈ T1, (if x ∈ T2 then g x else f x) = f x := fun x hx => if_neg (hdis x hx)
  have hf2 : ∀ x ∈ T2, (if x ∈ T2 then g x else f x) = g x := fun x hx => if_pos hx
  have hmid := fun x hx => (h1.mirror x hx).2.1
  have hmid2 := fun x hx => (h2'.mirror x hx).1
  refine ⟨?_, ?_, ?_⟩
  · intro x hx
    rcases List.mem_append.1 hx with e | e
    · obtain ⟨g1, g2, g3, g4⟩ := h1.mirror x e
      simp only [hf1 x e]
      refine ⟨g1, by omega, ?_, ?_⟩
      · rw [hagree1 _ g1 g2]; exact g3
      · rw [hagree1 _ g1 g2, g4]
        apply List.map_congr_left
        intro y hy
        exact (hf1 y (hcl1 x e y hy)).symm
    · obtain ⟨g1, g2, g3, g4⟩ := h2'.mirror x e
      simp only [hf2 x e]
      refine ⟨by omega, g2, ?_, ?_⟩
      · rw [hagree2 _ g1 g2]; exact g3
      · rw [hagree2 _ g1 g2, g4]
        apply List.map_congr_left
        intro y hy
        exact (hf2 y (hcl2 x e y hy)).symm
  · intro a ha1 ha2
    by_cases ham : a < mid
    · obtain ⟨x, hx, hxa⟩ := h1.onto a ha1 ham
      exact ⟨x, List.mem_append_left _ hx, by simp only [hf1 x hx]; exact hxa⟩
    · obtain ⟨x, hx, hxa⟩ := h2'.onto a (by omega) ha2
      exact ⟨x, List.mem_append_right _ hx, by simp only [hf2 x hx]; exact hxa⟩
  · intro x hx y hy hxy
    rcases List.mem_append.1 hx with ex | ex <;> rcases List.mem_append.1 hy with ey | ey
    · simp only [hf1 x ex, hf1 y ey] at hxy
      exact h1.inj x ex y ey hxy
    · simp only [hf1 x ex, hf2 y ey] at hxy
      have a1 := hmid x ex
      have a2 := hmid2 y ey
      omega
    · simp only [hf2 x ex, hf1 y ey] at hxy
      have a1 := hmid y ey
      have a2 := hmid2 x ex
      omega
    · simp only [hf2 x ex, hf2 y ey] at hxy
      exact h2'.inj x ex y ey hxy

theorem shaped_cons {src : Heap} {h' : PHeap} {p hi : Nat} {f : Nat → Nat} {n : Nat}
    {T : List Nat} (hT : Shaped src h' (p + 1) hi f T) (hn : n ∉ T) (hfn : f n = p)
    (hphi : p < hi) (hname : (h' p).Name = (src n).Name)
    (hch : (h' p).Children = (src n).Children.map f) :
    Shaped src h' p hi f (n :: T) := by
  refine ⟨?_, ?_, ?_⟩
  · intro x hx
    rcases List.mem_cons.1 hx with e | e
    · subst e
      rw [hfn]
      exact ⟨le_refl _, hphi, hname, hch⟩
    · obtain ⟨g1, g2, g3, g4⟩ := hT.mirror x e
      exact ⟨by omega, g2, g3, g4⟩
  · intro a ha1 ha2
    by_cases hap : a = p
    · exact ⟨n, List.mem_cons_self _ _, by rw [hfn, hap]⟩
    · obtain ⟨x, hx, hxa⟩ := hT.onto a (by omega) ha2
      exact ⟨x, List.mem_cons_of_mem _ hx, hxa⟩
  · intro x hx y hy hxy
    rcases List.mem_cons.1 hx with ex | ex <;> rcases List.mem_cons.1 hy with ey | ey
    · rw [ex, ey]
    · subst ex
      have := (hT.mirror y ey).1
      omega
    · subst ey
      have := (hT.mirror x ex).1
      omega
    · exact hT.inj x ex y ey hxy

end CopyShape

section CopyShapeMain

theorem copyTree_shape {src : Heap} {M : Nat} (hL : Links src.par src.ch M) (fuel : Nat)
    {root : Nat} (hroot : root < M) (hs : Shallow src.par M fuel root)
    (hnd : (preT src.ch fuel root).Nodup) (parent : Option Nat) (st : CopyState) :
    ∃ st' f, copyTree src fuel root parent st = .ok (st.next, st') ∧
      Copied st st' st.next parent ∧ f root = st.next ∧
      Shaped src st'.heap st.next st'.next f (preT src.ch fuel root) := by
  induction fuel generalizing root parent st with
  | zero => exact absurd (hs root hroot 0 rfl) (Nat.lt_irrefl 0)
  | succ fuel ih =>
    rw [preT, List.nodup_cons] at hnd
    obtain ⟨hrootnot, hndch⟩ := hnd
    have hchild : ∀ c ∈ src.ch root, c < M ∧ Shallow src.par M fuel c :=
      fun c hc => ⟨(hL.child root hroot c hc).1, shallow_child hL hroot hc hs⟩
    have hloop : ∀ (L Ldone : List Nat), Ldone ++ L = src.ch root →
        ∀ (sti : CopyState) (f : Nat → Nat), Copied st sti st.next parent →
        f root = st.next → (sti.heap st.next).Name = (src root).Name →
        (sti.heap st.next).Children = Ldone.map f →
        Shaped src sti.heap (st.next + 1) sti.next f (Ldone.flatMap (preT src.ch fuel)) →
        ∃ st' f', L.foldlM
            (fun (acc : Nat × CopyState) child =>
              match copyTree src fuel child (some st.next) acc.2 with
              | Except.error e => (Except.error e : Except Fault (Nat × CopyState))
              | Except.ok (c, st1) =>
                Except.ok (st.next, ⟨Function.update st1.heap st.next
                  { st1.heap st.next with
                    Children := (st1.heap st.next).Children ++ [c] }, st1.next⟩))
            (st.next, sti) = Except.ok (st.next, st') ∧ Copied st st' st.next parent ∧
          f' root = st.next ∧ (st'.heap st.next).Name = (src root).Name ∧
          (st'.heap st.next).Children = (Ldone ++ L).map f' ∧
          Shaped src st'.heap (st.next + 1) st'.next f'
            ((Ldone ++ L).flatMap (preT src.ch fuel)) := by
      intro L
      induction L with
      | nil =>
        intro Ldone _ sti f hsti hf hname hch hshape
        exact ⟨sti, f, rfl, hsti, hf, hname, by simpa using hch, by simpa using hshape⟩
      | cons c L ihL =>
        intro Ldone hsplit sti f hsti hf hname hch hshape
        have hc : c ∈ src.ch root := by rw [← hsplit]; simp
        have hdone : ∀ x ∈ Ldone, x ∈ src.ch root := fun x hx => by
          rw [← hsplit]; exact List.mem_append_left _ hx
        have hnd' := hndch
        rw [← hsplit, List.flatMap_append, List.flatMap_cons, List.nodup_append] at hnd'
        obtain ⟨_, hnd2, hdisj⟩ := hnd'
        have hndc : (preT src.ch fuel c).Nodup := (List.nodup_append.1 hnd2).1
        have hdis : ∀ x ∈ Ldone.flatMap (preT src.ch fuel), x ∉ preT src.ch fuel c :=
          fun x hx hxc => hdisj hx (List.mem_append_left _ hxc)
        obtain ⟨st1, g, hrun1, hcop1, hgc, hshape1⟩ := ih (hchild c hc).1 (hchild c hc).2 hndc
          (some st.next) sti
        have hlt0 := hsti.next_lt
        have hlt1 := hcop1.next_lt
        have hcmem : c ∈ preT src.ch fuel c := self_mem_preT (hchild c hc).1 (hchild c hc).2
        have hrootc : root ∉ preT src.ch fuel c := fun hin =>
          hrootnot (List.mem_flatMap.2 ⟨c, hc, hin⟩)
        have hframe : ∀ a < sti.next, st1.heap a = sti.heap a := hcop1.frame
        have hatt := copied_attach hsti hcop1
          (Function.update st1.heap st.next
            { st1.heap st.next with Children := (st1.heap st.next).Children ++ [sti.next] })
          (fun q => by
            by_cases hq : q = st.next
            · subst hq; simp
            · rw [Function.update_noteq hq])
          (fun q => by
            by_cases hq : q = st.next
            · subst hq; simp
            · rw [Function.update_noteq hq])
          (fun q => by
            by_cases hq : q = st.next
            · subst hq; simp
            · rw [Function.update_noteq hq]; exact ⟨rfl, rfl⟩)
          (fun q => by
            by_cases hq : q = st.next
            · subst hq; simp
            · rw [Function.update_noteq hq, if_neg hq])
        have hglue := @shaped_glue src sti.heap st1.heap
          (Function.update st1.heap st.next
            { st1.heap st.next with Children := (st1.heap st.next).Children ++ [sti.next] })
          (st.next + 1) sti.next st1.next f g _ _ hshape hshape1 (by omega) (by omega) hdis
          (fun x hx y hy => by
            obtain ⟨c', hc', hxc'⟩ := List.mem_flatMap.1 hx
            exact List.mem_flatMap.2 ⟨c', hc',
              preT_closed hL (hchild c' (hdone c' hc')).1 (hchild c' (hdone c' hc')).2 hxc' hy⟩)
          (fun x hx y hy => preT_closed hL (hchild c hc).1 (hchild c hc).2 hx hy)
          (fun a ha1 ha2 => by
            rw [Function.update_noteq (by omega), hframe a ha2])
          (fun a ha1 ha2 => by
            rw [Function.update_noteq (by omega)])
        have hmapdone : Ldone.map (fun x => if x ∈ preT src.ch fuel c then g x else f x)
            = Ldone.map f := by
          apply List.map_congr_left
          intro x hx
          have hxin : x ∈ Ldone.flatMap (preT src.ch fuel) :=
            List.mem_flatMap.2 ⟨x, hx,
              self_mem_preT (hchild x (hdone x hx)).1 (hchild x (hdone x hx)).2⟩
          exact if_neg (hdis x hxin)
        obtain ⟨st', f', hrun', hcop', hf', hname', hch', hshape'⟩ :=
          ihL (Ldone ++ [c]) (by rw [List.append_assoc]; exact hsplit)
            ⟨Function.update st1.heap st.next
              { st1.heap st.next with Children := (st1.heap st.next).Children ++ [sti.next] },
              st1.next⟩
            (fun x => if x ∈ preT src.ch fuel c then g x else f x) hatt
            (by simp only [if_neg hrootc]; exact hf)
            (by
              show (Function.update st1.heap st.next _ st.next).Name = _
              rw [Function.update_same]
              show (st1.heap st.next).Name = _
              rw [hframe st.next hlt0]; exact hname)
            (by
              show (Function.update st1.heap st.next _ st.next).Children = _
              rw [Function.update_same]
              show (st1.heap st.next).Children ++ [sti.next] = _
              rw [hframe st.next hlt0, hch, List.map_append, hmapdone]
              simp [hcmem, hgc])
            (by
              rw [List.flatMap_append]
              simpa using hglue)
        refine ⟨st', f', ?_, hcop', hf', hname', ?_, ?_⟩
        · rw [List.foldlM_cons]
          simp only [hrun1]
          exact hrun'
        · rw [List.append_assoc] at hch'; exact hch'
        · rw [List.append_assoc] at hshape'; exact hshape'
    rw [copyTree]
    obtain ⟨st', f', hrun, hcop, hf, hname, hch, hshape⟩ :=
      hloop (src root).Children [] rfl
        ⟨Function.update st.heap st.next ⟨(src root).Name, parent, [], 0, 0⟩, st.next + 1⟩
        (fun _ => st.next) (copied_alloc st _ parent) rfl (by simp) (by simp)
        ⟨fun x hx => absurd hx (List.not_mem_nil x),
          fun a h1 h2 => absurd h1 (Nat.not_le.2 h2),
          fun x hx => absurd hx (List.not_mem_nil x)⟩
    refine ⟨st', f', hrun, hcop, hf, ?_⟩
    rw [preT]
    exact shaped_cons (by simpa using hshape) hrootnot hf hcop.next_lt hname
      (by simpa using hch)

end CopyShapeMain

/-- C17: for every finite plain tree (links agree on the `M` addresses, parentless root `r`),
`NewPartitionTree(r)` returns a partition tree of the same shape. With `l` the nodes of the
plain tree as `AllNodes` lists them, there is a copy map `f` with `f r` the returned root such
that the copy of every node of `l` has the same `Name`, its `Children` are the copies of the
source children in the same order, the `Parent` of each child's copy is the copy of the source
parent, the copied root has no `Parent`, `NodeSize = SubTreeSize = 0` at every copy, and `f` is
a bijection from `l` onto the nodes that were allocated. -/
theorem NewPartitionTree_shape (src : Heap) (M r : Nat) (hL : Links src.par src.ch M)
    (hr : r < M) (hpar : (src r).Parent = none) (fuel : Nat) (hfuel : M ≤ fuel) :
    ∃ st f l, NewPartitionTree fuel src (some r) = .ok (0, st) ∧
      AllNodes fuel src (some r) = .ok (l, none) ∧ r ∈ l ∧ f r = 0 ∧
      (st.heap 0).Parent = none ∧
      (∀ x ∈ l, f x < st.next ∧ (st.heap (f x)).Name = (src x).Name ∧
        (st.heap (f x)).Children = (src x).Children.map f ∧
        (∀ c ∈ (src x).Children, c ∈ l ∧ (st.heap (f c)).Parent = some (f x)) ∧
        (st.heap (f x)).NodeSize = 0 ∧ (st.heap (f x)).SubTreeSize = 0) ∧
      (∀ x ∈ l, ∀ y ∈ l, f x = f y → x = y) ∧
      (∀ a < st.next, ∃ x ∈ l, f x = a) := by
  have hs : Shallow src.par M fuel r :=
    shallow_mono hfuel (shallow_root hL (show src.par r = none from hpar))
  have hnd : (preT src.ch fuel r).Nodup :=
    nodup_preT_root hL hr (show src.par r = none from hpar) fuel
  obtain ⟨st, f, hrun, hcop, hfr, hshape⟩ := copyTree_shape hL fuel hr hs hnd none CopyState.init
  have h0 : CopyState.init.next = 0 := rfl
  rw [h0] at hrun hfr hshape
  have hcU := hcop.childUp
  have hz := hcop.zero
  rw [h0] at hcU hz
  refine ⟨st, f, preT src.ch fuel r, hrun, AllNodes_root hL hr hpar fuel hfuel,
    self_mem_preT hr hs, hfr, hcop.topParent, ?_, hshape.inj, ?_⟩
  · intro x hx
    obtain ⟨_, hlt, hname, hch⟩ := hshape.mirror x hx
    refine ⟨hlt, hname, hch, ?_, hz (f x) (Nat.zero_le _) hlt⟩
    intro c hc
    refine ⟨preT_closed hL hr hs hx hc, ?_⟩
    have hmem : f c ∈ (st.heap (f x)).Children := by
      rw [hch]; exact List.mem_map_of_mem f hc
    exact (hcU (f x) (Nat.zero_le _) hlt (f c) hmem).2.2
  · intro a ha
    exact hshape.onto a (Nat.zero_le a) ha

/-- C17, checked on the plain tree of `A -> A, B -> A, C -> A, D -> B` (`A` at `0`, `B` at `1`,
`C` at `2`, `D` at `3`): the copy has `A` at `0` with children `B` at `1` and `C` at `3`, and
`D` at `2` below `B`. -/
theorem NewPartitionTree_shape_witness :
    (Links demoPlain.par demoPlain.ch 4 ∧ (demoPlain 0).Parent = none) ∧
    (∃ st f l, NewPartitionTree 8 demoPlain (some 0) = .ok (0, st) ∧
      AllNodes 8 demoPlain (some 0) = .ok (l, none) ∧ 0 ∈ l ∧ f 0 = 0 ∧
      (st.heap 0).Parent = none ∧
      (∀ x ∈ l, f x < st.next ∧ (st.heap (f x)).Name = (demoPlain x).Name ∧
        (st.heap (f x)).Children = (demoPlain x).Children.map f ∧
        (∀ c ∈ (demoPlain x).Children, c ∈ l ∧ (st.heap (f c)).Parent = some (f x)) ∧
        (st.heap (f x)).NodeSize = 0 ∧ (st.heap (f x)).SubTreeSize = 0) ∧
      (∀ x ∈ l, ∀ y ∈ l, f x = f y → x = y) ∧
      (∀ a < st.next, ∃ x ∈ l, f x = a)) ∧
    ((List.range 4).map (fun q => ((demoPlain q).Name, (demoPlain q).Children))
      = [("A", [1, 2]), ("B", [3]), ("C", []), ("D", [])]) ∧
    ((List.range 4).map (fun q => ((demoPart q).Name, (demoPart q).Children))
      = [("A", [1, 3]), ("B", [2]), ("D", []), ("C", [])]) ∧
    ((List.range 4).map (fun q => (demoPart q).Parent) = [none, some 0, some 1, some 0]) :=
  ⟨⟨⟨by decide, by decide, by decide⟩, by decide⟩,
    NewPartitionTree_shape demoPlain 4 0 ⟨by decide, by decide, by decide⟩ (by decide)
      (by decide) 8 (by decide),
    by decide, by decide, by decide⟩

end Dhsbpp
